import Mathlib

/-!
# vega-dataflow: Pulse change-sets, tuple identity, lookup and unique lists

A shallow embedding of `src/Pulse.js`, `src/Tuple.js`, `src/data/Lookup.js` and
`src/util/UniqueList.js`.

* JavaScript values are a small inductive type; an object is a record with its
  `_id` slot, its `_prev` slot and its remaining properties. An object value carries
  its identity, and a property that is not an own property is read from `Object.prototype`.
* Arrays are lists. A visitor callback is modelled by the list of tuples it is
  called with, in call order.
* A call that throws a `TypeError` returns `none`.
-/

namespace Dataflow

/-! ## Values and tuples -/

/-- A JavaScript object as the tuple code sees it, a plain object whose prototype is
`Object.prototype`: the `_id` property (`none` when it was never assigned), the `_prev` property
and all remaining own properties in insertion order. -/
structure Record (V : Type) where
  _id : Option Nat
  _prev : V
  fields : List (String × V)

/-- JavaScript values that occur in tuples. Numbers are the integers and `NaN`. An object value
carries its identity `ref`: two object values are the same object exactly when their `ref`s
agree. A `builtin` is a member that plain objects inherit from `Object.prototype`, named by its
property name. -/
inductive Value where
  | undefined
  | null
  | bool (b : Bool)
  | num (n : Int)
  | str (s : String)
  | object (ref : Nat) (o : Record Value)
  | nan
  | builtin (name : String)

/-- A data tuple is an object. -/
abbrev Tuple := Record Value

/-- JavaScript truthiness (`ToBoolean`). -/
def Value.truthy : Value → Bool
  | .undefined => false
  | .null => false
  | .bool b => b
  | .num n => n != 0
  | .str s => s != ""
  | .object _ _ => true
  | .nan => false
  | .builtin _ => true

/-! ## Pulse flags -/

/-- Flag for the added tuples. -/
def ADD : Nat := 1 <<< 0

/-- Flag for the removed tuples. -/
def REM : Nat := 1 <<< 1

/-- Flag for the modified tuples. -/
def MOD : Nat := 1 <<< 2

/-- Flags for the added, removed and modified tuples. -/
def ALL : Nat := ADD ||| REM ||| MOD

/-- Flag for all tuples of the source except the add, rem and mod tuples. -/
def REFLOW : Nat := 1 <<< 3

/-- Flag for a pass-through to the backing source. -/
def SOURCE : Nat := 1 <<< 4

/-- Flag that suppresses the source in a forked pulse. -/
def NO_SOURCE : Nat := 1 <<< 5

/-- Truthiness of the JavaScript expression `flags & bit`. -/
def has (flags bit : Nat) : Bool := flags &&& bit != 0

/-! ## Pulses -/

/-- A lazy filter `function(t, i)`: only the truthiness of its result is used. -/
abbrev Filter := Tuple → Nat → Bool

/-- The `fields` hash of a pulse, an object created by `{}`: the own property names, each of
which was assigned the value `1`, in assignment order. -/
structure Hash where
  own : List String

/-- The property names every object created by `{}` inherits from `Object.prototype`. -/
def objectPrototypeKeys : List String :=
  ["constructor", "hasOwnProperty", "isPrototypeOf", "propertyIsEnumerable", "toLocaleString",
   "toString", "valueOf", "__proto__", "__defineGetter__", "__defineSetter__",
   "__lookupGetter__", "__lookupSetter__"]

/-- The value of the `Object.prototype` member that a plain object inherits under the property
name `k`: a function, or the prototype itself for `__proto__`. -/
def inheritedMember (k : String) : Value := .builtin k

/-- Property read `hash[f]`: an own property holds `1`, otherwise the prototype chain is searched. -/
def Hash.get (hash : Hash) (f : String) : Value :=
  if hash.own.contains f then .num 1
  else if objectPrototypeKeys.contains f then inheritedMember f
  else .undefined

/-- Property write `hash[f] = 1`. Writing a number to `__proto__` runs the inherited setter,
which ignores values that are not objects, so no own property is created. -/
def Hash.set (hash : Hash) (f : String) : Hash :=
  if f == "__proto__" then hash
  else if hash.own.contains f then hash
  else ⟨hash.own ++ [f]⟩

/-- The argument of `modifies` and `modified`: a field name or an array of field names. -/
inductive FieldArg where
  | name (f : String)
  | names (fs : List String)

/-- The state of a `Pulse` object. Properties that the constructor does not assign
(`source`, `addF`, `remF`, `modF`) start out `undefined`, which is `none` here, as is `null`. -/
structure Pulse where
  dataflow : Nat
  stamp : Int
  add : List Tuple
  rem : List Tuple
  mod : List Tuple
  fields : Option Hash
  encode : Option String
  source : Option (List Tuple)
  addF : Option Filter
  remF : Option Filter
  modF : Option Filter

/-- The constructor `Pulse(dataflow, stamp)`. -/
def Pulse.new (dataflow : Nat) (stamp : Option Int) : Pulse :=
  { dataflow := dataflow
    stamp := match stamp with
      | none => -1
      | some s => s
    add := []
    rem := []
    mod := []
    fields := none
    encode := none
    source := none
    addF := none
    remF := none
    modF := none }

/-- Method `init(src, flags)` on the pulse `p`. The assignment `p.fields = src.fields` copies a
reference to the hash object, so that both pulses hold one object; a pulse value shows the
content of that object at the time of the call. What a later `modifies` on one of the two
pulses does to the other is the subject of `FieldsStore`, where hash objects have addresses. -/
def Pulse.init (p : Pulse) (src : Pulse) (flags : Nat) : Pulse :=
  let p := { p with stamp := src.stamp }
  let p := { p with source := if has flags NO_SOURCE then none else src.source }
  let p := { p with encode := src.encode }
  let p := if src.fields.isSome then { p with fields := src.fields } else p
  let p := if has flags ADD then { p with addF := src.addF, add := src.add }
           else { p with addF := none, add := [] }
  let p := if has flags REM then { p with remF := src.remF, rem := src.rem }
           else { p with remF := none, rem := [] }
  let p := if has flags MOD then { p with modF := src.modF, mod := src.mod }
           else { p with modF := none, mod := [] }
  p

/-- Method `fork(flags)`. -/
def Pulse.fork (p : Pulse) (flags : Nat) : Pulse :=
  (Pulse.new p.dataflow none).init p flags

/-- JavaScript `Array.prototype.filter` from index `i` on: the callback receives the element
and its index in the original array; the elements with a truthy result are kept, in order. -/
def filterFrom (f : Filter) : Nat → List Tuple → List Tuple
  | _, [] => []
  | i, t :: ts => if f t i then t :: filterFrom f (i + 1) ts else filterFrom f (i + 1) ts

/-- JavaScript `array.filter(f)`. -/
def arrayFilter (array : List Tuple) (f : Filter) : List Tuple :=
  filterFrom f 0 array

/-- Modelled from the spec: the helper `visit(array, filter, visitor)` that `Pulse.js` imports
from `./util/Arrays`, a file that is not among the sources. Following the description of
`Pulse.visit` ("invokes `visitor` for every tuple matching the requested kind flags, honoring
any uncommitted lazy filter without mutating the Pulse's stored arrays") it calls the visitor on
every element of `array` when there is no filter and on the elements accepted by the filter
otherwise, in array order. The result is the list of tuples handed to the visitor. -/
def Arrays.visit (array : List Tuple) (filter : Option Filter) : List Tuple :=
  match filter with
  | none => array
  | some f => arrayFilter array f

/-- Function `addFilter(a, b)`. -/
def addFilter (a : Option Filter) (b : Filter) : Filter :=
  match a with
  | some a => fun t i => a t i && b t i
  | none => b

/-- Method `filter(flags, filter)`. -/
def Pulse.filter (p : Pulse) (flags : Nat) (filter : Filter) : Pulse :=
  let p := if has flags ADD then { p with addF := some (addFilter p.addF filter) } else p
  let p := if has flags REM then { p with remF := some (addFilter p.remF filter) } else p
  let p := if has flags MOD then { p with modF := some (addFilter p.modF filter) } else p
  p

/-- Method `materialize(flags)`. -/
def Pulse.materialize (p : Pulse) (flags : Nat) : Pulse :=
  let flags := if flags != 0 then flags else ALL
  let p := match has flags ADD, p.addF with
    | true, some f => { p with add := arrayFilter p.add f, addF := none }
    | _, _ => p
  let p := match has flags REM, p.remF with
    | true, some f => { p with rem := arrayFilter p.rem f, remF := none }
    | _, _ => p
  let p := match has flags MOD, p.modF with
    | true, some f => { p with mod := arrayFilter p.mod f, modF := none }
    | _, _ => p
  p

/-- JavaScript `sum === src` where `sum` is a number and `src` an array object: operands of
different types are never strictly equal. -/
def strictEqNumberArray (_sum : Nat) (_src : List Tuple) : Bool := false

mutual

/-- Method `visit(flags, visitor)`: the tuples handed to `visitor`, in call order, together with
the returned pulse (`this`); `none` when the call throws (`this.source.forEach` without a
source). -/
def Pulse.visit (p : Pulse) (flags : Nat) : Option (List Tuple × Pulse) :=
  if has flags SOURCE then
    match p.source with
    | none => none
    | some source => some (source, p)
  else
    let v1 := if has flags ADD then Arrays.visit p.add p.addF else []
    let v2 := if has flags REM then Arrays.visit p.rem p.remF else []
    let v3 := if has flags MOD then Arrays.visit p.mod p.modF else []
    if _h : has flags REFLOW = true then
      match p.source with
      | none => some (v1 ++ v2 ++ v3, p)
      | some src =>
        let sum := p.add.length + p.mod.length
        if strictEqNumberArray sum src then
          some (v1 ++ v2 ++ v3, p)
        else if sum != 0 then
          match Dataflow.filter p (ADD ||| MOD) with
          | none => none
          | some f => some (v1 ++ v2 ++ v3 ++ Arrays.visit src (some f), p)
        else
          some (v1 ++ v2 ++ v3 ++ src, p)
    else
      some (v1 ++ v2 ++ v3, p)
termination_by (if has flags REFLOW then 2 else 0)
decreasing_by
  simp only [_h]
  decide

/-- Function `filter(pulse, flags)`: records the `_id` of every tuple that `pulse.visit(flags, ...)`
delivers in `map` and returns the predicate that rejects exactly the tuples whose `_id` is
recorded. -/
def filter (pulse : Pulse) (flags : Nat) : Option Filter :=
  match pulse.visit flags with
  | none => none
  | some (visited, _) =>
    let map := visited.map (fun t => t._id)
    some (fun t _ => !map.contains t._id)
termination_by (if has flags REFLOW then 2 else 0) + 1
decreasing_by
  omega

end

/-- Modelled from the spec: the helper `array(_)` that `Pulse.js` imports from `./util/Arrays`,
a file that is not among the sources. `modifies(fieldNames)` records the named fields, so the
helper turns a single field name into a one-element array and leaves an array as it is. -/
def Arrays.array (arg : FieldArg) : List String :=
  match arg with
  | .name f => [f]
  | .names fs => fs

/-- Method `modifies(_)`. -/
def Pulse.modifies (p : Pulse) (arg : FieldArg) : Pulse :=
  let fields := Arrays.array arg
  let hash := match p.fields with
    | some h => h
    | none => ⟨[]⟩
  { p with fields := some (fields.foldl Hash.set hash) }

/-- Method `modified(_)`. -/
def Pulse.modified (p : Pulse) (arg : FieldArg) : Value :=
  match p.mod.length != 0, p.fields with
  | true, some fields =>
    match arg with
    | .names fs => .bool (fs.any (fun f => (fields.get f).truthy))
    | .name f => fields.get f
  | _, _ => .num 0

/-- Method `reflow()`; `none` when a call inside throws. -/
def Pulse.reflow (p : Pulse) : Option Pulse :=
  let len := p.add.length
  match p.source with
  | none => some p
  | some source =>
    let src := source.length
    if src != 0 && src != len then
      let len := len + p.mod.length
      let p := { p with mod := source }
      if src > len then
        match Dataflow.filter p ADD with
        | none => none
        | some f => some (p.filter MOD f)
      else some p
    else some p

/-! ## Tuple identity (`Tuple.js`) -/

/-- Function `reset()` on the module variable `TUPLE_ID`. -/
def reset (_TUPLE_ID : Nat) : Nat := 0

/-- Function `id(t)`. -/
def id (t : Tuple) : Option Nat := t._id

/-- Property write `c[k] = v` on the properties other than `_id` and `_prev`. -/
def setField (fields : List (String × Value)) (k : String) (v : Value) : List (String × Value) :=
  match fields with
  | [] => [(k, v)]
  | (k', v') :: rest => if k' == k then (k, v) :: rest else (k', v') :: setField rest k v

/-- Property read `t[k]`: the `_id` and `_prev` properties, an own property, or else the member
inherited from `Object.prototype`. -/
def Record.get (t : Record Value) (k : String) : Value :=
  if k == "_id" then
    match t._id with
    | some n => .num n
    | none => .undefined
  else if k == "_prev" then t._prev
  else
    match t.fields.lookup k with
    | some v => v
    | none => if objectPrototypeKeys.contains k then inheritedMember k else .undefined

/-- The id held by the `_id` property after `v` is written to it. The property holds a natural
number or `undefined` in this model; every other value is outside the model and is read back as
`undefined`. -/
def Value.toId : Value → Option Nat
  | .num n => if 0 ≤ n then some n.toNat else none
  | _ => none

/-- Whether the write `o['__proto__'] = v` on a plain object replaces the prototype of `o`: the
inherited setter does so for an object (functions and `Object.prototype` itself included) and
for `null`, and ignores every other value. -/
def Value.setsPrototype : Value → Bool
  | .object _ _ => true
  | .builtin _ => true
  | .null => true
  | _ => false

/-- Property write `t[k] = v`. Writing `__proto__` runs the inherited setter and creates no own
property. A record does not carry its prototype, so the replacement of the prototype by a value
with `Value.setsPrototype`, which changes what the properties that are not own properties read,
is outside this model; statements that depend on it exclude such writes by hypothesis. -/
def Record.put (t : Record Value) (k : String) (v : Value) : Record Value :=
  if k == "_id" then { t with _id := v.toId }
  else if k == "_prev" then { t with _prev := v }
  else if k == "__proto__" then t
  else { t with fields := setField t.fields k v }

/-- Function `copy(t, c)`; `c` is `none` when the argument is omitted. The loop `for (k in t)`
runs over the own properties; `_prev` and `_id` are skipped. -/
def copy (t : Tuple) (c : Option Tuple) : Tuple :=
  let c : Tuple := match c with
    | some c => c
    | none => ⟨none, .undefined, []⟩
  t.fields.foldl
    (fun c kv => if kv.1 != "_prev" && kv.1 != "_id" then c.put kv.1 kv.2 else c) c

/-- Function `ingest(datum)`, threading the module variable `TUPLE_ID`. The counter is a
JavaScript number, which counts exactly up to 2^53; it is a natural number here. -/
def ingest (datum : Value) (TUPLE_ID : Nat) : Tuple × Nat :=
  let tuple : Tuple := match datum with
    | .object _ o => o
    | d => ⟨none, .undefined, [("data", d)]⟩
  let TUPLE_ID := TUPLE_ID + 1
  let tuple := { tuple with _id := some TUPLE_ID }
  let tuple := if tuple._prev.truthy then { tuple with _prev := .null } else tuple
  (tuple, TUPLE_ID)

/-- Function `derive(d)`. The identity of the copy plays no part in `ingest`. -/
def derive (d : Tuple) (TUPLE_ID : Nat) : Tuple × Nat :=
  ingest (.object 0 (copy d none)) TUPLE_ID

/-- Function `rederive(d, t)`. -/
def rederive (d : Tuple) (t : Tuple) : Tuple :=
  copy d (some t)

/-- JavaScript `a === b`: values of different types differ, `NaN` differs from everything, and
two objects are equal when they are the same object. -/
def strictEq : Value → Value → Bool
  | .undefined, .undefined => true
  | .null, .null => true
  | .bool a, .bool b => a == b
  | .num a, .num b => a == b
  | .str a, .str b => a == b
  | .object r1 _, .object r2 _ => r1 == r2
  | .builtin a, .builtin b => a == b
  | _, _ => false

/-- Function `set(t, k, v)`: the returned number and the tuple afterwards. -/
def set (t : Tuple) (k : String) (v : Value) : Nat × Tuple :=
  if strictEq (t.get k) v then (0, t) else (1, t.put k v)

/-- A mutation of a tuple through `Tuple.js`: `set(t, k, v)` or `rederive(d, t)`. -/
inductive Mutation where
  | set (k : String) (v : Value)
  | rederive (d : Tuple)

/-- Performs one mutation of `t`. -/
def Mutation.run : Mutation → Tuple → Tuple
  | .set k v, t => (Dataflow.set t k v).2
  | .rederive d, t => Dataflow.rederive d t

/-- Performs a sequence of mutations of `t`, first to last. -/
def runMutations : List Mutation → Tuple → Tuple
  | [], t => t
  | m :: ms, t => runMutations ms (m.run t)

/-- A mutation that does not write the reserved `_id` key by `set`. -/
def Mutation.keepsIdKey : Mutation → Bool
  | .set k _ => k != "_id"
  | .rederive _ => true

/-- Performs a sequence of calls `set(t, k, v)`, first to last. -/
def runSets : List (String × Value) → Tuple → Tuple
  | [], t => t
  | kv :: rest, t => runSets rest (Dataflow.set t kv.1 kv.2).2

/-- JavaScript `v >= s` for a number `s`, after the conversion of `v` to a number: `undefined`,
`NaN` and the inherited members convert to `NaN`, for which the comparison is false; `null` is 0;
`false` and `true` are 0 and 1. The result is `none` for a string and for an object, whose
conversion to a number is not modelled. -/
def geNumber (v : Value) (s : Int) : Option Bool :=
  match v with
  | .num n => some (decide (s ≤ n))
  | .undefined => some false
  | .nan => some false
  | .builtin _ => some false
  | .null => some (decide (s ≤ 0))
  | .bool b => some (decide (s ≤ (if b then 1 else 0)))
  | .str _ => none
  | .object _ _ => none

/-- Function `prev(t, stamp)`: the returned record, the snapshot or `t` itself; `none` when the
comparison is outside the model (see `geNumber`). A truthy `_prev` that is not an object has no
`_stamp`, so the comparison is false. -/
def prev (t : Tuple) (stamp : Int) : Option Tuple :=
  match t._prev with
  | .object _ p =>
    match geNumber (p.get "_stamp") stamp with
    | none => none
    | some true => some p
    | some false => some t
  | _ => some t

/-- The value stored for a field by `prev_init`:
`((v = t[k]) instanceof Object && v._prev) ? v._prev : v`. -/
def priorValue (v : Value) : Value :=
  match v with
  | .object _ o => if o._prev.truthy then o._prev else v
  | _ => v

/-- Function `prev_init(t, stamp)`: the tuple afterwards. `ref` is the identity of the snapshot
object when a new one is created. The result is `none` when `_prev` holds a truthy value that
is not a plain object: the assignment `p._stamp = stamp` then throws for a primitive value
(module code is strict) and is not modelled for an inherited member. -/
def prev_init (t : Tuple) (stamp : Int) (ref : Nat) : Option Tuple :=
  let p : Option (Nat × Record Value) :=
    if !t._prev.truthy then some (ref, ⟨t._id, .undefined, [("_stamp", .num stamp)]⟩)
    else
      match t._prev with
      | .object r p => some (r, p.put "_stamp" (.num stamp))
      | _ => none
  match p with
  | none => none
  | some (r, p) =>
    let p := t.fields.foldl
      (fun p kv => if kv.1 != "_prev" && kv.1 != "_id" then p.put kv.1 (priorValue kv.2) else p) p
    some { t with _prev := .object r p }

/-- The `ids` object of `idMap` and `idFilter`, created by `{}`: the `_id` values that were
assigned `1`, in assignment order. An `_id` is a number or `undefined`, so no key is the name of
an inherited member. -/
abbrev IdSet := List (Option Nat)

/-- Function `idMap(a, ids)`; `ids` is `none` when the argument is omitted. -/
def idMap (a : List Tuple) (ids : Option IdSet) : IdSet :=
  let ids : IdSet := match ids with
    | some ids => ids
    | none => []
  a.foldl (fun ids t => if ids.contains t._id then ids else ids ++ [t._id]) ids

/-- Function `idFilter(data, ...)`: `rest` are the arguments after `data`. The loop
`for (var i = arguments.length; --i > 0;)` visits them from the last to the first. -/
def idFilter (data : List Tuple) (rest : List (List Tuple)) : List Tuple :=
  let ids : IdSet := rest.reverse.foldl (fun ids a => idMap a (some ids)) []
  data.filter (fun x => !ids.contains x._id)

/-- A record that represents a JavaScript object: its own property names are distinct, and none
of them is `_id` or `_prev`, which have their own slots. -/
def Record.Rep (t : Record Value) : Prop :=
  (t.fields.map Prod.fst).Nodup ∧ ∀ k ∈ t.fields.map Prod.fst, k ≠ "_id" ∧ k ≠ "_prev"

/-- A tuple whose copy by the loop of `copy(d, c)` the record model carries: it is represented
by the record, and it has no own property `__proto__` holding a value that would replace the
prototype of `c`. -/
def Record.Copyable (d : Record Value) : Prop :=
  d.Rep ∧ ∀ kv ∈ d.fields, kv.1 = "__proto__" → kv.2.setsPrototype = false

/-- One call of an id-assigning function of `Tuple.js`. -/
inductive Call where
  | ingest (datum : Value)
  | derive (d : Tuple)

/-- Performs one call. -/
def Call.run : Call → Nat → Tuple × Nat
  | .ingest datum, n => Dataflow.ingest datum n
  | .derive d, n => Dataflow.derive d n

/-- Performs a sequence of calls from the counter value `TUPLE_ID`: the returned tuples in call
order and the final counter. -/
def runCalls : List Call → Nat → List Tuple × Nat
  | [], n => ([], n)
  | c :: cs, n =>
    let r := c.run n
    let rs := runCalls cs r.2
    (r.1 :: rs.1, rs.2)

/-! ## Pulses that share arrays

`fork` copies array references, so two pulses can hold the same array object. To state what
one pulse can observe of another, arrays and pulse objects live in a store and are referred to
by address. -/

/-- A `Pulse` object whose `add`, `rem`, `mod` and `source` properties are array addresses. The
`fields` property shows the content of the hash object the pulse holds; hash objects have
addresses of their own in `FieldsStore`. -/
structure PulseObj where
  dataflow : Nat
  stamp : Int
  add : Nat
  rem : Nat
  mod : Nat
  fields : Option Hash
  encode : Option String
  source : Option Nat
  addF : Option Filter
  remF : Option Filter
  modF : Option Filter

/-- The heap: array objects and pulse objects, each addressed by its position. -/
structure Store where
  arrays : List (List Tuple)
  pulses : List PulseObj

/-- Allocation of a new array object with the given content. -/
def Store.alloc (s : Store) (content : List Tuple) : Nat × Store :=
  (s.arrays.length, { s with arrays := s.arrays ++ [content] })

/-- Assignment to properties of the pulse object at address `q`. -/
def Store.update (s : Store) (q : Nat) (g : PulseObj → PulseObj) : Store :=
  match s.pulses[q]? with
  | none => s
  | some o => { s with pulses := s.pulses.set q (g o) }

/-- The constructor `new Pulse(dataflow, stamp)`: three fresh arrays and a fresh object. -/
def Store.newPulse (s : Store) (dataflow : Nat) (stamp : Option Int) : Nat × Store :=
  let a := s.alloc []
  let r := a.2.alloc []
  let m := r.2.alloc []
  (m.2.pulses.length,
   { m.2 with pulses := m.2.pulses ++ [
      { dataflow := dataflow
        stamp := match stamp with
          | none => -1
          | some st => st
        add := a.1
        rem := r.1
        mod := m.1
        fields := none
        encode := none
        source := none
        addF := none
        remF := none
        modF := none }] })

/-- The assignment `p.add = (flags & ADD) ? (p.addF = src.addF, src.add) : (p.addF = null, [])`
of `init`, and the same for `rem` and `mod`: `shared` is the assignment of the source pulse's
filter and array, `fresh` the assignment of no filter and of a newly allocated empty array. -/
def Store.initKind (s : Store) (q : Nat) (selected : Bool) (shared : PulseObj → PulseObj)
    (fresh : Nat → PulseObj → PulseObj) : Store :=
  if selected then s.update q shared
  else (s.alloc []).2.update q (fresh (s.alloc []).1)

/-- Method `init(src, flags)` on the pulse object at `q`; `src` is the state of the source pulse. -/
def Store.init (s : Store) (q : Nat) (src : PulseObj) (flags : Nat) : Store :=
  let s := s.update q (fun o => { o with stamp := src.stamp })
  let s := s.update q (fun o => { o with source := if has flags NO_SOURCE then none else src.source })
  let s := s.update q (fun o => { o with encode := src.encode })
  let s := if src.fields.isSome then s.update q (fun o => { o with fields := src.fields }) else s
  let s := s.initKind q (has flags ADD) (fun o => { o with addF := src.addF, add := src.add })
    (fun a o => { o with addF := none, add := a })
  let s := s.initKind q (has flags REM) (fun o => { o with remF := src.remF, rem := src.rem })
    (fun a o => { o with remF := none, rem := a })
  let s := s.initKind q (has flags MOD) (fun o => { o with modF := src.modF, mod := src.mod })
    (fun a o => { o with modF := none, mod := a })
  s

/-- Method `fork(flags)` of the pulse object at `p`: the address of the new pulse and the new
store; `none` when `p` is not the address of a pulse. -/
def Store.fork (s : Store) (p : Nat) (flags : Nat) : Option (Nat × Store) :=
  match s.pulses[p]? with
  | none => none
  | some src =>
    let q := s.newPulse src.dataflow none
    some (q.1, q.2.init q.1 src flags)

/-- Method `filter(flags, filter)` of the pulse object at `q`. -/
def Store.filter (s : Store) (q : Nat) (flags : Nat) (filter : Filter) : Store :=
  let s := if has flags ADD then
    s.update q (fun o => { o with addF := some (addFilter o.addF filter) }) else s
  let s := if has flags REM then
    s.update q (fun o => { o with remF := some (addFilter o.remF filter) }) else s
  let s := if has flags MOD then
    s.update q (fun o => { o with modF := some (addFilter o.modF filter) }) else s
  s

/-- One statement of `materialize`: `p.add = p.add.filter(p.addF); p.addF = null`, for the kind
whose array address and filter are read by `arr` and `flt` and written by `put`. The filtered
array is a new array object. -/
def Store.materializeKind (s : Store) (q : Nat) (arr : PulseObj → Nat)
    (flt : PulseObj → Option Filter) (put : PulseObj → Nat → PulseObj) : Store :=
  match s.pulses[q]? with
  | none => s
  | some o =>
    match flt o with
    | none => s
    | some f =>
      let a := s.alloc (arrayFilter (s.arrays.getD (arr o) []) f)
      a.2.update q (fun o => put o a.1)

/-- Method `materialize(flags)` of the pulse object at `q`. -/
def Store.materialize (s : Store) (q : Nat) (flags : Nat) : Store :=
  let flags := if flags != 0 then flags else ALL
  let s := if has flags ADD then
    s.materializeKind q (·.add) (·.addF) (fun o a => { o with add := a, addF := none }) else s
  let s := if has flags REM then
    s.materializeKind q (·.rem) (·.remF) (fun o a => { o with rem := a, remF := none }) else s
  let s := if has flags MOD then
    s.materializeKind q (·.mod) (·.modF) (fun o a => { o with mod := a, modF := none }) else s
  s

/-- The address held in the array property of the given kind (`ADD`, `REM` or `MOD`). -/
def PulseObj.arrayOf (o : PulseObj) (kind : Nat) : Option Nat :=
  if kind = ADD then some o.add
  else if kind = REM then some o.rem
  else if kind = MOD then some o.mod
  else none

/-- An append `q.add.push(t)` (or `q.rem`, `q.mod`, by `kind`): the array object itself grows. -/
def Store.push (s : Store) (q : Nat) (kind : Nat) (t : Tuple) : Store :=
  match s.pulses[q]? with
  | none => s
  | some o =>
    match o.arrayOf kind with
    | none => s
    | some a =>
      match s.arrays[a]? with
      | none => s
      | some content => { s with arrays := s.arrays.set a (content ++ [t]) }

/-- The content behind the `source` property: `null` stays `null`, an address is replaced by the
array it refers to; `none` when the address is dangling. -/
def viewSource (arrays : List (List Tuple)) (source : Option Nat) : Option (Option (List Tuple)) :=
  match source with
  | none => some none
  | some a =>
    match arrays[a]? with
    | none => none
    | some content => some (some content)

/-- The state of a pulse object with every array address replaced by the content of the array;
`none` when an address is dangling. -/
def viewObj (arrays : List (List Tuple)) (o : PulseObj) : Option Pulse :=
  match arrays[o.add]?, arrays[o.rem]?, arrays[o.mod]?, viewSource arrays o.source with
  | some add, some rem, some mod, some source =>
    some { dataflow := o.dataflow, stamp := o.stamp, add := add, rem := rem, mod := mod,
           fields := o.fields, encode := o.encode, source := source,
           addF := o.addF, remF := o.remF, modF := o.modF }
  | _, _, _, _ => none

/-- What is observable of the pulse at address `p`: its state with the arrays read from the
store; `none` when `p` is not the address of a pulse or an array address is dangling. -/
def Store.view (s : Store) (p : Nat) : Option Pulse :=
  match s.pulses[p]? with
  | none => none
  | some o => viewObj s.arrays o

/-- An operation performed on a forked pulse. -/
inductive Op where
  | filter (flags : Nat) (filter : Filter)
  | materialize (flags : Nat)
  | push (kind : Nat) (t : Tuple)

/-- Performs one operation on the pulse at address `q`. -/
def Op.run (q : Nat) : Op → Store → Store
  | .filter flags f, s => s.filter q flags f
  | .materialize flags, s => s.materialize q flags
  | .push kind t, s => s.push q kind t

/-- Performs a sequence of operations on the pulse at address `q`, first to last. -/
def runOps (q : Nat) : List Op → Store → Store
  | [], s => s
  | op :: ops, s => runOps q ops (op.run q s)

/-- An operation allowed on a fork made with `flags`: any `filter`, any `materialize`, and an
append to the `add`, `rem` or `mod` array whose bit is not set in `flags`. -/
def Op.allowed (flags : Nat) : Op → Bool
  | .filter _ _ => true
  | .materialize _ => true
  | .push kind _ => (kind == ADD || kind == REM || kind == MOD) && !has flags kind

/-- The array addresses of a pulse object lie at or above `n` for every kind whose flag `a`, `r`
or `m` is off. -/
def PulseObj.fresh (n : Nat) (a r m : Bool) (o : PulseObj) : Prop :=
  (a = false → n ≤ o.add) ∧ (r = false → n ≤ o.rem) ∧ (m = false → n ≤ o.mod)

/-- The invariant that keeps a pulse `p` of the store `s0` apart from another pulse `q` in a
later store `s`: the object at `p` and every array of `s0` are as they were, and the arrays of
`q` for the kinds that are off were allocated after `s0`. -/
structure Isolated (s0 : Store) (p q : Nat) (a r m : Bool) (s : Store) : Prop where
  ne : q ≠ p
  pulse : s.pulses[p]? = s0.pulses[p]?
  le : s0.arrays.length ≤ s.arrays.length
  arrays : ∀ (i : Nat) (x : List Tuple), s0.arrays[i]? = some x → s.arrays[i]? = some x
  fresh : ∃ o, s.pulses[q]? = some o ∧ o.fresh s0.arrays.length a r m

/-! ## Pulses that share a fields object

`init` assigns `p.fields = src.fields`: a fork holds the same hash object as the pulse it was
forked from, and `modifies` writes into that object. To state what `modified` on one pulse
observes of `modifies` calls on another, hash objects and pulse objects live in a store and are
referred to by address. -/

/-- A `Pulse` object as `modifies`, `modified` and the assignments of `init` to `fields` and
`mod` see it: `fields` is the address of a hash object (`none` for `null`), `mod` the content of
the mod array. -/
structure FieldsObj where
  fields : Option Nat
  mod : List Tuple

/-- The heap: hash objects and pulse objects, each addressed by its position. -/
structure FieldsStore where
  hashes : List Hash
  pulses : List FieldsObj

/-- Pulses as the constructor leaves them, with `fields = null`, one for each element of `mods`,
which gives the tuples in its mod array. -/
def FieldsStore.start (mods : List (List Tuple)) : FieldsStore :=
  ⟨[], mods.map (fun m => ⟨none, m⟩)⟩

/-- Method `fork(flags)` of the pulse at address `p`, that is `new Pulse(...).init(this, flags)`,
as far as `fields` and `mod` go: the constructor sets `fields = null` and `mod = []`, and `init`
runs `if (src.fields) p.fields = src.fields`, which copies the address of the hash object, and
`p.mod = (flags & MOD) ? src.mod : []`. The result is the address of the new pulse and the new
store; `none` when `p` is not the address of a pulse. -/
def FieldsStore.fork (s : FieldsStore) (p : Nat) (flags : Nat) : Option (Nat × FieldsStore) :=
  match s.pulses[p]? with
  | none => none
  | some src =>
    let q : FieldsObj := ⟨none, []⟩
    let q := if src.fields.isSome then { q with fields := src.fields } else q
    let q := { q with mod := if has flags MOD then src.mod else [] }
    some (s.pulses.length, { s with pulses := s.pulses ++ [q] })

/-- Method `modifies(_)` of the pulse at address `q`: `hash = this.fields || (this.fields = {})`
is the hash object the pulse holds, or a new one, and every name is written into that object. -/
def FieldsStore.modifies (s : FieldsStore) (q : Nat) (arg : FieldArg) : FieldsStore :=
  match s.pulses[q]? with
  | none => s
  | some o =>
    let fields := Arrays.array arg
    match o.fields with
    | some a =>
      match s.hashes[a]? with
      | none => s
      | some hash => { s with hashes := s.hashes.set a (fields.foldl Hash.set hash) }
    | none =>
      { hashes := s.hashes ++ [fields.foldl Hash.set ⟨[]⟩]
        pulses := s.pulses.set q { o with fields := some s.hashes.length } }

/-- Method `modified(_)` of the pulse at address `q`; `none` when `q` is not the address of a
pulse or the address in `fields` is dangling. -/
def FieldsStore.modified (s : FieldsStore) (q : Nat) (arg : FieldArg) : Option Value :=
  match s.pulses[q]? with
  | none => none
  | some o =>
    match o.mod.length != 0, o.fields with
    | true, some a =>
      match s.hashes[a]? with
      | none => none
      | some fields =>
        match arg with
        | .names fs => some (.bool (fs.any (fun f => (fields.get f).truthy)))
        | .name f => some (fields.get f)
    | _, _ => some (.num 0)

/-- A call of `fork` or `modifies` on a pulse of the store. -/
inductive FieldsCall where
  | fork (p : Nat) (flags : Nat)
  | modifies (q : Nat) (arg : FieldArg)

/-- Performs one call. -/
def FieldsCall.run : FieldsCall → FieldsStore → FieldsStore
  | .fork p flags, s =>
    match s.fork p flags with
    | none => s
    | some r => r.2
  | .modifies q arg, s => s.modifies q arg

/-- Performs a sequence of calls, first to last. -/
def runFieldsCalls : List FieldsCall → FieldsStore → FieldsStore
  | [], s => s
  | c :: cs, s => runFieldsCalls cs (c.run s)

/-- No pulse other than the one at address `q` holds the hash object that `q` holds. -/
def FieldsStore.unshared (s : FieldsStore) (q : Nat) : Bool :=
  match s.pulses[q]? with
  | none => true
  | some oq =>
    match oq.fields with
    | none => true
    | some a => (List.range s.pulses.length).all (fun p => p == q ||
        (match s.pulses[p]? with
         | some o => o.fields != some a
         | none => true))

/-- Every `modifies` call of the sequence is made on a pulse whose hash object no other pulse
holds at the time of the call. -/
def unsharedCalls : List FieldsCall → FieldsStore → Bool
  | [], _ => true
  | .fork p flags :: cs, s => unsharedCalls cs ((FieldsCall.fork p flags).run s)
  | .modifies q arg :: cs, s =>
    s.unshared q && unsharedCalls cs ((FieldsCall.modifies q arg).run s)

/-- The names recorded on each pulse as the specification counts them, pulse by pulse:
`modifies` on a pulse records the given names on that pulse, and `fork` carries the names
recorded on the forked pulse over to the new pulse. -/
def FieldsCall.record : FieldsCall → List (List String) → List (List String)
  | .fork p _, r =>
    match r[p]? with
    | none => r
    | some ns => r ++ [ns]
  | .modifies q arg, r =>
    match r[q]? with
    | none => r
    | some ns => r.set q (ns ++ Arrays.array arg)

/-- The names recorded on each pulse, as the specification counts them, after a sequence of
calls. -/
def recordedNames : List FieldsCall → List (List String) → List (List String)
  | [], r => r
  | c :: cs, r => recordedNames cs (c.record r)

/-- A call of `fork`. -/
def FieldsCall.isFork : FieldsCall → Bool
  | .fork _ _ => true
  | .modifies _ _ => false

/-- What ties the store to the names that the specification counts as recorded: every pulse
has its list of names, every address in a `fields` property is the address of a hash object, and
the names recorded on a pulse are the own properties of the hash object it holds. -/
structure FieldsInv (s : FieldsStore) (r : List (List String)) : Prop where
  len : r.length = s.pulses.length
  valid : ∀ (p : Nat) (o : FieldsObj) (a : Nat),
    s.pulses[p]? = some o → o.fields = some a → a < s.hashes.length
  names : ∀ (p : Nat) (o : FieldsObj) (ns : List String) (n : String),
    s.pulses[p]? = some o → r[p]? = some ns → n ≠ "__proto__" →
    (n ∈ ns ↔ ∃ a h, o.fields = some a ∧ s.hashes[a]? = some h ∧ n ∈ h.own)

/-! ## Unique lists (`util/UniqueList.js`) -/

/-- The state of the object built by `UniqueList(idFunc)`: the id function `$` (the property name
under which the id of an element is looked up in `ids`), the array `list`, and the object `ids`
created by `{}`. Elements of the array are compared by `===`, which is equality in `α`. -/
structure UniqueList (α : Type) where
  idFunc : α → String
  list : List α
  ids : Record Value

/-- Function `UniqueList(idFunc)`: an empty list with an empty `ids` object. -/
def UniqueList.new {α : Type} (idFunc : α → String) : UniqueList α :=
  ⟨idFunc, [], ⟨none, .undefined, []⟩⟩

/-- JavaScript `list.indexOf(x)`: the first position of `x`, or -1. -/
def arrayIndexOf {α : Type} [DecidableEq α] (list : List α) (x : α) : Int :=
  if list.indexOf x < list.length then (list.indexOf x : Nat) else -1

/-- Method `list.add(_)`. -/
def UniqueList.add {α : Type} (u : UniqueList α) (x : α) : UniqueList α :=
  let id := u.idFunc x
  if !(u.ids.get id).truthy then
    { u with ids := u.ids.put id (.num 1), list := u.list ++ [x] }
  else u

/-- Method `list.rem(_)`. -/
def UniqueList.rem {α : Type} [DecidableEq α] (u : UniqueList α) (x : α) : UniqueList α :=
  let id := u.idFunc x
  if (u.ids.get id).truthy then
    let u := { u with ids := u.ids.put id (.num 0) }
    let idx := arrayIndexOf u.list x
    if idx ≥ 0 then { u with list := u.list.eraseIdx idx.toNat } else u
  else u

/-- A call of a method of a unique list. -/
inductive ListCall (α : Type) where
  | add (x : α)
  | rem (x : α)

/-- Performs a sequence of `add` and `rem` calls, first to last. -/
def runListCalls {α : Type} [DecidableEq α] : List (ListCall α) → UniqueList α → UniqueList α
  | [], u => u
  | .add x :: rest, u => runListCalls rest (u.add x)
  | .rem x :: rest, u => runListCalls rest (u.rem x)

/-! ## Lookup (`data/Lookup.js`) -/

/-- A lookup key: the accessor function `key(t)`, a pure function of the tuple, and its `fields`
property, the names of the fields it reads. -/
structure Key where
  fn : Tuple → Value
  fields : FieldArg

/-- The parameter object `_` as `Lookup.transform` reads it: `_.fields`, `_.index` (the property
read `index[k]` as a function of the key value `k`), `_.keys`, `_.default`, and the result of
the call `_.modified('index')`, a method of the parameter object, which is not among the
sources. -/
structure LookupParams where
  fields : List String
  index : Value → Value
  keys : List Key
  default : Value
  indexModified : Bool

/-- JavaScript `v == null`: true for `null` and `undefined` only. -/
def looseEqNull : Value → Bool
  | .null => true
  | .undefined => true
  | _ => false

/-- The array read `fields[i]` used as a property name: beyond the end of the array the read
gives `undefined`, which names the property `undefined`. -/
def fieldAt (fields : List String) (i : Nat) : String :=
  fields.getD i "undefined"

/-- The value written for a key value `k`: `v = index[k]`, then `v==null ? defaultValue : v`. -/
def Lookup.value (index : Value → Value) (defaultValue : Value) (k : Value) : Value :=
  let v := index k
  if looseEqNull v then defaultValue else v

/-- The closure `set` of the branch `keys.length === 1`. -/
def Lookup.setSingle (index : Value → Value) (key : Key) (field : String) (defaultValue : Value)
    (t : Tuple) : Tuple :=
  t.put field (Lookup.value index defaultValue (key.fn t))

/-- The loop of the closure `set` of the general branch, from position `i` on: `keys` are
the keys at the positions `i`, `i + 1`, ... -/
def Lookup.setFrom (fields : List String) (index : Value → Value) (defaultValue : Value) :
    Nat → List Key → Tuple → Tuple
  | _, [], t => t
  | i, key :: rest, t =>
    Lookup.setFrom fields index defaultValue (i + 1) rest
      (t.put (fieldAt fields i) (Lookup.value index defaultValue (key.fn t)))

/-- The local `defaultValue = _.default==null ? null : _.default`. -/
def Lookup.defaultValue (p : LookupParams) : Value :=
  if looseEqNull p.default then .null else p.default

/-- The closure `set` that `transform` builds: the tuple after the call `set(t)`. -/
def Lookup.set (p : LookupParams) : Tuple → Tuple :=
  match p.keys with
  | [key] => Lookup.setSingle p.index key (fieldAt p.fields 0) (Lookup.defaultValue p)
  | _ => Lookup.setFrom p.fields p.index (Lookup.defaultValue p) 0 p.keys

/-- The local `flag` of `transform` at the call of `pulse.visit`. -/
def Lookup.flag (p : LookupParams) (pulse : Pulse) : Nat :=
  if p.indexModified then SOURCE
  else ADD ||| (if p.keys.any (fun k => (pulse.modified k.fields).truthy) then MOD else 0)

/-- Method `transform(_, pulse)`: the visited tuples, each as it is after the call of `set` on
it, in visiting order, and the returned pulse `pulse.modifies(fields)`; `none` when
`pulse.visit` throws. The arrays of the returned pulse show the tuples as they were before the
visit. -/
def Lookup.transform (p : LookupParams) (pulse : Pulse) : Option (List Tuple × Pulse) :=
  match pulse.visit (Lookup.flag p pulse) with
  | none => none
  | some (visited, pulse) =>
    some (visited.map (Lookup.set p), pulse.modifies (.names p.fields))

/-! ## Concrete tuples and pulses -/

/-- The tuple `{_id: 1}`. -/
def tuple1 : Tuple := ⟨some 1, .undefined, []⟩

/-- The tuple `{_id: 2}`. -/
def tuple2 : Tuple := ⟨some 2, .undefined, []⟩

/-- A pulse with `add = [tuple1]` and a pending add filter that rejects every tuple. -/
def pulseAddRejected : Pulse :=
  { Pulse.new 0 none with add := [tuple1], addF := some (fun _ _ => false) }

/-- A pulse with `add = [tuple1]`, `mod = [tuple2]` and the source `[tuple1, tuple2]`. -/
def pulseAddMod : Pulse :=
  { Pulse.new 0 none with add := [tuple1], mod := [tuple2], source := some [tuple1, tuple2] }

/-- A pulse with `add = [tuple1]`, no `mod` tuples and the source `[tuple2]`. -/
def pulseAddOther : Pulse :=
  { Pulse.new 0 none with add := [tuple1], source := some [tuple2] }

/-- A pulse with `add = [tuple1, tuple2]`, a pending add filter that accepts the tuple with id 1
only, no `mod` tuples and the source `[tuple1, tuple2]`. -/
def pulseAddFiltered : Pulse :=
  { Pulse.new 0 none with
    add := [tuple1, tuple2]
    addF := some (fun t _ => t._id == some 1)
    source := some [tuple1, tuple2] }

/-- A pulse with `add = [tuple1]`, no `mod` tuples and the source `[tuple1, tuple2]`. -/
def pulseAddSource : Pulse :=
  { Pulse.new 0 none with add := [tuple1], source := some [tuple1, tuple2] }

/-- A store with one pulse at address 0 holding `add = [tuple1]`, `rem = []`, `mod = [tuple2]`
and the source `[tuple1, tuple2]`. -/
def storeOnePulse : Store :=
  { arrays := [[tuple1], [], [tuple2], [tuple1, tuple2]]
    pulses := [{ dataflow := 0, stamp := 5, add := 0, rem := 1, mod := 2, fields := none,
                 encode := none, source := some 3, addF := none, remF := none, modF := none }] }

/-- Operations on a fork made with the flags `ADD`: a filter on add that rejects everything, its
materialization, and an append to the fork's own `mod` array. -/
def opsOnFork : List Op :=
  [Op.filter ADD (fun _ _ => false), Op.materialize ADD, Op.push MOD tuple1]

/-- The pulse `{mod: [tuple1]}` after `modifies('a')`. -/
def pulseModifiesA : Pulse :=
  ({ Pulse.new 0 none with mod := [tuple1] } : Pulse).modifies (.name "a")

/-- The tuple `{_id: 1, a: 1}`. -/
def tupleA : Tuple := ⟨some 1, .undefined, [("a", .num 1)]⟩

/-- The tuple `{_id: 1, _stamp: 0, a: 1}`, which has a data field named `_stamp`. -/
def tupleStamp : Tuple := ⟨some 1, .undefined, [("_stamp", .num 0), ("a", .num 1)]⟩

/-- The tuple `{_id: 1, a: 1}` with the snapshot `{_id: 1, _stamp: 5, a: 0}`. -/
def tupleSnap : Tuple :=
  ⟨some 1, .object 7 ⟨some 1, .undefined, [("_stamp", .num 5), ("a", .num 0)]⟩, [("a", .num 1)]⟩

/-- The tuple `{_id: 2, __proto__: 5}`, whose own property `__proto__` holds the number 5 (as in
the result of `JSON.parse` on an object text with that key). -/
def tupleProto : Tuple := ⟨some 2, .undefined, [("__proto__", .num 5)]⟩

/-- The tuple `{_id: 2, __proto__: 5, a: 1}`. -/
def tupleProtoA : Tuple := ⟨some 2, .undefined, [("__proto__", .num 5), ("a", .num 1)]⟩

/-- The lookup table `{1: 10, 2: 20, 10: 100}` read at a number (every other read gives
`undefined`). -/
def indexTens : Value → Value
  | .num n => if n == 1 then .num 10 else if n == 2 then .num 20 else if n == 10 then .num 100
    else .undefined
  | _ => .undefined

/-- The key accessor `t => t.x`. -/
def keyX : Key := ⟨fun t => t.get "x", .name "x"⟩

/-- The key accessor `t => t.y`. -/
def keyY : Key := ⟨fun t => t.get "y", .name "y"⟩

/-- The key accessor `t => t.a`. -/
def keyA : Key := ⟨fun t => t.get "a", .name "a"⟩

/-- The tuple `{_id: 1, x: 1, y: 2}`. -/
def tupleXY : Tuple := ⟨some 1, .undefined, [("x", .num 1), ("y", .num 2)]⟩

/-- The tuple `{_id: 1, x: 1, a: 2}`. -/
def tupleXA : Tuple := ⟨some 1, .undefined, [("x", .num 1), ("a", .num 2)]⟩

/-- A pulse with `add = [tupleXY]`. -/
def pulseXY : Pulse := { Pulse.new 0 none with add := [tupleXY] }

/-- A pulse with `add = [tupleXA]`. -/
def pulseXA : Pulse := { Pulse.new 0 none with add := [tupleXA] }

/-- A pulse with `add = [tupleA]`. -/
def pulseA : Pulse := { Pulse.new 0 none with add := [tupleA] }

/-- Lookup parameters with the keys `x` and `y` and the output fields `a` and `b`. -/
def lookupTwo : LookupParams := ⟨["a", "b"], indexTens, [keyX, keyY], .undefined, false⟩

/-- Lookup parameters with the keys `x` and `y` that name the output field `a` twice. -/
def lookupDup : LookupParams := ⟨["a", "a"], indexTens, [keyX, keyY], .undefined, false⟩

/-- Lookup parameters whose second key reads the first output field. -/
def lookupChain : LookupParams := ⟨["a", "b"], indexTens, [keyX, keyA], .undefined, false⟩

/-- Lookup parameters whose only key reads its own output field. -/
def lookupSelf : LookupParams := ⟨["a"], indexTens, [keyA], .undefined, false⟩

/-- Lookup parameters with the output field `__proto__`. -/
def lookupProto : LookupParams := ⟨["__proto__"], indexTens, [keyX], .undefined, false⟩

/-- Lookup parameters with two keys and one output field. -/
def lookupShort : LookupParams := ⟨["a"], indexTens, [keyX, keyY], .undefined, false⟩

end Dataflow

/-! # Theorems -/

namespace Dataflow

/-! ## Flags -/

theorem and_two_pow_ne_zero (f i : Nat) : (f &&& 2 ^ i != 0) = f.testBit i := by
  have h : f &&& 2 ^ i = if f.testBit i then 2 ^ i else 0 := by
    apply Nat.eq_of_testBit_eq
    intro j
    by_cases hb : f.testBit i
    · simp only [Nat.testBit_and, hb, if_true, Nat.testBit_two_pow]
      by_cases hij : i = j
      · subst hij; simp [hb]
      · simp [hij]
    · simp only [Nat.testBit_and, hb, Nat.testBit_two_pow]
      by_cases hij : i = j
      · subst hij; simp [hb]
      · simp [hij]
  rw [h]
  by_cases hb : f.testBit i
  · simp [hb]
  · simp [hb]

/-- The flag tests of `Pulse.js` read single bits: `flags & ADD` is truthy exactly when bit 0 of
`flags` is set, and so on up to `NO_SOURCE`, bit 5. -/
theorem has_eq_testBit (f : Nat) :
    has f ADD = f.testBit 0 ∧ has f REM = f.testBit 1 ∧ has f MOD = f.testBit 2
    ∧ has f REFLOW = f.testBit 3 ∧ has f SOURCE = f.testBit 4
    ∧ has f NO_SOURCE = f.testBit 5 :=
  ⟨and_two_pow_ne_zero f 0, and_two_pow_ne_zero f 1, and_two_pow_ne_zero f 2,
   and_two_pow_ne_zero f 3, and_two_pow_ne_zero f 4, and_two_pow_ne_zero f 5⟩

/-! ## Array filtering -/

theorem filterFrom_eq_filter (f : Filter) (g : Tuple → Bool) (h : ∀ t i, f t i = g t)
    (i : Nat) (l : List Tuple) : filterFrom f i l = l.filter g := by
  induction l generalizing i with
  | nil => rfl
  | cons t ts ih => simp [filterFrom, List.filter_cons, h, ih]

theorem filterFrom_eq_enumFrom (f : Filter) (i : Nat) (l : List Tuple) :
    filterFrom f i l = ((l.enumFrom i).filter (fun it => f it.2 it.1)).map Prod.snd := by
  induction l generalizing i with
  | nil => rfl
  | cons t ts ih =>
    simp only [filterFrom, List.enumFrom_cons, List.filter_cons, ih]
    cases f t i <;> simp

theorem arrayFilter_const (a : List Tuple) (g : Tuple → Bool) :
    arrayFilter a (fun t _ => g t) = a.filter g :=
  filterFrom_eq_filter _ g (fun _ _ => rfl) 0 a

theorem Arrays.visit_some (a : List Tuple) (f : Filter) :
    Arrays.visit a (some f) = arrayFilter a f := rfl

theorem Arrays.visit_none (a : List Tuple) : Arrays.visit a none = a := rfl

/-- JavaScript `array.filter(f)` keeps, in order, the elements that `f` accepts at their index. -/
theorem arrayFilter_eq_enum (a : List Tuple) (f : Filter) :
    arrayFilter a f = ((a.enum).filter (fun it => f it.2 it.1)).map Prod.snd :=
  filterFrom_eq_enumFrom f 0 a

/-! ## fork -/

/-- C4: `p.fork(f)` has `p`'s stamp; for each of ADD, REM and MOD, when the bit is set in `f`
the fork has `p`'s array and `p`'s pending filter of that kind, otherwise an empty array and no
pending filter; its source is `p`'s source unless NO_SOURCE is set in `f`, and then it is null. -/
theorem fork_spec (p : Pulse) (f : Nat) :
    (p.fork f).stamp = p.stamp
    ∧ (if has f ADD then (p.fork f).add = p.add ∧ (p.fork f).addF = p.addF
        else (p.fork f).add = [] ∧ (p.fork f).addF = none)
    ∧ (if has f REM then (p.fork f).rem = p.rem ∧ (p.fork f).remF = p.remF
        else (p.fork f).rem = [] ∧ (p.fork f).remF = none)
    ∧ (if has f MOD then (p.fork f).mod = p.mod ∧ (p.fork f).modF = p.modF
        else (p.fork f).mod = [] ∧ (p.fork f).modF = none)
    ∧ (p.fork f).source = (if has f NO_SOURCE then none else p.source) := by
  unfold Pulse.fork Pulse.init Pulse.new
  cases has f ADD <;> cases has f REM <;> cases has f MOD <;> cases has f NO_SOURCE <;>
    cases p.fields.isSome <;> simp

/-! ## materialize and filter -/

theorem has_zero (bit : Nat) : has 0 bit = false := by
  simp [has]

theorem Pulse.eq_of_fields {p q : Pulse} (h1 : p.dataflow = q.dataflow) (h2 : p.stamp = q.stamp)
    (h3 : p.add = q.add) (h4 : p.rem = q.rem) (h5 : p.mod = q.mod) (h6 : p.fields = q.fields)
    (h7 : p.encode = q.encode) (h8 : p.source = q.source) (h9 : p.addF = q.addF)
    (h10 : p.remF = q.remF) (h11 : p.modF = q.modF) : p = q := by
  cases p; cases q; simp_all

/-- Every property of the pulse after `materialize(g)`, where `e` is `g || ALL`. -/
theorem materialize_fields (p : Pulse) (g : Nat) (e : Nat) (he : e = if g != 0 then g else ALL) :
    (p.materialize g).add = (if has e ADD then Arrays.visit p.add p.addF else p.add)
    ∧ (p.materialize g).rem = (if has e REM then Arrays.visit p.rem p.remF else p.rem)
    ∧ (p.materialize g).mod = (if has e MOD then Arrays.visit p.mod p.modF else p.mod)
    ∧ (p.materialize g).addF = (if has e ADD then none else p.addF)
    ∧ (p.materialize g).remF = (if has e REM then none else p.remF)
    ∧ (p.materialize g).modF = (if has e MOD then none else p.modF)
    ∧ (p.materialize g).dataflow = p.dataflow ∧ (p.materialize g).stamp = p.stamp
    ∧ (p.materialize g).fields = p.fields ∧ (p.materialize g).encode = p.encode
    ∧ (p.materialize g).source = p.source := by
  obtain ⟨df, st, add, rem, mod, fields, enc, src, addF, remF, modF⟩ := p
  simp only [Pulse.materialize, ← he]
  generalize has e ADD = a
  generalize has e REM = r
  generalize has e MOD = m
  cases a <;> cases r <;> cases m <;> cases addF <;> cases remF <;> cases modF <;>
    simp [Arrays.visit]

/-- Every property of the pulse after `filter(g, q)`. -/
theorem filter_fields (p : Pulse) (g : Nat) (q : Filter) :
    (p.filter g q).add = p.add ∧ (p.filter g q).rem = p.rem ∧ (p.filter g q).mod = p.mod
    ∧ (p.filter g q).addF = (if has g ADD then some (addFilter p.addF q) else p.addF)
    ∧ (p.filter g q).remF = (if has g REM then some (addFilter p.remF q) else p.remF)
    ∧ (p.filter g q).modF = (if has g MOD then some (addFilter p.modF q) else p.modF)
    ∧ (p.filter g q).dataflow = p.dataflow ∧ (p.filter g q).stamp = p.stamp
    ∧ (p.filter g q).fields = p.fields ∧ (p.filter g q).encode = p.encode
    ∧ (p.filter g q).source = p.source := by
  obtain ⟨df, st, add, rem, mod, fields, enc, src, addF, remF, modF⟩ := p
  simp only [Pulse.filter]
  generalize has g ADD = a
  generalize has g REM = r
  generalize has g MOD = m
  cases a <;> cases r <;> cases m <;> simp

theorem materialize_twice (p : Pulse) (g : Nat) :
    (p.materialize g).materialize g = p.materialize g := by
  have F1 := materialize_fields p g _ rfl
  have F2 := materialize_fields (p.materialize g) g _ rfl
  generalize (if g != 0 then g else ALL) = e at F1 F2
  obtain ⟨a1, a2, a3, a4, a5, a6, a7, a8, a9, a10, a11⟩ := F1
  obtain ⟨b1, b2, b3, b4, b5, b6, b7, b8, b9, b10, b11⟩ := F2
  apply Pulse.eq_of_fields
  · rw [b7]
  · rw [b8]
  · rw [b1, a4]; cases has e ADD <;> simp [Arrays.visit]
  · rw [b2, a5]; cases has e REM <;> simp [Arrays.visit]
  · rw [b3, a6]; cases has e MOD <;> simp [Arrays.visit]
  · rw [b9]
  · rw [b10]
  · rw [b11]
  · rw [b4, a4]; cases has e ADD <;> simp
  · rw [b5, a5]; cases has e REM <;> simp
  · rw [b6, a6]; cases has e MOD <;> simp

/-- C8: for every pulse and all flags `f`, `materialize(f)` followed by `materialize(f)` gives the
same pulse state as a single `materialize(f)`, and after it no selected kind has a pending
filter; for `f = ALL` (and for `f = 0`, which `materialize` reads as ALL) that is every kind. -/
theorem materialize_idempotent (p : Pulse) (f : Nat) :
    (p.materialize f).materialize f = p.materialize f
    ∧ (has f ADD = false ∨ (p.materialize f).addF = none)
    ∧ (has f REM = false ∨ (p.materialize f).remF = none)
    ∧ (has f MOD = false ∨ (p.materialize f).modF = none)
    ∧ (p.materialize ALL).materialize ALL = p.materialize ALL
    ∧ (p.materialize ALL).addF = none ∧ (p.materialize ALL).remF = none
    ∧ (p.materialize ALL).modF = none
    ∧ p.materialize 0 = p.materialize ALL := by
  have hALL : has ALL ADD = true ∧ has ALL REM = true ∧ has ALL MOD = true := ⟨rfl, rfl, rfl⟩
  have FA := materialize_fields p ALL ALL rfl
  have Ff := materialize_fields p f _ rfl
  have h0 : p.materialize 0 = p.materialize ALL := by
    simp [Pulse.materialize]
  refine ⟨materialize_twice p f, ?_, ?_, ?_, materialize_twice p ALL, ?_, ?_, ?_, h0⟩
  · by_cases hf : f = 0
    · subst hf; exact Or.inl (has_zero _)
    · rw [Ff.2.2.2.1]; simp only [bne_iff_ne, ne_eq, hf, not_false_eq_true, if_true]
      cases has f ADD <;> simp
  · by_cases hf : f = 0
    · subst hf; exact Or.inl (has_zero _)
    · rw [Ff.2.2.2.2.1]; simp only [bne_iff_ne, ne_eq, hf, not_false_eq_true, if_true]
      cases has f REM <;> simp
  · by_cases hf : f = 0
    · subst hf; exact Or.inl (has_zero _)
    · rw [Ff.2.2.2.2.2.1]; simp only [bne_iff_ne, ne_eq, hf, not_false_eq_true, if_true]
      cases has f MOD <;> simp
  · rw [FA.2.2.2.1, hALL.1]; rfl
  · rw [FA.2.2.2.2.1, hALL.2.1]; rfl
  · rw [FA.2.2.2.2.2.1, hALL.2.2]; rfl

/-- C6, the claim as stated fails for `f = 0`: `filter(0, q)` selects no kind, but
`materialize(0)` works on ALL kinds, so a pending add filter is applied although ADD is not
selected. -/
theorem filter_materialize_zero_counterexample :
    has 0 ADD = false
    ∧ pulseAddRejected.add = [tuple1]
    ∧ ((pulseAddRejected.filter 0 (fun _ _ => true)).materialize 0).add = []
    ∧ pulseAddRejected.addF.isSome = true
    ∧ ((pulseAddRejected.filter 0 (fun _ _ => true)).materialize 0).addF.isSome = false := by
  refine ⟨rfl, rfl, rfl, rfl, rfl⟩

/-- C6, amended: for every pulse, nonzero flags `f` and predicate `q`, `filter(f, q)` leaves the
stored add, rem and mod arrays unchanged, and a following `materialize(f)` replaces each selected
array by its elements, in order, that satisfy at their index both the previously pending filter
of that kind (if any) and `q`, clears that kind's pending filter, and leaves the array and the
pending filter of every non-selected kind as they were. -/
theorem filter_then_materialize (p : Pulse) (f : Nat) (q : Filter) (hf : f ≠ 0) :
    ((p.filter f q).add = p.add ∧ (p.filter f q).rem = p.rem ∧ (p.filter f q).mod = p.mod)
    ∧ (if has f ADD then
        ((p.filter f q).materialize f).add
          = ((p.add.enum).filter
              (fun it => p.addF.all (fun a => a it.2 it.1) && q it.2 it.1)).map Prod.snd
        ∧ ((p.filter f q).materialize f).addF = none
      else ((p.filter f q).materialize f).add = p.add
        ∧ ((p.filter f q).materialize f).addF = p.addF)
    ∧ (if has f REM then
        ((p.filter f q).materialize f).rem
          = ((p.rem.enum).filter
              (fun it => p.remF.all (fun a => a it.2 it.1) && q it.2 it.1)).map Prod.snd
        ∧ ((p.filter f q).materialize f).remF = none
      else ((p.filter f q).materialize f).rem = p.rem
        ∧ ((p.filter f q).materialize f).remF = p.remF)
    ∧ (if has f MOD then
        ((p.filter f q).materialize f).mod
          = ((p.mod.enum).filter
              (fun it => p.modF.all (fun a => a it.2 it.1) && q it.2 it.1)).map Prod.snd
        ∧ ((p.filter f q).materialize f).modF = none
      else ((p.filter f q).materialize f).mod = p.mod
        ∧ ((p.filter f q).materialize f).modF = p.modF) := by
  have F := filter_fields p f q
  have M := materialize_fields (p.filter f q) f f (by simp [hf])
  obtain ⟨a1, a2, a3, a4, a5, a6, -⟩ := F
  obtain ⟨b1, b2, b3, b4, b5, b6, -⟩ := M
  refine ⟨⟨a1, a2, a3⟩, ?_, ?_, ?_⟩
  · rw [b1, b4, a1, a4]
    cases has f ADD
    · simp
    · cases h : p.addF <;> simp [Arrays.visit, arrayFilter_eq_enum, addFilter]
  · rw [b2, b5, a2, a5]
    cases has f REM
    · simp
    · cases h : p.remF <;> simp [Arrays.visit, arrayFilter_eq_enum, addFilter]
  · rw [b3, b6, a3, a6]
    cases has f MOD
    · simp
    · cases h : p.modF <;> simp [Arrays.visit, arrayFilter_eq_enum, addFilter]

/-- C6, the amended claim at a concrete pulse: `filter(ADD, q)` then `materialize(ADD)`. -/
theorem filter_then_materialize_witness :
    ADD ≠ 0
    ∧ ((pulseAddRejected.filter ADD (fun _ _ => true)).materialize ADD).addF = none :=
  ⟨by decide,
   by simpa [show has ADD ADD = true from rfl] using
     (filter_then_materialize pulseAddRejected ADD (fun _ _ => true) (by decide)).2.1.2⟩

/-! ## visit -/

theorem has_of_land_ALL (f bit : Nat) (hf : f &&& ALL = f) (hb : ALL &&& bit = 0) :
    has f bit = false := by
  have h : f &&& bit = 0 := by
    rw [← hf, Nat.land_assoc, hb, Nat.and_zero]
  simp [has, h]

/-- The part of `visit` that does not lead to the source. -/
theorem visit_changes (p : Pulse) (f : Nat) (hS : has f SOURCE = false)
    (hR : has f REFLOW = false) :
    p.visit f = some ((if has f ADD then Arrays.visit p.add p.addF else [])
      ++ (if has f REM then Arrays.visit p.rem p.remF else [])
      ++ (if has f MOD then Arrays.visit p.mod p.modF else []), p) := by
  rw [Pulse.visit]
  simp [hS, hR]

/-- C7: for every pulse and every flags `f` made only of ADD, REM and MOD bits, `visit(f, visitor)`
calls the visitor on exactly the tuples that `materialize(f)` leaves in the selected arrays (the
arrays whose bit is set in `f`; for `f = 0` there is none), add first, then rem, then mod, each
in array order, and the pulse it returns is the unchanged pulse (stored arrays and pending
filters included). -/
theorem visit_eq_materialize (p : Pulse) (f : Nat) (hf : f &&& ALL = f) :
    p.visit f = some ((if has f ADD then (p.materialize f).add else [])
      ++ (if has f REM then (p.materialize f).rem else [])
      ++ (if has f MOD then (p.materialize f).mod else []), p) := by
  have hS : has f SOURCE = false := has_of_land_ALL f SOURCE hf rfl
  have hR : has f REFLOW = false := has_of_land_ALL f REFLOW hf rfl
  rw [visit_changes p f hS hR]
  by_cases h0 : f = 0
  · subst h0
    simp [has_zero]
  · have M := materialize_fields p f f (by simp [h0])
    rw [M.1, M.2.1, M.2.2.1]
    cases has f ADD <;> cases has f REM <;> cases has f MOD <;> simp

/-- C7 at a concrete pulse: the pending add filter rejects the only tuple, so `visit(ADD, ...)`
delivers nothing and returns the pulse as it was. -/
theorem visit_eq_materialize_witness :
    ADD &&& ALL = ADD ∧ pulseAddRejected.visit ADD = some ([], pulseAddRejected) :=
  ⟨rfl, by
    have h := visit_eq_materialize pulseAddRejected ADD rfl
    rw [h]
    rfl⟩

/-- The predicate built by `filter(pulse, flags)` for flags without SOURCE and REFLOW. -/
theorem filter_changes (p : Pulse) (f : Nat) (hS : has f SOURCE = false)
    (hR : has f REFLOW = false) :
    Dataflow.filter p f = some (fun t _ =>
      !(((if has f ADD then Arrays.visit p.add p.addF else [])
        ++ (if has f REM then Arrays.visit p.rem p.remF else [])
        ++ (if has f MOD then Arrays.visit p.mod p.modF else [])).map (fun t => t._id)).contains
          t._id) := by
  rw [Dataflow.filter, visit_changes p f hS hR]

theorem visit_ADD_MOD (p : Pulse) :
    p.visit (ADD ||| MOD) = some (Arrays.visit p.add p.addF ++ Arrays.visit p.mod p.modF, p) := by
  rw [visit_changes p (ADD ||| MOD) rfl rfl]
  simp [show has (ADD ||| MOD) ADD = true from rfl, show has (ADD ||| MOD) REM = false from rfl,
    show has (ADD ||| MOD) MOD = true from rfl]

theorem not_contains_eq_decide (ids : List (Option Nat)) (x : Option Nat) :
    (!ids.contains x) = decide (x ∉ ids) := by
  by_cases h : x ∈ ids <;> simp [h]

/-- What `visit(REFLOW, visitor)` delivers when the pulse has a source. -/
theorem visit_REFLOW (p : Pulse) (src : List Tuple) (hs : p.source = some src) :
    p.visit REFLOW = some (src.filter (fun t => decide (t._id ∉
      (Arrays.visit p.add p.addF ++ Arrays.visit p.mod p.modF).map (fun d => d._id))), p) := by
  rw [Pulse.visit]
  have h1 : has REFLOW SOURCE = false := rfl
  have h2 : has REFLOW ADD = false := rfl
  have h3 : has REFLOW REM = false := rfl
  have h4 : has REFLOW MOD = false := rfl
  have h5 : has REFLOW REFLOW = true := rfl
  simp only [h1, h2, h3, h4, h5, hs, strictEqNumberArray]
  by_cases hsum : p.add.length + p.mod.length = 0
  · have ha : p.add = [] := List.length_eq_zero.mp (by omega)
    have hm : p.mod = [] := List.length_eq_zero.mp (by omega)
    cases hA : p.addF <;> cases hM : p.modF <;>
      simp [ha, hm, Arrays.visit, arrayFilter, filterFrom]
  · rw [filter_changes p (ADD ||| MOD) rfl rfl]
    have e1 : has (ADD ||| MOD) ADD = true := rfl
    have e2 : has (ADD ||| MOD) REM = false := rfl
    have e3 : has (ADD ||| MOD) MOD = true := rfl
    simp only [e1, e2, e3, bne_iff_ne, ne_eq, hsum, not_false_eq_true, if_true]
    simp only [Arrays.visit_some, arrayFilter_const, not_contains_eq_decide,
      Bool.false_eq_true, if_false, dite_true, List.append_nil, List.nil_append]

/-- C2, the code at two pulses whose source has exactly `add.length + mod.length` tuples:
`visit(REFLOW, visitor)` still calls the visitor on a source tuple, because the test
`sum === src` compares the number with the array and is never true. In the first pulse the add
tuple is not in the source; in the second a pending filter narrows add. -/
theorem visit_reflow_equal_size :
    (pulseAddOther.source = some [tuple2]
      ∧ [tuple2].length = pulseAddOther.add.length + pulseAddOther.mod.length
      ∧ pulseAddOther.visit REFLOW = some ([tuple2], pulseAddOther))
    ∧ (pulseAddFiltered.source = some [tuple1, tuple2]
      ∧ [tuple1, tuple2].length = pulseAddFiltered.add.length + pulseAddFiltered.mod.length
      ∧ pulseAddFiltered.visit REFLOW = some ([tuple2], pulseAddFiltered)) :=
  ⟨⟨rfl, rfl, by rw [visit_REFLOW pulseAddOther [tuple2] rfl]; rfl⟩,
   ⟨rfl, rfl, by rw [visit_REFLOW pulseAddFiltered [tuple1, tuple2] rfl]; rfl⟩⟩

/-- C3: for every pulse with a backing source, `visit(REFLOW, visitor)` calls the visitor on
exactly the source tuples, in source order and as often as they occur in the source, whose id
is not the id of a tuple delivered by `visit(ADD|MOD, ...)` (add and mod as narrowed by their
pending filters), and returns the pulse; when add and mod are both empty these are all source
tuples. -/
theorem visit_reflow_spec (p : Pulse) (src : List Tuple) (hs : p.source = some src) :
    ∃ delivered, p.visit (ADD ||| MOD) = some (delivered, p)
      ∧ p.visit REFLOW
          = some (src.filter (fun t => decide (t._id ∉ delivered.map (fun d => d._id))), p)
      ∧ (p.add = [] ∧ p.mod = [] → p.visit REFLOW = some (src, p)) := by
  refine ⟨_, visit_ADD_MOD p, ?_, ?_⟩
  · exact visit_REFLOW p src hs
  · rintro ⟨ha, hm⟩
    rw [visit_REFLOW p src hs, ha, hm]
    cases hA : p.addF <;> cases hM : p.modF <;>
      simp [Arrays.visit, arrayFilter, filterFrom]

/-- C3 at a concrete pulse: add holds `tuple1`, the source `tuple1` and `tuple2`; the visitor is
called on `tuple2` only. -/
theorem visit_reflow_spec_witness :
    pulseAddSource.source = some [tuple1, tuple2]
    ∧ pulseAddSource.visit REFLOW = some ([tuple2], pulseAddSource) := by
  refine ⟨rfl, ?_⟩
  obtain ⟨d, h1, h2, -⟩ := visit_reflow_spec pulseAddSource [tuple1, tuple2] rfl
  rw [visit_ADD_MOD] at h1
  have hd : d = [tuple1] := by
    have := (Option.some.inj h1)
    exact (congrArg Prod.fst this).symm
  rw [h2, hd]
  rfl

/-! ## reflow -/

/-- The branch `src > len` of `reflow`: for a pulse with no pending lazy filters and a backing
source that is larger than add and mod together, `reflow()` installs on mod the id filter built
from add, so the materialized mod sequence is exactly the source tuples whose id is not the id
of any tuple in add, in source order; add and rem are as before. -/
theorem reflow_above_guard (p : Pulse) (src : List Tuple) (hs : p.source = some src)
    (hF : p.addF = none ∧ p.remF = none ∧ p.modF = none)
    (hlen : p.add.length + p.mod.length < src.length) :
    ∃ r, p.reflow = some r
      ∧ (r.materialize MOD).mod
          = src.filter (fun t => decide (t._id ∉ p.add.map (fun a => a._id)))
      ∧ (r.materialize ALL).mod = (r.materialize MOD).mod
      ∧ (∀ a ∈ p.add, a ∉ (r.materialize MOD).mod)
      ∧ r.add = p.add ∧ r.rem = p.rem := by
  obtain ⟨hA, hR, hM⟩ := hF
  have h1 : (src.length != 0 && src.length != p.add.length) = true := by
    simp only [Bool.and_eq_true, bne_iff_ne, ne_eq]
    omega
  have h2 : src.length > p.add.length + p.mod.length := hlen
  obtain ⟨q, hq⟩ : ∃ q : Pulse, q = { p with mod := src } := ⟨_, rfl⟩
  have q1 : q.add = p.add := by rw [hq]
  have q2 : q.rem = p.rem := by rw [hq]
  have q3 : q.mod = src := by rw [hq]
  have q4 : q.addF = none := by rw [hq]; exact hA
  have q6 : q.modF = none := by rw [hq]; exact hM
  have e1 : has ADD ADD = true := rfl
  have e2 : has ADD REM = false := rfl
  have e3 : has ADD MOD = false := rfl
  have hflt : Dataflow.filter q ADD
      = some (fun t _ => !(p.add.map (fun t => t._id)).contains t._id) := by
    rw [filter_changes q ADD rfl rfl]
    simp only [e1, e2, e3, if_true, q1, q4, Arrays.visit_none, List.append_nil,
      Bool.false_eq_true, if_false]
  have hr : p.reflow = some (q.filter MOD
      (fun t _ => !(p.add.map (fun t => t._id)).contains t._id)) := by
    unfold Pulse.reflow
    split
    · rename_i h
      rw [hs] at h
      cases h
    · rename_i source h
      have hsrc : source = src := by
        rw [hs] at h
        exact (Option.some.inj h).symm
      subst hsrc
      simp only [h1, h2, if_true]
      rw [← hq, hflt]
  refine ⟨_, hr, ?_⟩
  have F := filter_fields q MOD (fun t _ => !(p.add.map (fun t => t._id)).contains t._id)
  have b1 : has MOD ADD = false := rfl
  have b2 : has MOD REM = false := rfl
  have b3 : has MOD MOD = true := rfl
  have c3 : has ALL MOD = true := rfl
  obtain ⟨f1, f2, f3, -, -, f6, -⟩ := F
  rw [b3, if_pos rfl, q6] at f6
  have M := materialize_fields (q.filter MOD
      (fun t _ => !(p.add.map (fun t => t._id)).contains t._id)) MOD MOD rfl
  have MA := materialize_fields (q.filter MOD
      (fun t _ => !(p.add.map (fun t => t._id)).contains t._id)) ALL ALL rfl
  have hmod : ((q.filter MOD
      (fun t _ => !(p.add.map (fun t => t._id)).contains t._id)).materialize MOD).mod
      = src.filter (fun t => decide (t._id ∉ p.add.map (fun a => a._id))) := by
    rw [M.2.2.1, b3, if_pos rfl, f3, f6, Arrays.visit_some, q3]
    simp only [addFilter, arrayFilter_const, not_contains_eq_decide]
  refine ⟨hmod, ?_, ?_, ?_, ?_⟩
  · rw [MA.2.2.1, c3, if_pos rfl, M.2.2.1, b3, if_pos rfl]
  · intro a ha hmem
    rw [hmod, List.mem_filter] at hmem
    have := hmem.2
    simp only [decide_eq_true_eq] at this
    exact this (List.mem_map_of_mem _ ha)
  · rw [f1, q1]
  · rw [f2, q2]

/-- C1, the code at the pulse with `add = [tuple1]`, `mod = [tuple2]`, the source
`[tuple1, tuple2]` and no pending filter. The source is larger than add, and the source tuples
with an id outside add are `[tuple2]`, but after `reflow()` the materialized mod is the whole
source, the add tuple included, and `visit(ADD|MOD, ...)` then delivers the tuple with id 1
twice. The guard `src > len` is tested after `len += this.mod.length`, the length of the mod
array that `this.mod = this.source` has just replaced, and `2 > 2` fails, so the id filter is not
installed. At the pulse with the same add and source and an empty mod the guard holds and the
materialized mod is `[tuple2]`. -/
theorem reflow_add_tuple_in_mod :
    (pulseAddMod.addF.isNone ∧ pulseAddMod.remF.isNone ∧ pulseAddMod.modF.isNone)
    ∧ pulseAddMod.source = some [tuple1, tuple2]
    ∧ pulseAddMod.add.length < [tuple1, tuple2].length
    ∧ pulseAddMod.reflow.map (fun r => (r.materialize MOD).mod) = some [tuple1, tuple2]
    ∧ [tuple1, tuple2].filter
        (fun t => decide (t._id ∉ pulseAddMod.add.map (fun a => a._id))) = [tuple2]
    ∧ ([tuple1, tuple2] : List Tuple).length ≠ [tuple2].length
    ∧ (pulseAddMod.reflow.bind (fun r => r.visit (ADD ||| MOD))).map
        (fun v => v.1.map (fun t => t._id)) = some [some 1, some 1, some 2]
    ∧ (pulseAddSource.add = pulseAddMod.add ∧ pulseAddSource.source = pulseAddMod.source
      ∧ pulseAddSource.reflow.map (fun r => (r.materialize MOD).mod) = some [tuple2]) := by
  refine ⟨⟨rfl, rfl, rfl⟩, rfl, by decide, rfl, rfl, by decide, ?_, rfl, rfl, ?_⟩
  · have hr : pulseAddMod.reflow = some { pulseAddMod with mod := [tuple1, tuple2] } := rfl
    rw [hr]
    show Option.map _ (Pulse.visit _ (ADD ||| MOD)) = _
    rw [visit_ADD_MOD]
    rfl
  · obtain ⟨r, h1, h2, -⟩ :=
      reflow_above_guard pulseAddSource [tuple1, tuple2] rfl ⟨rfl, rfl, rfl⟩ (by decide)
    rw [h1, Option.map_some', h2]
    rfl

/-! ## Forked pulses and shared arrays -/

theorem Store.update_arrays (s : Store) (q : Nat) (g : PulseObj → PulseObj) :
    (s.update q g).arrays = s.arrays := by
  unfold Store.update
  split <;> rfl

theorem Store.update_pulse_ne (s : Store) (q p : Nat) (g : PulseObj → PulseObj) (h : q ≠ p) :
    (s.update q g).pulses[p]? = s.pulses[p]? := by
  unfold Store.update
  split
  · rfl
  · exact List.getElem?_set_ne h

theorem Store.update_pulse_self (s : Store) (q : Nat) (g : PulseObj → PulseObj) (o : PulseObj)
    (h : s.pulses[q]? = some o) : (s.update q g).pulses[q]? = some (g o) := by
  unfold Store.update
  rw [h]
  have hlt : q < s.pulses.length := by
    rcases List.getElem?_eq_some.mp h with ⟨hlt, -⟩
    exact hlt
  simp [List.getElem?_set_self hlt]

theorem Isolated.update {s0 s : Store} {p q : Nat} {a r m a2 r2 m2 : Bool}
    (h : Isolated s0 p q a r m s) (g : PulseObj → PulseObj)
    (hg : ∀ o, o.fresh s0.arrays.length a r m → (g o).fresh s0.arrays.length a2 r2 m2) :
    Isolated s0 p q a2 r2 m2 (s.update q g) := by
  obtain ⟨o, ho, hf⟩ := h.fresh
  refine ⟨h.ne, ?_, ?_, ?_, ?_⟩
  · rw [Store.update_pulse_ne s q p g h.ne]
    exact h.pulse
  · rw [Store.update_arrays]
    exact h.le
  · rw [Store.update_arrays]
    exact h.arrays
  · exact ⟨g o, Store.update_pulse_self s q g o ho, hg o hf⟩

theorem Isolated.alloc {s0 s : Store} {p q : Nat} {a r m : Bool}
    (h : Isolated s0 p q a r m s) (content : List Tuple) :
    Isolated s0 p q a r m (s.alloc content).2 ∧ s0.arrays.length ≤ (s.alloc content).1 := by
  refine ⟨⟨h.ne, h.pulse, ?_, ?_, h.fresh⟩, h.le⟩
  · simp only [Store.alloc, List.length_append, List.length_singleton]
    have := h.le
    omega
  · intro i x hx
    have h1 := h.arrays i x hx
    have hlt : i < s.arrays.length := by
      rcases List.getElem?_eq_some.mp h1 with ⟨hlt, -⟩
      exact hlt
    simp only [Store.alloc]
    rw [List.getElem?_append_left hlt]
    exact h1

theorem viewSource_eq_some (arrays : List (List Tuple)) (source : Option Nat)
    (v : Option (List Tuple)) :
    viewSource arrays source = some v
      ↔ (source = none ∧ v = none) ∨ ∃ a x, source = some a ∧ arrays[a]? = some x ∧ v = some x := by
  unfold viewSource
  cases source with
  | none =>
    simp only [Option.some.injEq, true_and, reduceCtorEq, false_and, exists_false, or_false]
    exact eq_comm
  | some a =>
    simp only [reduceCtorEq, false_and, false_or, Option.some.injEq, exists_and_left,
      exists_eq_left']
    split
    · rename_i h
      simp [h]
    · rename_i x h
      simp only [h, Option.some.injEq, exists_eq_left']
      exact eq_comm

/-- A pulse object is viewed as the pulse `v` exactly when its addresses hold `v`'s arrays and
all other properties agree. -/
theorem viewObj_eq_some (arrays : List (List Tuple)) (o : PulseObj) (v : Pulse) :
    viewObj arrays o = some v
      ↔ arrays[o.add]? = some v.add ∧ arrays[o.rem]? = some v.rem ∧ arrays[o.mod]? = some v.mod
        ∧ viewSource arrays o.source = some v.source
        ∧ v.dataflow = o.dataflow ∧ v.stamp = o.stamp ∧ v.fields = o.fields
        ∧ v.encode = o.encode ∧ v.addF = o.addF ∧ v.remF = o.remF ∧ v.modF = o.modF := by
  unfold viewObj
  obtain ⟨df, st, add, rem, mod, fields, enc, src, addF, remF, modF⟩ := v
  cases ha : arrays[o.add]? <;> cases hr : arrays[o.rem]? <;> cases hm : arrays[o.mod]? <;>
    cases hs : viewSource arrays o.source <;>
    simp only [Option.some.injEq, Pulse.mk.injEq, reduceCtorEq, false_and, and_false]
  constructor
  · rintro ⟨h1, h2, h3, h4, h5, h6, h7, h8, h9, h10, h11⟩
    exact ⟨h3, h4, h5, h8, h1.symm, h2.symm, h6.symm, h7.symm, h9.symm, h10.symm, h11.symm⟩
  · rintro ⟨h3, h4, h5, h8, h1, h2, h6, h7, h9, h10, h11⟩
    exact ⟨h1.symm, h2.symm, h3, h4, h5, h6.symm, h7.symm, h8, h9.symm, h10.symm, h11.symm⟩

theorem viewSource_mono (arrays arrays2 : List (List Tuple))
    (h : ∀ (i : Nat) (x : List Tuple), arrays[i]? = some x → arrays2[i]? = some x)
    (source : Option Nat) (v : Option (List Tuple)) (hv : viewSource arrays source = some v) :
    viewSource arrays2 source = some v := by
  rw [viewSource_eq_some] at hv ⊢
  rcases hv with hv | ⟨a, x, h1, h2, h3⟩
  · exact Or.inl hv
  · exact Or.inr ⟨a, x, h1, h a x h2, h3⟩

/-- Arrays that keep their content keep the view of every pulse object. -/
theorem viewObj_mono (arrays arrays2 : List (List Tuple))
    (h : ∀ (i : Nat) (x : List Tuple), arrays[i]? = some x → arrays2[i]? = some x)
    (o : PulseObj) (v : Pulse) (hv : viewObj arrays o = some v) :
    viewObj arrays2 o = some v := by
  rw [viewObj_eq_some] at hv ⊢
  obtain ⟨h1, h2, h3, h4, rest⟩ := hv
  exact ⟨h _ _ h1, h _ _ h2, h _ _ h3, viewSource_mono arrays arrays2 h _ _ h4, rest⟩

/-- The observable state of `p` is the same in every store that is isolated from `p`. -/
theorem Isolated.view {s0 s : Store} {p q : Nat} {a r m : Bool}
    (h : Isolated s0 p q a r m s) (pv : Pulse) (hv : s0.view p = some pv) :
    s.view p = some pv := by
  unfold Store.view at hv ⊢
  rw [h.pulse]
  cases hpo : s0.pulses[p]? with
  | none => simp [hpo] at hv
  | some o =>
    simp only [hpo] at hv ⊢
    exact viewObj_mono _ _ h.arrays o pv hv

theorem Isolated.ite_update {s0 s : Store} {p q : Nat} {a r m : Bool}
    (h : Isolated s0 p q a r m s) (c : Bool) (g : PulseObj → PulseObj)
    (hg : ∀ o, o.fresh s0.arrays.length a r m → (g o).fresh s0.arrays.length a r m) :
    Isolated s0 p q a r m (if c then s.update q g else s) := by
  split
  · exact h.update g hg
  · exact h

theorem Isolated.filter {s0 s : Store} {p q : Nat} {a r m : Bool}
    (h : Isolated s0 p q a r m s) (flags : Nat) (f : Filter) :
    Isolated s0 p q a r m (s.filter q flags f) := by
  simp only [Store.filter]
  refine Isolated.ite_update ?_ _ _ (fun _ ho => ho)
  refine Isolated.ite_update ?_ _ _ (fun _ ho => ho)
  exact Isolated.ite_update h _ _ (fun _ ho => ho)

theorem Isolated.materializeKind {s0 s : Store} {p q : Nat} {a r m : Bool}
    (h : Isolated s0 p q a r m s) (arr : PulseObj → Nat) (flt : PulseObj → Option Filter)
    (put : PulseObj → Nat → PulseObj)
    (hput : ∀ o i, s0.arrays.length ≤ i → o.fresh s0.arrays.length a r m →
      (put o i).fresh s0.arrays.length a r m) :
    Isolated s0 p q a r m (s.materializeKind q arr flt put) := by
  unfold Store.materializeKind
  split
  · exact h
  · split
    · exact h
    · exact (h.alloc _).1.update _ (fun o2 ho2 => hput o2 _ (h.alloc _).2 ho2)

theorem Isolated.ite_materializeKind {s0 s : Store} {p q : Nat} {a r m : Bool}
    (h : Isolated s0 p q a r m s) (c : Bool) (arr : PulseObj → Nat)
    (flt : PulseObj → Option Filter) (put : PulseObj → Nat → PulseObj)
    (hput : ∀ o i, s0.arrays.length ≤ i → o.fresh s0.arrays.length a r m →
      (put o i).fresh s0.arrays.length a r m) :
    Isolated s0 p q a r m (if c then s.materializeKind q arr flt put else s) := by
  split
  · exact h.materializeKind arr flt put hput
  · exact h

theorem Isolated.materialize {s0 s : Store} {p q : Nat} {a r m : Bool}
    (h : Isolated s0 p q a r m s) (flags : Nat) :
    Isolated s0 p q a r m (s.materialize q flags) := by
  simp only [Store.materialize]
  refine Isolated.ite_materializeKind ?_ _ _ _ _
    (fun _ _ hi ho => ⟨ho.1, ho.2.1, fun _ => hi⟩)
  refine Isolated.ite_materializeKind ?_ _ _ _ _
    (fun _ _ hi ho => ⟨ho.1, fun _ => hi, ho.2.2⟩)
  exact Isolated.ite_materializeKind h _ _ _ _
    (fun _ _ hi ho => ⟨fun _ => hi, ho.2.1, ho.2.2⟩)

theorem Isolated.push {s0 s : Store} {p q : Nat} {f : Nat}
    (h : Isolated s0 p q (has f ADD) (has f REM) (has f MOD) s) (kind : Nat) (t : Tuple)
    (hk : (Op.push kind t).allowed f = true) :
    Isolated s0 p q (has f ADD) (has f REM) (has f MOD) (s.push q kind t) := by
  unfold Store.push
  split
  · exact h
  · rename_i o ho
    split
    · exact h
    · rename_i i hi
      split
      · exact h
      · rename_i content hc
        obtain ⟨o2, ho2, hfr⟩ := h.fresh
        have ho_eq : o2 = o := by
          rw [ho] at ho2
          exact (Option.some.inj ho2).symm
        subst ho_eq
        have hn : s0.arrays.length ≤ i := by
          simp only [Op.allowed, Bool.and_eq_true, Bool.or_eq_true, beq_iff_eq,
            Bool.not_eq_true'] at hk
          obtain ⟨hkind, hnot⟩ := hk
          unfold PulseObj.arrayOf at hi
          rcases hkind with (hk1 | hk2) | hk3
          · subst hk1
            simp only [if_true] at hi
            have := hfr.1 hnot
            have hi2 := Option.some.inj hi
            omega
          · subst hk2
            have hne : ¬ (REM = ADD) := by decide
            simp only [hne, if_false, if_true] at hi
            have := hfr.2.1 hnot
            have hi2 := Option.some.inj hi
            omega
          · subst hk3
            have hne : ¬ (MOD = ADD) := by decide
            have hne2 : ¬ (MOD = REM) := by decide
            simp only [hne, hne2, if_false, if_true] at hi
            have := hfr.2.2 hnot
            have hi2 := Option.some.inj hi
            omega
        refine ⟨h.ne, h.pulse, ?_, ?_, ⟨o2, ho, hfr⟩⟩
        · simp only [List.length_set]
          exact h.le
        · intro j x hx
          have hj : j < s0.arrays.length := by
            rcases List.getElem?_eq_some.mp hx with ⟨hlt, -⟩
            exact hlt
          have hne : i ≠ j := by omega
          simp only [List.getElem?_set_ne hne]
          exact h.arrays j x hx

theorem Isolated.runOps {s0 : Store} {p q : Nat} {f : Nat} (ops : List Op) :
    ∀ s : Store, Isolated s0 p q (has f ADD) (has f REM) (has f MOD) s →
      (∀ op ∈ ops, op.allowed f = true) →
      Isolated s0 p q (has f ADD) (has f REM) (has f MOD) (Dataflow.runOps q ops s) := by
  induction ops with
  | nil => intro s h _; exact h
  | cons op ops ih =>
    intro s h hall
    have hop := hall op (List.mem_cons_self _ _)
    have hrest : ∀ o ∈ ops, o.allowed f = true := fun o ho => hall o (List.mem_cons_of_mem _ ho)
    show Isolated s0 p q _ _ _ (Dataflow.runOps q ops (op.run q s))
    apply ih _ _ hrest
    cases op with
    | filter flags flt => exact h.filter flags flt
    | materialize flags => exact h.materialize flags
    | push kind t => exact h.push kind t hop

theorem Isolated.newPulse (s : Store) (p : Nat) (o : PulseObj) (hp : s.pulses[p]? = some o)
    (dataflow : Nat) (stamp : Option Int) :
    Isolated s p (s.newPulse dataflow stamp).1 false false false
      (s.newPulse dataflow stamp).2 := by
  have hlt : p < s.pulses.length := by
    rcases List.getElem?_eq_some.mp hp with ⟨hlt, -⟩
    exact hlt
  simp only [Store.newPulse, Store.alloc]
  refine ⟨?_, ?_, ?_, ?_, ?_⟩
  · omega
  · exact List.getElem?_append_left hlt
  · simp only [List.length_append, List.length_singleton]
    omega
  · intro i x hx
    have hi : i < s.arrays.length := by
      rcases List.getElem?_eq_some.mp hx with ⟨hi, -⟩
      exact hi
    rw [List.getElem?_append_left (by simp only [List.length_append, List.length_singleton]; omega),
      List.getElem?_append_left (by simp only [List.length_append, List.length_singleton]; omega),
      List.getElem?_append_left hi]
    exact hx
  · refine ⟨_, List.getElem?_concat_length _ _, ?_, ?_, ?_⟩
    · intro _
      exact Nat.le_refl _
    · intro _
      simp only [List.length_append, List.length_singleton]
      omega
    · intro _
      simp only [List.length_append, List.length_singleton]
      omega

theorem Isolated.initKind {s0 s : Store} {p q : Nat} {a r m a2 r2 m2 : Bool}
    (h : Isolated s0 p q a r m s) (c : Bool) (shared : PulseObj → PulseObj)
    (fresh : Nat → PulseObj → PulseObj)
    (hsh : c = true → ∀ o, o.fresh s0.arrays.length a r m →
      (shared o).fresh s0.arrays.length a2 r2 m2)
    (hfr : c = false → ∀ o i, s0.arrays.length ≤ i → o.fresh s0.arrays.length a r m →
      (fresh i o).fresh s0.arrays.length a2 r2 m2) :
    Isolated s0 p q a2 r2 m2 (s.initKind q c shared fresh) := by
  unfold Store.initKind
  cases c with
  | true => exact h.update shared (hsh rfl)
  | false =>
    exact (h.alloc []).1.update _ (fun o ho => hfr rfl o _ (h.alloc []).2 ho)

theorem Isolated.init {s0 s : Store} {p q : Nat}
    (h : Isolated s0 p q false false false s) (src : PulseObj) (f : Nat) :
    Isolated s0 p q (has f ADD) (has f REM) (has f MOD) (s.init q src f) := by
  simp only [Store.init]
  refine Isolated.initKind (a := has f ADD) (r := has f REM) (m := false) ?_ _ _ _ ?_ ?_
  · refine Isolated.initKind (a := has f ADD) (r := false) (m := false) ?_ _ _ _ ?_ ?_
    · refine Isolated.initKind (a := false) (r := false) (m := false) ?_ _ _ _ ?_ ?_
      · refine Isolated.ite_update ?_ _ _ (fun _ ho => ho)
        refine Isolated.update ?_ _ (fun _ ho => ho)
        refine Isolated.update ?_ _ (fun _ ho => ho)
        exact Isolated.update h _ (fun _ ho => ho)
      · intro hc o ho
        exact ⟨fun hn => (by rw [hc] at hn; cases hn), ho.2.1, ho.2.2⟩
      · intro _ o i hi ho
        exact ⟨fun _ => hi, ho.2.1, ho.2.2⟩
    · intro hc o ho
      exact ⟨ho.1, fun hn => (by rw [hc] at hn; cases hn), ho.2.2⟩
    · intro _ o i hi ho
      exact ⟨ho.1, fun _ => hi, ho.2.2⟩
  · intro hc o ho
    exact ⟨ho.1, ho.2.1, fun hn => (by rw [hc] at hn; cases hn)⟩
  · intro _ o i hi ho
    exact ⟨ho.1, ho.2.1, fun _ => hi⟩

/-! ### The store operations act on the view as the methods of `Pulse` do -/

theorem Store.view_update (s : Store) (q : Nat) (g : PulseObj → PulseObj) (o : PulseObj)
    (ho : s.pulses[q]? = some o) : (s.update q g).view q = viewObj s.arrays (g o) := by
  unfold Store.view
  rw [Store.update_pulse_self s q g o ho, Store.update_arrays]

theorem Store.view_eq_some (s : Store) (q : Nat) (v : Pulse) :
    s.view q = some v ↔ ∃ o, s.pulses[q]? = some o ∧ viewObj s.arrays o = some v := by
  unfold Store.view
  cases h : s.pulses[q]? with
  | none => simp
  | some o => simp

theorem getElem?_append_mono (arrays : List (List Tuple)) (extra : List (List Tuple)) :
    ∀ (i : Nat) (x : List Tuple), arrays[i]? = some x → (arrays ++ extra)[i]? = some x := by
  intro i x hx
  have hi : i < arrays.length := by
    rcases List.getElem?_eq_some.mp hx with ⟨hi, -⟩
    exact hi
  rw [List.getElem?_append_left hi]
  exact hx

/-- A conditional assignment to the pulse at `q` that matches the assignment `G` on pulses. -/
theorem Store.view_ite_update (s : Store) (q : Nat) (v : Pulse) (hv : s.view q = some v)
    (c : Bool) (g : PulseObj → PulseObj) (G : Pulse → Pulse)
    (hgG : ∀ o, viewObj s.arrays o = some v → viewObj s.arrays (g o) = some (G v)) :
    (if c then s.update q g else s).view q = some (if c then G v else v) := by
  obtain ⟨o, ho, hov⟩ := (Store.view_eq_some s q v).mp hv
  cases c with
  | false => exact hv
  | true =>
    simp only [if_true]
    rw [Store.view_update s q g o ho]
    exact hgG o hov

/-- The store-level `filter` is the method `filter` on the view. -/
theorem Store.view_filter (s : Store) (q : Nat) (v : Pulse) (hv : s.view q = some v)
    (flags : Nat) (f : Filter) :
    (s.filter q flags f).view q = some (v.filter flags f) := by
  have h1 := Store.view_ite_update s q v hv (has flags ADD)
    (fun o => { o with addF := some (addFilter o.addF f) })
    (fun w => { w with addF := some (addFilter w.addF f) })
    (by
      intro o ho
      rw [viewObj_eq_some] at ho ⊢
      obtain ⟨h1, h2, h3, h4, h5, h6, h7, h8, h9, h10, h11⟩ := ho
      exact ⟨h1, h2, h3, h4, h5, h6, h7, h8, by show some _ = some _; rw [h9], h10, h11⟩)
  have h2 := Store.view_ite_update _ q _ h1 (has flags REM)
    (fun o => { o with remF := some (addFilter o.remF f) })
    (fun w => { w with remF := some (addFilter w.remF f) })
    (by
      intro o ho
      rw [viewObj_eq_some] at ho ⊢
      obtain ⟨h1, h2, h3, h4, h5, h6, h7, h8, h9, h10, h11⟩ := ho
      exact ⟨h1, h2, h3, h4, h5, h6, h7, h8, h9, by show some _ = some _; rw [h10], h11⟩)
  have h3 := Store.view_ite_update _ q _ h2 (has flags MOD)
    (fun o => { o with modF := some (addFilter o.modF f) })
    (fun w => { w with modF := some (addFilter w.modF f) })
    (by
      intro o ho
      rw [viewObj_eq_some] at ho ⊢
      obtain ⟨h1, h2, h3, h4, h5, h6, h7, h8, h9, h10, h11⟩ := ho
      exact ⟨h1, h2, h3, h4, h5, h6, h7, h8, h9, h10, by show some _ = some _; rw [h11]⟩)
  exact h3

/-- One materialize statement on the store matches the statement on pulses: `vflt`, `varr` and
`vput` are the filter, the array and the assignment on the pulse for `flt`, `arr` and `put`. -/
theorem Store.view_ite_materializeKind (s : Store) (q : Nat) (v : Pulse)
    (hv : s.view q = some v) (c : Bool)
    (arr : PulseObj → Nat) (flt : PulseObj → Option Filter) (put : PulseObj → Nat → PulseObj)
    (varr : Pulse → List Tuple) (vflt : Pulse → Option Filter)
    (vput : Pulse → List Tuple → Pulse)
    (hflt : ∀ o, viewObj s.arrays o = some v → flt o = vflt v)
    (harr : ∀ o, viewObj s.arrays o = some v → s.arrays[arr o]? = some (varr v))
    (hput : ∀ o x, viewObj s.arrays o = some v →
      viewObj (s.arrays ++ [x]) (put o s.arrays.length) = some (vput v x)) :
    (if c then s.materializeKind q arr flt put else s).view q
      = some (match c, vflt v with
        | true, some f => vput v (arrayFilter (varr v) f)
        | _, _ => v) := by
  obtain ⟨o, ho, hov⟩ := (Store.view_eq_some s q v).mp hv
  cases c with
  | false => exact hv
  | true =>
    simp only [if_true]
    unfold Store.materializeKind
    rw [ho]
    simp only
    rw [hflt o hov]
    cases hf : vflt v with
    | none => exact hv
    | some f =>
      simp only
      have hpul : (s.alloc (arrayFilter (s.arrays.getD (arr o) []) f)).2.pulses[q]? = some o := ho
      rw [Store.view_update _ q _ o hpul]
      have hget : s.arrays.getD (arr o) [] = varr v := by
        rw [List.getD_eq_getElem?_getD, harr o hov]
        rfl
      rw [hget]
      exact hput o _ hov

/-- The store-level `materialize` is the method `materialize` on the view. -/
theorem Store.view_materialize (s : Store) (q : Nat) (v : Pulse) (hv : s.view q = some v)
    (flags : Nat) :
    (s.materialize q flags).view q = some (v.materialize flags) := by
  have h1 := Store.view_ite_materializeKind s q v hv
    (has (if flags != 0 then flags else ALL) ADD) (·.add) (·.addF)
    (fun o a => { o with add := a, addF := none }) (·.add) (·.addF)
    (fun w x => { w with add := x, addF := none })
    (fun o ho => ((viewObj_eq_some _ o v).mp ho).2.2.2.2.2.2.2.2.1.symm)
    (fun o ho => ((viewObj_eq_some _ o v).mp ho).1)
    (by
      intro o x ho
      have hm := viewObj_mono _ _ (getElem?_append_mono s.arrays [x]) o v ho
      rw [viewObj_eq_some] at hm ⊢
      obtain ⟨h1, h2, h3, h4, h5, h6, h7, h8, h9, h10, h11⟩ := hm
      exact ⟨List.getElem?_concat_length _ _, h2, h3, h4, h5, h6, h7, h8, rfl, h10, h11⟩)
  have h2 := Store.view_ite_materializeKind _ q _ h1
    (has (if flags != 0 then flags else ALL) REM) (·.rem) (·.remF)
    (fun o a => { o with rem := a, remF := none }) (·.rem) (·.remF)
    (fun w x => { w with rem := x, remF := none })
    (fun o ho => ((viewObj_eq_some _ o _).mp ho).2.2.2.2.2.2.2.2.2.1.symm)
    (fun o ho => ((viewObj_eq_some _ o _).mp ho).2.1)
    (by
      intro o x ho
      have hm := viewObj_mono _ _ (getElem?_append_mono _ [x]) o _ ho
      rw [viewObj_eq_some] at hm ⊢
      obtain ⟨h1, h2, h3, h4, h5, h6, h7, h8, h9, h10, h11⟩ := hm
      exact ⟨h1, List.getElem?_concat_length _ _, h3, h4, h5, h6, h7, h8, h9, rfl, h11⟩)
  have h3 := Store.view_ite_materializeKind _ q _ h2
    (has (if flags != 0 then flags else ALL) MOD) (·.mod) (·.modF)
    (fun o a => { o with mod := a, modF := none }) (·.mod) (·.modF)
    (fun w x => { w with mod := x, modF := none })
    (fun o ho => ((viewObj_eq_some _ o _).mp ho).2.2.2.2.2.2.2.2.2.2.symm)
    (fun o ho => ((viewObj_eq_some _ o _).mp ho).2.2.1)
    (by
      intro o x ho
      have hm := viewObj_mono _ _ (getElem?_append_mono _ [x]) o _ ho
      rw [viewObj_eq_some] at hm ⊢
      obtain ⟨h1, h2, h3, h4, h5, h6, h7, h8, h9, h10, h11⟩ := hm
      exact ⟨h1, h2, List.getElem?_concat_length _ _, h4, h5, h6, h7, h8, h9, h10, rfl⟩)
  exact h3

theorem Store.view_update_mono (s0 s : Store) (q : Nat) (w : Pulse)
    (h : s.view q = some w
      ∧ ∀ (i : Nat) (x : List Tuple), s0.arrays[i]? = some x → s.arrays[i]? = some x)
    (g : PulseObj → PulseObj) (G : Pulse → Pulse)
    (hgG : ∀ o, viewObj s.arrays o = some w → viewObj s.arrays (g o) = some (G w)) :
    (s.update q g).view q = some (G w)
      ∧ ∀ (i : Nat) (x : List Tuple), s0.arrays[i]? = some x →
          (s.update q g).arrays[i]? = some x := by
  obtain ⟨o, ho, hov⟩ := (Store.view_eq_some s q w).mp h.1
  refine ⟨?_, ?_⟩
  · rw [Store.view_update s q g o ho]
    exact hgG o hov
  · rw [Store.update_arrays]
    exact h.2

theorem Store.view_ite_update_mono (s0 s : Store) (q : Nat) (w : Pulse)
    (h : s.view q = some w
      ∧ ∀ (i : Nat) (x : List Tuple), s0.arrays[i]? = some x → s.arrays[i]? = some x)
    (c c2 : Bool) (hc : c = c2) (g : PulseObj → PulseObj) (G : Pulse → Pulse)
    (hgG : ∀ o, viewObj s.arrays o = some w → viewObj s.arrays (g o) = some (G w)) :
    (if c then s.update q g else s).view q = some (if c2 then G w else w)
      ∧ ∀ (i : Nat) (x : List Tuple), s0.arrays[i]? = some x →
          (if c then s.update q g else s).arrays[i]? = some x := by
  subst hc
  cases c with
  | false => exact h
  | true => exact Store.view_update_mono s0 s q w h g G hgG

theorem Store.view_initKind_mono (s0 s : Store) (q : Nat) (w : Pulse)
    (h : s.view q = some w
      ∧ ∀ (i : Nat) (x : List Tuple), s0.arrays[i]? = some x → s.arrays[i]? = some x)
    (c : Bool) (shared : PulseObj → PulseObj) (fresh : Nat → PulseObj → PulseObj)
    (Gs Gf : Pulse → Pulse)
    (hs : ∀ o, viewObj s.arrays o = some w → viewObj s.arrays (shared o) = some (Gs w))
    (hf : ∀ o, viewObj s.arrays o = some w →
      viewObj (s.arrays ++ [[]]) (fresh s.arrays.length o) = some (Gf w)) :
    (s.initKind q c shared fresh).view q = some (if c then Gs w else Gf w)
      ∧ ∀ (i : Nat) (x : List Tuple), s0.arrays[i]? = some x →
          (s.initKind q c shared fresh).arrays[i]? = some x := by
  obtain ⟨o, ho, hov⟩ := (Store.view_eq_some s q w).mp h.1
  unfold Store.initKind
  cases c with
  | true => exact Store.view_update_mono s0 s q w h shared Gs hs
  | false =>
    simp only [Bool.false_eq_true, if_false]
    refine ⟨?_, ?_⟩
    · have hpul : (s.alloc []).2.pulses[q]? = some o := ho
      rw [Store.view_update _ q _ o hpul]
      exact hf o hov
    · rw [Store.update_arrays]
      intro i x hx
      exact getElem?_append_mono s.arrays [[]] i x (h.2 i x hx)

/-- The store-level `fork` is the method `fork` on the view: the new pulse object is viewed as
`fork(flags)` of the view of the forked pulse. -/
theorem Store.view_fork (s : Store) (p : Nat) (pv : Pulse) (hp : s.view p = some pv)
    (f : Nat) :
    ∃ q s1, s.fork p f = some (q, s1) ∧ s1.view q = some (pv.fork f) := by
  obtain ⟨src, hsrc, hsv⟩ := (Store.view_eq_some s p pv).mp hp
  refine ⟨(s.newPulse src.dataflow none).1,
    (s.newPulse src.dataflow none).2.init (s.newPulse src.dataflow none).1 src f,
    by simp only [Store.fork, hsrc], ?_⟩
  have hsv2 := (viewObj_eq_some _ _ _).mp hsv
  obtain ⟨e1, e2, e3, e4, e5, e6, e7, e8, e9, e10, e11⟩ := hsv2
  -- the freshly constructed pulse
  have hn : (s.newPulse src.dataflow none).2.view (s.newPulse src.dataflow none).1
        = some (Pulse.new pv.dataflow none)
      ∧ ∀ (i : Nat) (x : List Tuple), s.arrays[i]? = some x →
          (s.newPulse src.dataflow none).2.arrays[i]? = some x := by
    refine ⟨?_, ?_⟩
    · rw [Store.view_eq_some]
      refine ⟨_, List.getElem?_concat_length _ _, ?_⟩
      rw [viewObj_eq_some]
      refine ⟨?_, ?_, ?_, rfl, e5, rfl, rfl, rfl, rfl, rfl, rfl⟩
      · show (((s.arrays ++ [[]]) ++ [[]]) ++ [[]])[s.arrays.length]? = some []
        rw [List.getElem?_append_left (by simp), List.getElem?_append_left (by simp),
          List.getElem?_concat_length]
      · show (((s.arrays ++ [[]]) ++ [[]]) ++ [[]])[(s.arrays ++ [[]]).length]? = some []
        rw [List.getElem?_append_left (by simp)]
        exact List.getElem?_concat_length (s.arrays ++ [[]]) []
      · show (((s.arrays ++ [[]]) ++ [[]]) ++ [[]])[((s.arrays ++ [[]]) ++ [[]]).length]?
          = some []
        exact List.getElem?_concat_length ((s.arrays ++ [[]]) ++ [[]]) []
    · intro i x hx
      simp only [Store.newPulse, Store.alloc]
      exact getElem?_append_mono _ _ i x
        (getElem?_append_mono _ _ i x (getElem?_append_mono _ _ i x hx))
  -- the assignments of init, one by one
  have h1 := Store.view_update_mono s _ _ _ hn
    (fun o => { o with stamp := src.stamp }) (fun w => { w with stamp := pv.stamp })
    (by
      intro o ho
      rw [viewObj_eq_some] at ho ⊢
      obtain ⟨a1, a2, a3, a4, a5, a6, a7, a8, a9, a10, a11⟩ := ho
      exact ⟨a1, a2, a3, a4, a5, e6, a7, a8, a9, a10, a11⟩)
  have h2 := Store.view_update_mono s _ _ _ h1
    (fun o => { o with source := if has f NO_SOURCE then none else src.source })
    (fun w => { w with source := if has f NO_SOURCE then none else pv.source })
    (by
      intro o ho
      rw [viewObj_eq_some] at ho ⊢
      obtain ⟨a1, a2, a3, a4, a5, a6, a7, a8, a9, a10, a11⟩ := ho
      refine ⟨a1, a2, a3, ?_, a5, a6, a7, a8, a9, a10, a11⟩
      show viewSource _ (if has f NO_SOURCE then none else src.source)
        = some (if has f NO_SOURCE then none else pv.source)
      cases has f NO_SOURCE with
      | true => rfl
      | false => exact viewSource_mono _ _ h1.2 _ _ e4)
  have h3 := Store.view_update_mono s _ _ _ h2
    (fun o => { o with encode := src.encode }) (fun w => { w with encode := pv.encode })
    (by
      intro o ho
      rw [viewObj_eq_some] at ho ⊢
      obtain ⟨a1, a2, a3, a4, a5, a6, a7, a8, a9, a10, a11⟩ := ho
      exact ⟨a1, a2, a3, a4, a5, a6, a7, e8, a9, a10, a11⟩)
  have h4 := Store.view_ite_update_mono s _ _ _ h3 src.fields.isSome pv.fields.isSome
    (by rw [e7])
    (fun o => { o with fields := src.fields }) (fun w => { w with fields := pv.fields })
    (by
      intro o ho
      rw [viewObj_eq_some] at ho ⊢
      obtain ⟨a1, a2, a3, a4, a5, a6, a7, a8, a9, a10, a11⟩ := ho
      exact ⟨a1, a2, a3, a4, a5, a6, e7, a8, a9, a10, a11⟩)
  have h5 := Store.view_initKind_mono s _ _ _ h4 (has f ADD)
    (fun o => { o with addF := src.addF, add := src.add })
    (fun a o => { o with addF := none, add := a })
    (fun w => { w with addF := pv.addF, add := pv.add })
    (fun w => { w with addF := none, add := [] })
    (by
      intro o ho
      rw [viewObj_eq_some] at ho ⊢
      obtain ⟨a1, a2, a3, a4, a5, a6, a7, a8, a9, a10, a11⟩ := ho
      exact ⟨h4.2 _ _ e1, a2, a3, a4, a5, a6, a7, a8, e9, a10, a11⟩)
    (by
      intro o ho
      have hm := viewObj_mono _ _ (getElem?_append_mono _ [[]]) o _ ho
      rw [viewObj_eq_some] at hm ⊢
      obtain ⟨a1, a2, a3, a4, a5, a6, a7, a8, a9, a10, a11⟩ := hm
      exact ⟨List.getElem?_concat_length _ _, a2, a3, a4, a5, a6, a7, a8, rfl, a10, a11⟩)
  have h6 := Store.view_initKind_mono s _ _ _ h5 (has f REM)
    (fun o => { o with remF := src.remF, rem := src.rem })
    (fun a o => { o with remF := none, rem := a })
    (fun w => { w with remF := pv.remF, rem := pv.rem })
    (fun w => { w with remF := none, rem := [] })
    (by
      intro o ho
      rw [viewObj_eq_some] at ho ⊢
      obtain ⟨a1, a2, a3, a4, a5, a6, a7, a8, a9, a10, a11⟩ := ho
      exact ⟨a1, h5.2 _ _ e2, a3, a4, a5, a6, a7, a8, a9, e10, a11⟩)
    (by
      intro o ho
      have hm := viewObj_mono _ _ (getElem?_append_mono _ [[]]) o _ ho
      rw [viewObj_eq_some] at hm ⊢
      obtain ⟨a1, a2, a3, a4, a5, a6, a7, a8, a9, a10, a11⟩ := hm
      exact ⟨a1, List.getElem?_concat_length _ _, a3, a4, a5, a6, a7, a8, a9, rfl, a11⟩)
  have h7 := Store.view_initKind_mono s _ _ _ h6 (has f MOD)
    (fun o => { o with modF := src.modF, mod := src.mod })
    (fun a o => { o with modF := none, mod := a })
    (fun w => { w with modF := pv.modF, mod := pv.mod })
    (fun w => { w with modF := none, mod := [] })
    (by
      intro o ho
      rw [viewObj_eq_some] at ho ⊢
      obtain ⟨a1, a2, a3, a4, a5, a6, a7, a8, a9, a10, a11⟩ := ho
      exact ⟨a1, a2, h6.2 _ _ e3, a4, a5, a6, a7, a8, a9, a10, e11⟩)
    (by
      intro o ho
      have hm := viewObj_mono _ _ (getElem?_append_mono _ [[]]) o _ ho
      rw [viewObj_eq_some] at hm ⊢
      obtain ⟨a1, a2, a3, a4, a5, a6, a7, a8, a9, a10, a11⟩ := hm
      exact ⟨a1, a2, List.getElem?_concat_length _ _, a4, a5, a6, a7, a8, a9, a10, rfl⟩)
  exact h7.1

/-- C5: for every pulse `p` of a store, flags `f` and fork `q = p.fork(f)` (a new pulse object
whose view is `fork(f)` of the view of `p`): any sequence of `filter` and `materialize` calls on
`q`, and of appends to an array of `q` whose kind bit is not set in `f`, leaves what `p` holds
(its add, rem and mod sequences, its pending filters and all its other properties) exactly as it
was before the fork. -/
theorem fork_isolation (s : Store) (p f : Nat) (pv : Pulse) (hp : s.view p = some pv)
    (ops : List Op) (hops : ∀ op ∈ ops, op.allowed f = true) :
    ∃ q s1, s.fork p f = some (q, s1) ∧ q ≠ p
      ∧ s1.view q = some (pv.fork f)
      ∧ s1.view p = some pv
      ∧ (runOps q ops s1).view p = some pv := by
  cases hsrc : s.pulses[p]? with
  | none => simp [Store.view, hsrc] at hp
  | some src =>
    have h0 := Isolated.newPulse s p src hsrc src.dataflow none
    have h1 := h0.init src f
    have hfork : s.fork p f = some ((s.newPulse src.dataflow none).1,
        (s.newPulse src.dataflow none).2.init (s.newPulse src.dataflow none).1 src f) := by
      simp only [Store.fork, hsrc]
    refine ⟨_, _, hfork, h1.ne, ?_, h1.view pv hp, ?_⟩
    · obtain ⟨q, s1, hq, hv⟩ := Store.view_fork s p pv hp f
      rw [hfork] at hq
      have e := Option.some.inj hq
      have e1 : (s.newPulse src.dataflow none).1 = q := congrArg Prod.fst e
      have e2 : (s.newPulse src.dataflow none).2.init (s.newPulse src.dataflow none).1 src f
          = s1 := congrArg Prod.snd e
      rw [e2, e1]
      exact hv
    · exact (Isolated.runOps ops _ h1 hops).view pv hp

/-- C5 at a concrete store: the pulse at address 0 is forked with `ADD`; the fork filters and
materializes its add array and appends to its own mod array; the pulse at address 0 still holds
`add = [tuple1]`, `rem = []`, `mod = [tuple2]` and no pending filter. -/
theorem fork_isolation_witness :
    (∀ op ∈ opsOnFork, op.allowed ADD = true)
    ∧ ∃ q s1, storeOnePulse.fork 0 ADD = some (q, s1)
        ∧ ((runOps q opsOnFork s1).view 0).map
            (fun v => (v.add, v.rem, v.mod, v.addF.isSome, v.remF.isSome, v.modF.isSome))
          = some ([tuple1], [], [tuple2], false, false, false) := by
  have hall : ∀ op ∈ opsOnFork, op.allowed ADD = true := by
    intro op hop
    simp only [opsOnFork, List.mem_cons, List.mem_singleton, List.not_mem_nil, or_false] at hop
    rcases hop with rfl | rfl | rfl <;> rfl
  refine ⟨hall, ?_⟩
  obtain ⟨q, s1, h1, -, -, -, h2⟩ := fork_isolation storeOnePulse 0 ADD _ rfl opsOnFork hall
  exact ⟨q, s1, h1, by rw [h2]; rfl⟩

/-! ## modifies and modified -/

theorem Hash.mem_set (h : Hash) (f n : String) (hn : n ≠ "__proto__") :
    n ∈ (h.set f).own ↔ n ∈ h.own ∨ n = f := by
  unfold Hash.set
  by_cases h1 : f = "__proto__"
  · simp only [h1, beq_self_eq_true, if_true]
    constructor
    · exact Or.inl
    · rintro (h2 | h2)
      · exact h2
      · exact absurd h2 hn
  · have h1b : (f == "__proto__") = false := by simpa using h1
    simp only [h1b, Bool.false_eq_true, if_false]
    by_cases h2 : h.own.contains f = true
    · simp only [h2, if_true]
      constructor
      · exact Or.inl
      · rintro (h3 | h3)
        · exact h3
        · rw [h3]
          simpa using h2
    · simp only [h2, if_false, List.mem_append, List.mem_singleton, Bool.false_eq_true]

theorem Hash.mem_foldl_set (names : List String) (n : String) (hn : n ≠ "__proto__") :
    ∀ h : Hash, n ∈ (names.foldl Hash.set h).own ↔ n ∈ h.own ∨ n ∈ names := by
  induction names with
  | nil => intro h; simp
  | cons f fs ih =>
    intro h
    rw [List.foldl_cons, ih, Hash.mem_set h f n hn, List.mem_cons, or_assoc]

theorem Hash.get_truthy (h : Hash) (n : String) (hn : n ∉ objectPrototypeKeys) :
    (h.get n).truthy = true ↔ n ∈ h.own := by
  unfold Hash.get
  have h2 : objectPrototypeKeys.contains n = false := by simpa using hn
  by_cases h1 : h.own.contains n = true
  · simp only [h1, if_true]
    have : n ∈ h.own := by simpa using h1
    simp [Value.truthy, this]
  · simp only [h1, h2, if_false, Bool.false_eq_true]
    have : n ∉ h.own := by simpa using h1
    simp [Value.truthy, this]

theorem modified_of_fields (p : Pulse) (h : Hash) (hm : p.mod ≠ []) (hf : p.fields = some h) :
    (∀ f, p.modified (.name f) = h.get f)
    ∧ (∀ fs, p.modified (.names fs) = Value.bool (fs.any (fun f => (h.get f).truthy))) := by
  have hl : (p.mod.length != 0) = true := by
    cases hp : p.mod with
    | nil => exact absurd hp hm
    | cons t ts => rfl
  constructor
  · intro f
    unfold Pulse.modified
    rw [hl, hf]
  · intro fs
    unfold Pulse.modified
    rw [hl, hf]

theorem modified_of_no_mod (p : Pulse) (arg : FieldArg) (hm : p.mod = []) :
    p.modified arg = Value.num 0 := by
  unfold Pulse.modified
  rw [hm]
  rfl

theorem modified_of_no_fields (p : Pulse) (arg : FieldArg) (hf : p.fields = none) :
    p.modified arg = Value.num 0 := by
  unfold Pulse.modified
  rw [hf]
  cases (p.mod.length != 0) <;> rfl

/-! ### Pulses that share a fields object -/

theorem FieldsStore.unshared_spec (s : FieldsStore) (q : Nat) (oq : FieldsObj) (a : Nat)
    (hu : s.unshared q = true) (hq : s.pulses[q]? = some oq) (ha : oq.fields = some a) :
    ∀ (p : Nat) (o : FieldsObj), p ≠ q → s.pulses[p]? = some o → o.fields ≠ some a := by
  intro p o hne hp
  unfold FieldsStore.unshared at hu
  rw [hq] at hu
  simp only [ha, List.all_eq_true, List.mem_range, Bool.or_eq_true, beq_iff_eq] at hu
  have hlt : p < s.pulses.length := by
    rcases List.getElem?_eq_some.mp hp with ⟨h, _⟩
    exact h
  rcases hu p hlt with h | h
  · exact absurd h hne
  · rw [hp] at h
    simpa using h

theorem FieldsCall.run_fork_none (s : FieldsStore) (p flags : Nat) (hp : s.pulses[p]? = none) :
    (FieldsCall.fork p flags).run s = s := by
  simp only [FieldsCall.run, FieldsStore.fork, hp]

theorem FieldsCall.run_fork_some (s : FieldsStore) (p flags : Nat) (src : FieldsObj)
    (hp : s.pulses[p]? = some src) :
    (FieldsCall.fork p flags).run s
      = { s with pulses := s.pulses ++ [⟨src.fields, if has flags MOD then src.mod else []⟩] } := by
  simp only [FieldsCall.run, FieldsStore.fork, hp]
  cases hf : src.fields <;> simp

theorem FieldsCall.run_modifies_none (s : FieldsStore) (q : Nat) (arg : FieldArg)
    (hq : s.pulses[q]? = none) : (FieldsCall.modifies q arg).run s = s := by
  simp only [FieldsCall.run, FieldsStore.modifies, hq]

theorem FieldsCall.run_modifies_held (s : FieldsStore) (q : Nat) (arg : FieldArg)
    (oq : FieldsObj) (a : Nat) (hash : Hash) (hq : s.pulses[q]? = some oq)
    (hf : oq.fields = some a) (hh : s.hashes[a]? = some hash) :
    (FieldsCall.modifies q arg).run s
      = { s with hashes := s.hashes.set a ((Arrays.array arg).foldl Hash.set hash) } := by
  simp only [FieldsCall.run, FieldsStore.modifies, hq, hf, hh]

theorem FieldsCall.run_modifies_new (s : FieldsStore) (q : Nat) (arg : FieldArg)
    (oq : FieldsObj) (hq : s.pulses[q]? = some oq) (hf : oq.fields = none) :
    (FieldsCall.modifies q arg).run s
      = { hashes := s.hashes ++ [(Arrays.array arg).foldl Hash.set ⟨[]⟩]
          pulses := s.pulses.set q { oq with fields := some s.hashes.length } } := by
  simp only [FieldsCall.run, FieldsStore.modifies, hq, hf]

theorem FieldsCall.record_fork_none (r : List (List String)) (p flags : Nat)
    (hr : r[p]? = none) : (FieldsCall.fork p flags).record r = r := by
  simp only [FieldsCall.record, hr]

theorem FieldsCall.record_fork_some (r : List (List String)) (p flags : Nat) (ns : List String)
    (hr : r[p]? = some ns) : (FieldsCall.fork p flags).record r = r ++ [ns] := by
  simp only [FieldsCall.record, hr]

theorem FieldsCall.record_modifies_none (r : List (List String)) (q : Nat) (arg : FieldArg)
    (hr : r[q]? = none) : (FieldsCall.modifies q arg).record r = r := by
  simp only [FieldsCall.record, hr]

theorem FieldsCall.record_modifies_some (r : List (List String)) (q : Nat) (arg : FieldArg)
    (ns : List String) (hr : r[q]? = some ns) :
    (FieldsCall.modifies q arg).record r = r.set q (ns ++ Arrays.array arg) := by
  simp only [FieldsCall.record, hr]

theorem FieldsInv.start (mods : List (List Tuple)) :
    FieldsInv (FieldsStore.start mods) (mods.map (fun _ => [])) := by
  refine ⟨by simp [FieldsStore.start], ?_, ?_⟩
  · intro p o a hp ha
    simp only [FieldsStore.start, List.getElem?_map, Option.map_eq_some'] at hp
    obtain ⟨m, -, hm⟩ := hp
    rw [← hm] at ha
    cases ha
  · intro p o ns n hp hr _
    simp only [FieldsStore.start, List.getElem?_map, Option.map_eq_some'] at hp hr
    obtain ⟨m, -, hm⟩ := hp
    obtain ⟨m2, -, hm2⟩ := hr
    rw [← hm, ← hm2]
    simp

theorem FieldsInv.fork {s : FieldsStore} {r : List (List String)} (h : FieldsInv s r)
    (p flags : Nat) :
    FieldsInv ((FieldsCall.fork p flags).run s) ((FieldsCall.fork p flags).record r) := by
  cases hp : s.pulses[p]? with
  | none =>
    have hr : r[p]? = none := by
      apply List.getElem?_eq_none
      rw [h.len]
      exact List.getElem?_eq_none_iff.mp hp
    rw [FieldsCall.run_fork_none s p flags hp, FieldsCall.record_fork_none r p flags hr]
    exact h
  | some src =>
    have hlt : p < s.pulses.length := by
      rcases List.getElem?_eq_some.mp hp with ⟨hh, _⟩
      exact hh
    have hltr : p < r.length := by rw [h.len]; exact hlt
    obtain ⟨ns0, hr⟩ : ∃ ns0, r[p]? = some ns0 := ⟨r[p], List.getElem?_eq_getElem hltr⟩
    rw [FieldsCall.run_fork_some s p flags src hp, FieldsCall.record_fork_some r p flags ns0 hr]
    refine ⟨by simp [h.len], ?_, ?_⟩
    · intro p2 o a hp2 ha
      simp only at hp2 ⊢
      by_cases hlt2 : p2 < s.pulses.length
      · rw [List.getElem?_append_left hlt2] at hp2
        exact h.valid p2 o a hp2 ha
      · have hle : s.pulses.length ≤ p2 := by omega
        rw [List.getElem?_append_right hle] at hp2
        have h0 : p2 - s.pulses.length = 0 := by
          by_contra hc
          rw [List.getElem?_eq_none (by simp; omega)] at hp2
          cases hp2
        rw [h0] at hp2
        simp only [List.getElem?_cons_zero, Option.some.injEq] at hp2
        rw [← hp2] at ha
        exact h.valid p src a hp ha
    · intro p2 o ns n hp2 hr2 hn
      simp only at hp2 ⊢
      by_cases hlt2 : p2 < s.pulses.length
      · rw [List.getElem?_append_left hlt2] at hp2
        rw [List.getElem?_append_left (by rw [h.len]; exact hlt2)] at hr2
        exact h.names p2 o ns n hp2 hr2 hn
      · have hle : s.pulses.length ≤ p2 := by omega
        rw [List.getElem?_append_right hle] at hp2
        rw [List.getElem?_append_right (by rw [h.len]; exact hle)] at hr2
        have h0 : p2 - s.pulses.length = 0 := by
          by_contra hc
          rw [List.getElem?_eq_none (by simp; omega)] at hp2
          cases hp2
        rw [h0] at hp2
        rw [h.len, h0] at hr2
        simp only [List.getElem?_cons_zero, Option.some.injEq] at hp2 hr2
        rw [← hp2, ← hr2]
        exact h.names p src ns0 n hp hr hn

theorem FieldsInv.modifies {s : FieldsStore} {r : List (List String)} (h : FieldsInv s r)
    (q : Nat) (arg : FieldArg) (hu : s.unshared q = true) :
    FieldsInv ((FieldsCall.modifies q arg).run s) ((FieldsCall.modifies q arg).record r) := by
  cases hq : s.pulses[q]? with
  | none =>
    have hr : r[q]? = none := by
      apply List.getElem?_eq_none
      rw [h.len]
      exact List.getElem?_eq_none_iff.mp hq
    rw [FieldsCall.run_modifies_none s q arg hq, FieldsCall.record_modifies_none r q arg hr]
    exact h
  | some oq =>
    have hlt : q < s.pulses.length := by
      rcases List.getElem?_eq_some.mp hq with ⟨hh, _⟩
      exact hh
    have hltr : q < r.length := by rw [h.len]; exact hlt
    obtain ⟨ns0, hr⟩ : ∃ ns0, r[q]? = some ns0 := ⟨r[q], List.getElem?_eq_getElem hltr⟩
    rw [FieldsCall.record_modifies_some r q arg ns0 hr]
    cases hf : oq.fields with
    | some a =>
      have ha : a < s.hashes.length := h.valid q oq a hq hf
      obtain ⟨hash, hh⟩ : ∃ hash, s.hashes[a]? = some hash :=
        ⟨s.hashes[a], List.getElem?_eq_getElem _⟩
      rw [FieldsCall.run_modifies_held s q arg oq a hash hq hf hh]
      refine ⟨by simp [h.len], ?_, ?_⟩
      · intro p o a2 hp ha2
        simp only [List.length_set]
        exact h.valid p o a2 hp ha2
      · intro p o ns n hp hr2 hn
        by_cases hpq : p = q
        · subst hpq
          rw [List.getElem?_set_self (by rw [h.len]; exact hlt)] at hr2
          have e : o = oq := by
            rw [hq] at hp
            exact (Option.some.inj hp).symm
          subst e
          cases hr2
          have hold := h.names p o ns0 n hq hr hn
          rw [List.mem_append, hold]
          constructor
          · rintro (⟨a2, h2, ha2, hh2, hmem⟩ | hmem)
            · have e2 : a2 = a := by
                rw [hf] at ha2
                exact (Option.some.inj ha2).symm
              subst e2
              have e3 : h2 = hash := by
                rw [hh] at hh2
                exact (Option.some.inj hh2).symm
              subst e3
              exact ⟨a2, _, hf, List.getElem?_set_self ha,
                (Hash.mem_foldl_set _ n hn h2).mpr (Or.inl hmem)⟩
            · exact ⟨a, _, hf, List.getElem?_set_self ha,
                (Hash.mem_foldl_set _ n hn hash).mpr (Or.inr hmem)⟩
          · rintro ⟨a2, h2, ha2, hh2, hmem⟩
            have e2 : a2 = a := by
              rw [hf] at ha2
              exact (Option.some.inj ha2).symm
            subst e2
            rw [List.getElem?_set_self ha] at hh2
            cases hh2
            rcases (Hash.mem_foldl_set _ n hn hash).mp hmem with hm | hm
            · exact Or.inl ⟨a2, hash, hf, hh, hm⟩
            · exact Or.inr hm
        · rw [List.getElem?_set_ne (fun e => hpq e.symm)] at hr2
          have hne := FieldsStore.unshared_spec s q oq a hu hq hf p o hpq hp
          rw [h.names p o ns n hp hr2 hn]
          constructor
          · rintro ⟨a2, h2, ha2, hh2, hmem⟩
            have hne2 : a ≠ a2 := by
              intro e
              apply hne
              rw [ha2, e]
            exact ⟨a2, h2, ha2, by rw [List.getElem?_set_ne hne2]; exact hh2, hmem⟩
          · rintro ⟨a2, h2, ha2, hh2, hmem⟩
            have hne2 : a ≠ a2 := by
              intro e
              apply hne
              rw [ha2, e]
            rw [List.getElem?_set_ne hne2] at hh2
            exact ⟨a2, h2, ha2, hh2, hmem⟩
    | none =>
      rw [FieldsCall.run_modifies_new s q arg oq hq hf]
      refine ⟨by simp [h.len], ?_, ?_⟩
      · intro p o a2 hp ha2
        simp only [List.length_append, List.length_singleton]
        by_cases hpq : p = q
        · subst hpq
          rw [List.getElem?_set_self hlt] at hp
          cases hp
          simp only [Option.some.injEq] at ha2
          omega
        · rw [List.getElem?_set_ne (fun e => hpq e.symm)] at hp
          have := h.valid p o a2 hp ha2
          omega
      · intro p o ns n hp hr2 hn
        by_cases hpq : p = q
        · subst hpq
          rw [List.getElem?_set_self hlt] at hp
          rw [List.getElem?_set_self (by rw [h.len]; exact hlt)] at hr2
          cases hp
          cases hr2
          have hold := h.names p oq ns0 n hq hr hn
          have hnot : n ∉ ns0 := by
            intro hm
            obtain ⟨a2, _, ha2, -, -⟩ := hold.mp hm
            rw [hf] at ha2
            cases ha2
          rw [List.mem_append]
          constructor
          · rintro (hm | hm)
            · exact absurd hm hnot
            · exact ⟨s.hashes.length, _, rfl, List.getElem?_concat_length _ _,
                (Hash.mem_foldl_set _ n hn ⟨[]⟩).mpr (Or.inr hm)⟩
          · rintro ⟨a2, h2, ha2, hh2, hmem⟩
            simp only [Option.some.injEq] at ha2
            subst ha2
            rw [List.getElem?_concat_length] at hh2
            cases hh2
            rcases (Hash.mem_foldl_set _ n hn ⟨[]⟩).mp hmem with hm | hm
            · cases hm
            · exact Or.inr hm
        · rw [List.getElem?_set_ne (fun e => hpq e.symm)] at hp hr2
          rw [h.names p o ns n hp hr2 hn]
          constructor
          · rintro ⟨a2, h2, ha2, hh2, hmem⟩
            have := h.valid p o a2 hp ha2
            exact ⟨a2, h2, ha2, by rw [List.getElem?_append_left this]; exact hh2, hmem⟩
          · rintro ⟨a2, h2, ha2, hh2, hmem⟩
            have := h.valid p o a2 hp ha2
            rw [List.getElem?_append_left this] at hh2
            exact ⟨a2, h2, ha2, hh2, hmem⟩

theorem FieldsInv.run (calls : List FieldsCall) :
    ∀ (s : FieldsStore) (r : List (List String)), FieldsInv s r →
      unsharedCalls calls s = true →
      FieldsInv (runFieldsCalls calls s) (recordedNames calls r) := by
  induction calls with
  | nil => intro s r h _; exact h
  | cons c cs ih =>
    intro s r h hu
    cases c with
    | fork p flags =>
      exact ih _ _ (h.fork p flags) hu
    | modifies q arg =>
      simp only [unsharedCalls, Bool.and_eq_true] at hu
      exact ih _ _ (h.modifies q arg hu.1) hu.2

theorem FieldsStore.modified_zero (s : FieldsStore) (p : Nat) (o : FieldsObj) (arg : FieldArg)
    (hp : s.pulses[p]? = some o) (h0 : o.mod = [] ∨ o.fields = none) :
    s.modified p arg = some (Value.num 0) := by
  rcases h0 with h | h
  · simp only [FieldsStore.modified, hp, h, List.length_nil, bne_self_eq_false]
  · simp only [FieldsStore.modified, hp, h]
    cases (o.mod.length != 0) <;> rfl

theorem FieldsStore.modified_held (s : FieldsStore) (p : Nat) (o : FieldsObj) (arg : FieldArg)
    (a : Nat) (h : Hash) (hp : s.pulses[p]? = some o) (hm : o.mod ≠ [])
    (hf : o.fields = some a) (hh : s.hashes[a]? = some h) :
    s.modified p arg = some (match arg with
      | .names fs => Value.bool (fs.any (fun f => (h.get f).truthy))
      | .name f => h.get f) := by
  have hl : (o.mod.length != 0) = true := by
    cases hmod : o.mod with
    | nil => exact absurd hmod hm
    | cons t ts => rfl
  simp only [FieldsStore.modified, hp, hl, hf, hh]
  cases arg <;> rfl

/-- The method `modified` of the store reads what the method on the pulse value reads, for
the pulse value with the same mod array and the content of the hash object as its `fields`. -/
theorem FieldsStore.modified_eq_value (s : FieldsStore) (p : Nat) (o : FieldsObj)
    (arg : FieldArg) (pv : Pulse) (hp : s.pulses[p]? = some o) (hmod : pv.mod = o.mod)
    (hnone : o.fields = none → pv.fields = none)
    (hsome : ∀ a, o.fields = some a → ∃ h, s.hashes[a]? = some h ∧ pv.fields = some h) :
    s.modified p arg = some (pv.modified arg) := by
  by_cases hm : o.mod = []
  · rw [FieldsStore.modified_zero s p o arg hp (Or.inl hm),
      modified_of_no_mod pv arg (by rw [hmod]; exact hm)]
  · have hcase : o.fields = none ∨ ∃ a, o.fields = some a := by
      cases o.fields with
      | none => exact Or.inl rfl
      | some a => exact Or.inr ⟨a, rfl⟩
    rcases hcase with hf | ⟨a, hf⟩
    · rw [FieldsStore.modified_zero s p o arg hp (Or.inr hf),
        modified_of_no_fields pv arg (hnone hf)]
    · obtain ⟨h, hh, hpv⟩ := hsome a hf
      have M := modified_of_fields pv h (by rw [hmod]; exact hm) hpv
      rw [FieldsStore.modified_held s p o arg a h hp hm hf hh]
      cases arg with
      | name f => rw [M.1 f]
      | names fs => rw [M.2 fs]

theorem runFieldsCalls_forks (calls : List FieldsCall) :
    ∀ s : FieldsStore, (∀ c ∈ calls, c.isFork = true) →
      (∀ (p : Nat) (o : FieldsObj), s.pulses[p]? = some o → o.fields = none) →
      ∀ (p : Nat) (o : FieldsObj), (runFieldsCalls calls s).pulses[p]? = some o →
        o.fields = none := by
  induction calls with
  | nil => intro s _ h; exact h
  | cons c cs ih =>
    intro s hc h
    have hcs : ∀ c ∈ cs, c.isFork = true := fun x hx => hc x (List.mem_cons_of_mem _ hx)
    have hc0 := hc c (List.mem_cons_self _ _)
    cases c with
    | modifies q arg => cases hc0
    | fork p flags =>
      apply ih _ hcs
      cases hp : s.pulses[p]? with
      | none =>
        rw [FieldsCall.run_fork_none s p flags hp]
        exact h
      | some src =>
        rw [FieldsCall.run_fork_some s p flags src hp]
        intro p2 o hp2
        simp only at hp2
        by_cases hlt2 : p2 < s.pulses.length
        · rw [List.getElem?_append_left hlt2] at hp2
          exact h p2 o hp2
        · have hle : s.pulses.length ≤ p2 := by omega
          rw [List.getElem?_append_right hle] at hp2
          have h0 : p2 - s.pulses.length = 0 := by
            by_contra hcc
            rw [List.getElem?_eq_none (by simp; omega)] at hp2
            cases hp2
          rw [h0] at hp2
          simp only [List.getElem?_cons_zero, Option.some.injEq] at hp2
          rw [← hp2]
          exact h p src hp

/-- C9, the claim as stated fails in two ways. On a pulse with a mod tuple on which only the
field `a` was recorded, `modified('constructor')` is truthy, because the `fields` hash is a plain
object and the lookup `fields['constructor']` finds the member inherited from
`Object.prototype`. And `fork` hands the hash object of the pulse to the new pulse: after
`p.modifies('a')`, `q = p.fork(0)` and `q.modifies('b')` on a pulse `p` with a mod tuple,
`p.modified('b')` is truthy, though `b` was recorded on `q` only, after the fork. -/
theorem modified_counterexample :
    (pulseModifiesA.mod = [tuple1]
      ∧ pulseModifiesA.fields.map (fun h => h.own) = some ["a"]
      ∧ (pulseModifiesA.modified (.name "constructor")).truthy = true
      ∧ (pulseModifiesA.modified (.names ["b", "toString"])).truthy = true)
    ∧ ((recordedNames [FieldsCall.modifies 0 (.name "a"), FieldsCall.fork 0 0,
          FieldsCall.modifies 1 (.name "b")] [[]])[0]? = some ["a"]
      ∧ ((runFieldsCalls [FieldsCall.modifies 0 (.name "a"), FieldsCall.fork 0 0,
          FieldsCall.modifies 1 (.name "b")] (FieldsStore.start [[tuple1]])).modified 0
            (.name "b")).map Value.truthy = some true) := by
  refine ⟨⟨rfl, rfl, ?_, ?_⟩, ?_, ?_⟩ <;> decide

/-- C9, amended: in every sequence of `fork` and `modifies` calls on pulses that start without
a `fields` object, in which no `modifies` call is made on a pulse whose `fields` object another
pulse holds as well, for every pulse and every field name or list of field names `ns` none of
which is a property name that plain objects inherit from `Object.prototype`: `modified(ns)`
returns without failing, and its result is truthy if and only if the stored mod sequence of the
pulse is non-empty and at least one name in `ns` was recorded by an earlier `modifies` call on
this pulse or carried over by `fork`. On a pulse without a `fields` object `modified` returns `0`
for every argument, and no pulse has a `fields` object when `modifies` was never called. -/
theorem modified_spec (mods : List (List Tuple)) (calls : List FieldsCall) (p : Nat)
    (o : FieldsObj) (arg : FieldArg)
    (hns : ∀ n ∈ Arrays.array arg, n ∉ objectPrototypeKeys)
    (hcalls : unsharedCalls calls (FieldsStore.start mods) = true)
    (hp : (runFieldsCalls calls (FieldsStore.start mods)).pulses[p]? = some o) :
    ∃ v ns, (runFieldsCalls calls (FieldsStore.start mods)).modified p arg = some v
      ∧ (recordedNames calls (mods.map (fun _ => [])))[p]? = some ns
      ∧ (v.truthy = true ↔ o.mod ≠ [] ∧ ∃ n ∈ Arrays.array arg, n ∈ ns)
      ∧ (o.fields = none → ∀ arg2 : FieldArg,
          (runFieldsCalls calls (FieldsStore.start mods)).modified p arg2 = some (Value.num 0))
      ∧ ((∀ c ∈ calls, c.isFork = true) → o.fields = none) := by
  have inv := FieldsInv.run calls _ _ (FieldsInv.start mods) hcalls
  have hforks : (∀ c ∈ calls, c.isFork = true) → o.fields = none := by
    intro hc
    refine runFieldsCalls_forks calls _ hc ?_ p o hp
    intro p2 o2 hp2
    simp only [FieldsStore.start, List.getElem?_map, Option.map_eq_some'] at hp2
    obtain ⟨m, -, hm2⟩ := hp2
    rw [← hm2]
  generalize runFieldsCalls calls (FieldsStore.start mods) = s at hp inv ⊢
  generalize recordedNames calls (mods.map (fun _ => [])) = r at inv ⊢
  have hlt : p < s.pulses.length := by
    rcases List.getElem?_eq_some.mp hp with ⟨hh, _⟩
    exact hh
  have hltr : p < r.length := by rw [inv.len]; exact hlt
  obtain ⟨ns, hr⟩ : ∃ ns, r[p]? = some ns := ⟨r[p], List.getElem?_eq_getElem hltr⟩
  have hnp : ∀ n ∈ Arrays.array arg, n ≠ "__proto__" := by
    intro n hn e
    apply hns n hn
    rw [e]
    decide
  have hzero : o.fields = none → ∀ arg2 : FieldArg, s.modified p arg2 = some (Value.num 0) :=
    fun hf arg2 => FieldsStore.modified_zero s p o arg2 hp (Or.inr hf)
  by_cases hm : o.mod = []
  · refine ⟨Value.num 0, ns, FieldsStore.modified_zero s p o arg hp (Or.inl hm), hr, ?_, hzero, ?_⟩
    · simp [Value.truthy, hm]
    · exact hforks
  · have hcase : o.fields = none ∨ ∃ a, o.fields = some a := by
      cases o.fields with
      | none => exact Or.inl rfl
      | some a => exact Or.inr ⟨a, rfl⟩
    rcases hcase with hf | ⟨a, hf⟩
    · refine ⟨Value.num 0, ns, hzero hf arg, hr, ?_, hzero, fun _ => hf⟩
      constructor
      · intro h
        simp [Value.truthy] at h
      · rintro ⟨-, n, hn, hmem⟩
        obtain ⟨a, _, ha, -, -⟩ := (inv.names p o ns n hp hr (hnp n hn)).mp hmem
        rw [hf] at ha
        cases ha
    · have ha : a < s.hashes.length := inv.valid p o a hp hf
      obtain ⟨h, hh⟩ : ∃ h, s.hashes[a]? = some h :=
        ⟨s.hashes[a], List.getElem?_eq_getElem _⟩
      have hrec : ∀ n ∈ Arrays.array arg, (n ∈ ns ↔ n ∈ h.own) := by
        intro n hn
        rw [inv.names p o ns n hp hr (hnp n hn)]
        constructor
        · rintro ⟨a2, h2, ha2, hh2, hmem⟩
          rw [hf] at ha2
          cases ha2
          rw [hh] at hh2
          cases hh2
          exact hmem
        · intro hmem
          exact ⟨a, h, hf, hh, hmem⟩
      refine ⟨_, ns, FieldsStore.modified_held s p o arg a h hp hm hf hh, hr, ?_, hzero, ?_⟩
      · cases arg with
        | name f =>
          have hf2 : f ∉ objectPrototypeKeys := hns f (by simp [Arrays.array])
          simp only [Hash.get_truthy h f hf2, Arrays.array, List.mem_singleton, exists_eq_left]
          rw [hrec f (by simp [Arrays.array])]
          exact ⟨fun x => ⟨hm, x⟩, fun x => x.2⟩
        | names fs =>
          show (fs.any (fun f => (h.get f).truthy)) = true ↔ _
          rw [List.any_eq_true]
          constructor
          · rintro ⟨n, hn, ht⟩
            exact ⟨hm, n, hn, (hrec n hn).mpr ((Hash.get_truthy h n (hns n hn)).mp ht)⟩
          · rintro ⟨-, n, hn, hmem⟩
            exact ⟨n, hn, (Hash.get_truthy h n (hns n hn)).mpr ((hrec n hn).mp hmem)⟩
      · exact hforks

/-- C9, the amended claim at a concrete sequence of calls on a pulse `p` with one mod tuple:
`q = p.fork(MOD)` before any `modifies` call, then `q.modifies(['b'])` and `p.modifies('a')`.
Each pulse gets a hash object of its own, `q.modified(['a', 'b'])` is truthy because `b` was
recorded on `q`, and `p.modified('b')` is falsy. -/
theorem modified_spec_witness :
    ((∀ n ∈ Arrays.array (.names ["a", "b"]), n ∉ objectPrototypeKeys)
      ∧ unsharedCalls [FieldsCall.fork 0 MOD, FieldsCall.modifies 1 (.names ["b"]),
          FieldsCall.modifies 0 (.name "a")] (FieldsStore.start [[tuple1]]) = true)
    ∧ ((runFieldsCalls [FieldsCall.fork 0 MOD, FieldsCall.modifies 1 (.names ["b"]),
          FieldsCall.modifies 0 (.name "a")] (FieldsStore.start [[tuple1]])).modified 1
            (.names ["a", "b"])).map Value.truthy = some true
    ∧ ((runFieldsCalls [FieldsCall.fork 0 MOD, FieldsCall.modifies 1 (.names ["b"]),
          FieldsCall.modifies 0 (.name "a")] (FieldsStore.start [[tuple1]])).modified 0
            (.name "b")).map Value.truthy = some false := by
  have hns : ∀ n ∈ Arrays.array (.names ["a", "b"]), n ∉ objectPrototypeKeys := by
    intro n hn
    simp only [Arrays.array, List.mem_cons, List.mem_singleton, List.not_mem_nil, or_false] at hn
    rcases hn with rfl | rfl <;> decide
  have hnb : ∀ n ∈ Arrays.array (.name "b"), n ∉ objectPrototypeKeys := by
    intro n hn
    simp only [Arrays.array, List.mem_singleton] at hn
    subst hn
    decide
  refine ⟨⟨hns, by decide⟩, ?_, ?_⟩
  · obtain ⟨v, ns, hv, hr, hiff, -, -⟩ :=
      modified_spec [[tuple1]] [FieldsCall.fork 0 MOD, FieldsCall.modifies 1 (.names ["b"]),
        FieldsCall.modifies 0 (.name "a")] 1 ⟨some 0, [tuple1]⟩ (.names ["a", "b"]) hns
        (by decide) rfl
    have e : ns = ["b"] := Option.some.inj (hr.symm.trans (show _ = some ["b"] by decide))
    subst e
    have hv2 : v.truthy = true :=
      hiff.mpr ⟨List.cons_ne_nil _ _, "b", by simp [Arrays.array], by simp⟩
    rw [hv, Option.map_some', hv2]
  · obtain ⟨v, ns, hv, hr, hiff, -, -⟩ :=
      modified_spec [[tuple1]] [FieldsCall.fork 0 MOD, FieldsCall.modifies 1 (.names ["b"]),
        FieldsCall.modifies 0 (.name "a")] 0 ⟨some 1, [tuple1]⟩ (.name "b") hnb
        (by decide) rfl
    have e : ns = ["a"] := Option.some.inj (hr.symm.trans (show _ = some ["a"] by decide))
    subst e
    have hv2 : v.truthy = false := by
      cases hvt : v.truthy with
      | false => rfl
      | true =>
        obtain ⟨-, n, hn, hmem⟩ := hiff.mp hvt
        simp only [Arrays.array, List.mem_singleton] at hn hmem
        subst hn
        exact absurd hmem (by decide)
    rw [hv, Option.map_some', hv2]

/-! ## Tuple ids -/

theorem ingest_id (datum : Value) (n : Nat) :
    (ingest datum n).1._id = some (n + 1) ∧ (ingest datum n).2 = n + 1 := by
  unfold ingest
  constructor
  · simp only
    split <;> rfl
  · rfl

theorem Call.run_id (call : Call) (n : Nat) :
    (call.run n).1._id = some (n + 1) ∧ (call.run n).2 = n + 1 := by
  cases call with
  | ingest datum => exact ingest_id datum n
  | derive d => exact ingest_id _ n

theorem runCalls_ids (calls : List Call) :
    ∀ n : Nat, (runCalls calls n).1.map (fun t => t._id)
        = (List.range' (n + 1) calls.length).map some
      ∧ (runCalls calls n).2 = n + calls.length := by
  induction calls with
  | nil => intro n; exact ⟨rfl, rfl⟩
  | cons c cs ih =>
    intro n
    have hc := Call.run_id c n
    have hcs := ih (c.run n).2
    rw [hc.2] at hcs
    simp only [runCalls, List.map_cons, List.length_cons, List.range'_succ, hc.1, hc.2]
    refine ⟨by rw [hcs.1], ?_⟩
    rw [hcs.2]
    omega

/-- C10: in any sequence of `ingest` and `derive` calls without a `reset`, started at any value
of the counter, the ids assigned are, in call order, the counter plus 1, plus 2, and so on:
each is the previous one plus 1, they are strictly increasing, and no id is assigned twice. -/
theorem ids_strictly_increasing (calls : List Call) (n : Nat) :
    (runCalls calls n).1.map (fun t => t._id) = (List.range' (n + 1) calls.length).map some
    ∧ (List.range' (n + 1) calls.length).Pairwise (fun a b => a < b)
    ∧ ((runCalls calls n).1.map (fun t => t._id)).Nodup
    ∧ (runCalls calls n).2 = n + calls.length := by
  have h := runCalls_ids calls n
  refine ⟨h.1, List.pairwise_lt_range' _ _, ?_, h.2⟩
  rw [h.1]
  exact (List.nodup_range' _ _).map (Option.some_injective _)

end Dataflow

namespace Dataflow

/-! ## Property reads and writes on tuples -/

theorem lookup_setField_self (fields : List (String × Value)) (k : String) (v : Value) :
    (setField fields k v).lookup k = some v := by
  induction fields with
  | nil => simp [setField, List.lookup]
  | cons e rest ih =>
    obtain ⟨k2, v2⟩ := e
    by_cases h : k2 = k
    · subst h
      simp [setField, List.lookup]
    · have h2 : (k2 == k) = false := by simpa using h
      have h3 : (k == k2) = false := by simpa using fun e => h e.symm
      simp only [setField, h2, Bool.false_eq_true, if_false, List.lookup, h3]
      exact ih

theorem lookup_setField_ne (fields : List (String × Value)) (k k2 : String) (v : Value)
    (hne : k2 ≠ k) : (setField fields k v).lookup k2 = fields.lookup k2 := by
  induction fields with
  | nil =>
    have h3 : (k2 == k) = false := by simpa using hne
    simp [setField, List.lookup, h3]
  | cons e rest ih =>
    obtain ⟨k3, v3⟩ := e
    by_cases h : k3 = k
    · subst h
      have h3 : (k2 == k3) = false := by simpa using hne
      simp [setField, List.lookup, h3]
    · have h2 : (k3 == k) = false := by simpa using h
      simp only [setField, h2, Bool.false_eq_true, if_false, List.lookup]
      cases (k2 == k3)
      · exact ih
      · rfl

theorem Record.put_id (t : Record Value) (k : String) (v : Value) (hk : k ≠ "_id") :
    (t.put k v)._id = t._id := by
  have h : (k == "_id") = false := by simpa using hk
  unfold Record.put
  rw [h]
  simp only [Bool.false_eq_true, if_false]
  split
  · rfl
  · split <;> rfl

theorem Record.put_prev (t : Record Value) (k : String) (v : Value) (hk : k ≠ "_prev") :
    (t.put k v)._prev = t._prev := by
  have h : (k == "_prev") = false := by simpa using hk
  unfold Record.put
  split
  · rfl
  · rw [h]
    simp only [Bool.false_eq_true, if_false]
    split <;> rfl

/-- After the write `t[k] = v`, the read `t[k]` gives `v`, for every property name other than
`_id` and `__proto__`. -/
theorem Record.get_put_self (t : Record Value) (k : String) (v : Value) (h1 : k ≠ "_id")
    (h2 : k ≠ "__proto__") : (t.put k v).get k = v := by
  have e1 : (k == "_id") = false := by simpa using h1
  have e2 : (k == "__proto__") = false := by simpa using h2
  unfold Record.put Record.get
  simp only [e1, e2, Bool.false_eq_true, if_false]
  by_cases h3 : k = "_prev"
  · subst h3
    simp
  · have e3 : (k == "_prev") = false := by simpa using h3
    simp only [e3, Bool.false_eq_true, if_false, lookup_setField_self]

/-- The write `t[k] = v` leaves the read of every other property as it was. -/
theorem Record.get_put_ne (t : Record Value) (k k2 : String) (v : Value) (hne : k2 ≠ k) :
    (t.put k v).get k2 = t.get k2 := by
  unfold Record.put
  by_cases h1 : k = "_id"
  · subst h1
    have e : (k2 == "_id") = false := by simpa using hne
    simp [Record.get, e]
  · have e1 : (k == "_id") = false := by simpa using h1
    simp only [e1, Bool.false_eq_true, if_false]
    by_cases h2 : k = "_prev"
    · subst h2
      have e : (k2 == "_prev") = false := by simpa using hne
      simp [Record.get, e]
    · have e2 : (k == "_prev") = false := by simpa using h2
      simp only [e2, Bool.false_eq_true, if_false]
      by_cases h3 : k = "__proto__"
      · simp [h3]
      · have e3 : (k == "__proto__") = false := by simpa using h3
        simp only [e3, Bool.false_eq_true, if_false]
        unfold Record.get
        simp only [lookup_setField_ne t.fields k k2 v hne]

/-! ## Identity stability -/

theorem set_id (t : Tuple) (k : String) (v : Value) (hk : k ≠ "_id") :
    (Dataflow.set t k v).2._id = t._id := by
  unfold Dataflow.set
  split
  · rfl
  · exact Record.put_id t k v hk

theorem copy_id_prev (d : Tuple) (c : Tuple) :
    (copy d (some c))._id = c._id ∧ (copy d (some c))._prev = c._prev := by
  unfold copy
  simp only
  generalize d.fields = fs
  induction fs generalizing c with
  | nil => exact ⟨rfl, rfl⟩
  | cons e rest ih =>
    rw [List.foldl_cons]
    by_cases h : (e.1 != "_prev" && e.1 != "_id") = true
    · simp only [h, if_true]
      have hh := h
      simp only [Bool.and_eq_true, bne_iff_ne, ne_eq] at hh
      have := ih (c.put e.1 e.2)
      rw [Record.put_id c e.1 e.2 hh.2, Record.put_prev c e.1 e.2 hh.1] at this
      exact this
    · simp only [h, if_false, Bool.false_eq_true]
      exact ih c

/-- C11: for every tuple `t` and every finite sequence of mutations of it, each a call
`set(t, k, v)` with a property name `k` other than the reserved `_id` and any value `v`, or a call
`rederive(d, t)` with any tuple `d`, `id(t)` after the sequence equals `id(t)` before it. -/
theorem id_stable (t : Tuple) (ms : List Mutation) (h : ∀ m ∈ ms, m.keepsIdKey = true) :
    Dataflow.id (runMutations ms t) = Dataflow.id t := by
  induction ms generalizing t with
  | nil => rfl
  | cons m rest ih =>
    have hm := h m (List.mem_cons_self _ _)
    have hrest : ∀ x ∈ rest, x.keepsIdKey = true := fun x hx => h x (List.mem_cons_of_mem _ hx)
    show Dataflow.id (runMutations rest (m.run t)) = Dataflow.id t
    rw [ih (m.run t) hrest]
    cases m with
    | set k v =>
      have hk : k ≠ "_id" := by simpa [Mutation.keepsIdKey] using hm
      exact set_id t k v hk
    | rederive d => exact (copy_id_prev d t).1

end Dataflow

namespace Dataflow

/-- C11 at a concrete tuple: `set(t, 'a', 2)` and then `rederive(tuple2, t)` on the tuple
`{_id: 1, a: 1}` leave its id at 1. -/
theorem id_stable_witness :
    (∀ m ∈ [Mutation.set "a" (.num 2), Mutation.rederive tuple2], m.keepsIdKey = true)
    ∧ Dataflow.id (runMutations [Mutation.set "a" (.num 2), Mutation.rederive tuple2] tupleA)
        = some 1 := by
  have h : ∀ m ∈ [Mutation.set "a" (.num 2), Mutation.rederive tuple2],
      m.keepsIdKey = true := by
    intro m hm
    simp only [List.mem_cons, List.mem_singleton, List.not_mem_nil, or_false] at hm
    rcases hm with rfl | rfl <;> rfl
  exact ⟨h, (id_stable tupleA _ h).trans rfl⟩

/-! ## set -/

theorem strictEq_self (v : Value) (hv : v ≠ Value.nan) : strictEq v v = true := by
  cases v <;> simp [strictEq] at hv ⊢

/-- C12, the claim as stated fails in two ways. For `v = NaN` the test `t[k] === v` is never
true: `set(t, 'a', NaN)` returns 1, and repeated at once it returns 1 again. For `k = __proto__`
the write runs the inherited setter, which ignores the number 5: `set(t, '__proto__', 5)` returns
1, `t['__proto__']` is still the inherited object, and the repeated call returns 1 again. -/
theorem set_counterexample :
    ((Dataflow.set tupleA "a" Value.nan).1 = 1
      ∧ (Dataflow.set (Dataflow.set tupleA "a" Value.nan).2 "a" Value.nan).1 = 1
      ∧ strictEq ((Dataflow.set tupleA "a" Value.nan).2.get "a") Value.nan = false)
    ∧ ((Dataflow.set tupleA "__proto__" (Value.num 5)).1 = 1
      ∧ (Dataflow.set (Dataflow.set tupleA "__proto__" (Value.num 5)).2 "__proto__"
          (Value.num 5)).1 = 1
      ∧ strictEq ((Dataflow.set tupleA "__proto__" (Value.num 5)).2.get "__proto__")
          (Value.num 5) = false) := by
  refine ⟨⟨?_, ?_, ?_⟩, ⟨?_, ?_, ?_⟩⟩ <;> decide

/-- C12, amended: for every tuple `t`, every field `k` (a property name other than the reserved
`_id`) other than `__proto__` and every value `v` other than `NaN`: `set(t, k, v)` returns 1
exactly when `t[k] === v` is false and 0 otherwise; in both cases `t[k] === v` holds afterwards
and every other property of `t` reads as before; an immediately repeated `set(t, k, v)`
returns 0. -/
theorem set_spec (t : Tuple) (k : String) (v : Value) (h1 : k ≠ "_id") (h2 : k ≠ "__proto__")
    (hv : v ≠ Value.nan) :
    ((Dataflow.set t k v).1 = if strictEq (t.get k) v then 0 else 1)
    ∧ strictEq ((Dataflow.set t k v).2.get k) v = true
    ∧ (∀ k2, k2 ≠ k → (Dataflow.set t k v).2.get k2 = t.get k2)
    ∧ (Dataflow.set (Dataflow.set t k v).2 k v).1 = 0 := by
  have hafter : strictEq ((Dataflow.set t k v).2.get k) v = true := by
    unfold Dataflow.set
    by_cases h : strictEq (t.get k) v = true
    · simp only [h, if_true]
    · simp only [h, if_false, Bool.false_eq_true]
      rw [Record.get_put_self t k v h1 h2]
      exact strictEq_self v hv
  refine ⟨?_, hafter, ?_, ?_⟩
  · unfold Dataflow.set
    by_cases h : strictEq (t.get k) v = true
    · simp only [h, if_true]
    · simp only [h, if_false, Bool.false_eq_true]
  · intro k2 hne
    unfold Dataflow.set
    by_cases h : strictEq (t.get k) v = true
    · simp only [h, if_true]
    · simp only [h, if_false, Bool.false_eq_true]
      exact Record.get_put_ne t k k2 v hne
  · generalize (Dataflow.set t k v).2 = t2 at hafter
    unfold Dataflow.set
    simp only [hafter, if_true]

/-- C12, the amended claim at a concrete tuple: on `{_id: 1, a: 1}`, `set(t, 'a', 2)` returns 1
and the repeated call returns 0. -/
theorem set_spec_witness :
    ("a" ≠ "_id" ∧ "a" ≠ "__proto__" ∧ Value.num 2 ≠ Value.nan)
    ∧ (Dataflow.set tupleA "a" (Value.num 2)).1 = 1
    ∧ (Dataflow.set (Dataflow.set tupleA "a" (Value.num 2)).2 "a" (Value.num 2)).1 = 0 := by
  have h := set_spec tupleA "a" (Value.num 2) (by decide) (by decide) (by simp)
  exact ⟨⟨by decide, by decide, by simp⟩, h.1.trans rfl, h.2.2.2⟩

end Dataflow

namespace Dataflow

/-! ## Copy loops

`copy` and `prev_init` run the same loop over the own properties of a tuple; `g` is what the loop
stores for a value. -/

theorem loop_get_of_not_mem (g : Value → Value) (fs : List (String × Value)) (k : String)
    (hk : k ∉ fs.map Prod.fst) :
    ∀ p : Record Value,
      (fs.foldl (fun p kv => if kv.1 != "_prev" && kv.1 != "_id" then p.put kv.1 (g kv.2)
        else p) p).get k = p.get k := by
  induction fs with
  | nil => intro p; rfl
  | cons e rest ih =>
    intro p
    have hne : k ≠ e.1 := by
      intro h
      apply hk
      simp [h]
    have hrest : k ∉ rest.map Prod.fst := by
      intro h
      apply hk
      simp only [List.map_cons, List.mem_cons]
      exact Or.inr h
    rw [List.foldl_cons, ih hrest]
    split
    · exact Record.get_put_ne p e.1 k (g e.2) hne
    · rfl

theorem loop_id_prev (g : Value → Value) (fs : List (String × Value)) :
    ∀ p : Record Value,
      (fs.foldl (fun p kv => if kv.1 != "_prev" && kv.1 != "_id" then p.put kv.1 (g kv.2)
        else p) p)._id = p._id
      ∧ (fs.foldl (fun p kv => if kv.1 != "_prev" && kv.1 != "_id" then p.put kv.1 (g kv.2)
        else p) p)._prev = p._prev := by
  induction fs with
  | nil => intro p; exact ⟨rfl, rfl⟩
  | cons e rest ih =>
    intro p
    rw [List.foldl_cons]
    by_cases h : (e.1 != "_prev" && e.1 != "_id") = true
    · simp only [h, if_true]
      have hh := h
      simp only [Bool.and_eq_true, bne_iff_ne, ne_eq] at hh
      have := ih (p.put e.1 (g e.2))
      rw [Record.put_id p e.1 _ hh.2, Record.put_prev p e.1 _ hh.1] at this
      exact this
    · simp only [h, if_false, Bool.false_eq_true]
      exact ih p

theorem loop_get_of_mem (g : Value → Value) (fs : List (String × Value))
    (hnd : (fs.map Prod.fst).Nodup)
    (hres : ∀ k ∈ fs.map Prod.fst, k ≠ "_id" ∧ k ≠ "_prev") :
    ∀ (p : Record Value) (kv : String × Value), kv ∈ fs → kv.1 ≠ "__proto__" →
      (fs.foldl (fun p kv => if kv.1 != "_prev" && kv.1 != "_id" then p.put kv.1 (g kv.2)
        else p) p).get kv.1 = g kv.2 := by
  induction fs with
  | nil => intro p kv h; cases h
  | cons e rest ih =>
    intro p kv hmem hproto
    have hnd2 : (rest.map Prod.fst).Nodup := by
      simp only [List.map_cons, List.nodup_cons] at hnd
      exact hnd.2
    have he_not : e.1 ∉ rest.map Prod.fst := by
      simp only [List.map_cons, List.nodup_cons] at hnd
      exact hnd.1
    have hres2 : ∀ k ∈ rest.map Prod.fst, k ≠ "_id" ∧ k ≠ "_prev" := by
      intro k hk
      apply hres
      simp only [List.map_cons, List.mem_cons]
      exact Or.inr hk
    have he := hres e.1 (by simp)
    have hguard : (e.1 != "_prev" && e.1 != "_id") = true := by
      simp only [Bool.and_eq_true, bne_iff_ne, ne_eq]
      exact ⟨he.2, he.1⟩
    rw [List.foldl_cons]
    simp only [hguard, if_true]
    rcases List.mem_cons.mp hmem with h | h
    · subst h
      rw [loop_get_of_not_mem g rest kv.1 he_not]
      exact Record.get_put_self p kv.1 (g kv.2) he.1 hproto
    · exact ih hnd2 hres2 _ kv h hproto

/-! ## Snapshots -/

theorem set_prev (t : Tuple) (k : String) (v : Value) (hk : k ≠ "_prev") :
    (Dataflow.set t k v).2._prev = t._prev := by
  unfold Dataflow.set
  split
  · rfl
  · exact Record.put_prev t k v hk

theorem runSets_prev (sets : List (String × Value)) (h : ∀ kv ∈ sets, kv.1 ≠ "_prev") :
    ∀ t : Tuple, (runSets sets t)._prev = t._prev := by
  induction sets with
  | nil => intro t; rfl
  | cons e rest ih =>
    intro t
    show (runSets rest (Dataflow.set t e.1 e.2).2)._prev = t._prev
    rw [ih (fun kv hkv => h kv (List.mem_cons_of_mem _ hkv))]
    exact set_prev t e.1 e.2 (h e (List.mem_cons_self _ _))

theorem priorValue_eq_self (v : Value)
    (h : ∀ r o, v = Value.object r o → o._prev.truthy = false) : priorValue v = v := by
  cases v with
  | object r o =>
    have := h r o rfl
    simp [priorValue, this]
  | _ => rfl

/-- The snapshot that `prev_init` leaves in `_prev`, for a tuple without a field named `_stamp`
whose `_prev` is falsy or a snapshot object carrying the tuple's id. -/
theorem prev_init_snapshot (t : Tuple) (s : Int) (ref : Nat) (hwf : t.Rep)
    (hstamp : "_stamp" ∉ t.fields.map Prod.fst)
    (hprev : t._prev.truthy = false ∨ ∃ r p, t._prev = Value.object r p ∧ p._id = t._id) :
    ∃ r p, prev_init t s ref = some { t with _prev := Value.object r p }
      ∧ p._id = t._id ∧ p.get "_stamp" = Value.num s
      ∧ ∀ kv ∈ t.fields, kv.1 ≠ "__proto__" → p.get kv.1 = priorValue kv.2 := by
  have key : ∀ (r : Nat) (p0 : Record Value), p0._id = t._id → p0.get "_stamp" = Value.num s →
      ∃ p, t.fields.foldl (fun p kv => if kv.1 != "_prev" && kv.1 != "_id" then
            p.put kv.1 (priorValue kv.2) else p) p0 = p
        ∧ p._id = t._id ∧ p.get "_stamp" = Value.num s
        ∧ ∀ kv ∈ t.fields, kv.1 ≠ "__proto__" → p.get kv.1 = priorValue kv.2 := by
    intro r p0 hid hst
    refine ⟨_, rfl, ?_, ?_, ?_⟩
    · rw [(loop_id_prev priorValue t.fields p0).1]
      exact hid
    · rw [loop_get_of_not_mem priorValue t.fields "_stamp" hstamp]
      exact hst
    · intro kv hkv hne
      exact loop_get_of_mem priorValue t.fields hwf.1 hwf.2 p0 kv hkv hne
  rcases hprev with hfalse | ⟨r, p, hobj, hid⟩
  · obtain ⟨p, hp, h1, h2, h3⟩ :=
      key ref ⟨t._id, Value.undefined, [("_stamp", Value.num s)]⟩ rfl
        (by simp [Record.get, List.lookup])
    refine ⟨ref, p, ?_, h1, h2, h3⟩
    unfold prev_init
    simp only [hfalse, Bool.not_false, if_true]
    rw [hp]
  · have hput : (p.put "_stamp" (Value.num s)).get "_stamp" = Value.num s :=
      Record.get_put_self p "_stamp" _ (by decide) (by decide)
    have hpid : (p.put "_stamp" (Value.num s))._id = t._id := by
      rw [Record.put_id p "_stamp" _ (by decide)]
      exact hid
    obtain ⟨p2, hp, h1, h2, h3⟩ := key r _ hpid hput
    refine ⟨r, p2, ?_, h1, h2, h3⟩
    unfold prev_init
    rw [hobj]
    simp only [Value.truthy, Bool.not_true, Bool.false_eq_true, if_false]
    rw [hp]

/-- C13, the claim as stated fails in three ways. The tuple `{_id: 1, _stamp: 0, a: 1}` has a data
field named `_stamp`: the loop of `prev_init` copies it over the stamp of the snapshot, so after
`prev_init(t, 5)` and `set(t, 'a', 2)` the call `prev(t, 5)` returns the live tuple, whose `a` is
2 and whose `_stamp` is 0. And `set` can write `_prev` itself: on `{_id: 1, a: 1}`, after
`prev_init(t, 5)`, `set(t, 'a', 2)` and `set(t, '_prev', null)`, `prev(t, 5)` returns the live
tuple too. And for the tuple `{_id: 2, __proto__: 5}` the write `p['__proto__'] = 5` of
`prev_init` runs the inherited setter, so the snapshot that `prev(t, 5)` returns does not hold
the value 5 of that field. -/
theorem snapshot_counterexample :
    (((prev_init tupleStamp 5 7).bind
        (fun t1 => prev (runSets [("a", Value.num 2)] t1) 5)).map
        (fun p => (strictEq (p.get "a") (Value.num 2), strictEq (p.get "_stamp") (Value.num 0)))
      = some (true, true))
    ∧ (((prev_init tupleA 5 7).bind
        (fun t1 => prev (runSets [("a", Value.num 2), ("_prev", Value.null)] t1) 5)).map
        (fun p => (strictEq (p.get "a") (Value.num 2), strictEq (p.get "_stamp") Value.undefined))
      = some (true, true))
    ∧ (strictEq (tupleProto.get "__proto__") (Value.num 5) = true
      ∧ ((prev_init tupleProto 5 7).bind (fun t1 => prev t1 5)).map
          (fun p => (strictEq (p.get "_stamp") (Value.num 5),
            strictEq (p.get "__proto__") (Value.num 5)))
        = some (true, false)) := by
  refine ⟨?_, ?_, ?_, ?_⟩ <;> decide

/-- C13, amended: for every tuple `t` that has no field named `_stamp` (and whose `_prev`, if
any, is a snapshot carrying `t`'s id) and every stamp `s`: after `prev_init(t, s)` followed by
any number of `set` calls on `t` for property names other than `_prev`, `prev(t, s)` returns a
record that carries the id `t` had, the stamp `s` and, for every field `k` other than
`__proto__` that `t` had when the snapshot was taken, the value stored for it then: the value
`t[k]` had at that time, or that value's own snapshot when it was an object with a snapshot. -/
theorem snapshot_spec (t : Tuple) (s : Int) (ref : Nat) (sets : List (String × Value))
    (hwf : t.Rep) (hstamp : "_stamp" ∉ t.fields.map Prod.fst)
    (hprev : t._prev.truthy = false ∨ ∃ r p, t._prev = Value.object r p ∧ p._id = t._id)
    (hsets : ∀ kv ∈ sets, kv.1 ≠ "_prev") :
    ∃ t1 p, prev_init t s ref = some t1
      ∧ prev (runSets sets t1) s = some p
      ∧ p._id = t._id ∧ p.get "_stamp" = Value.num s
      ∧ (∀ kv ∈ t.fields, kv.1 ≠ "__proto__" → p.get kv.1 = priorValue kv.2)
      ∧ (∀ kv ∈ t.fields, kv.1 ≠ "__proto__" →
          (∀ r o, kv.2 = Value.object r o → o._prev.truthy = false) → p.get kv.1 = kv.2) := by
  obtain ⟨r, p, hinit, hid, hst, hf⟩ := prev_init_snapshot t s ref hwf hstamp hprev
  refine ⟨_, p, hinit, ?_, hid, hst, hf, ?_⟩
  · unfold prev
    rw [runSets_prev sets hsets]
    simp only [hst, geNumber, le_refl, decide_True]
  · intro kv hkv hne hv
    rw [hf kv hkv hne, priorValue_eq_self kv.2 hv]

theorem tupleA_Rep : tupleA.Rep := by
  constructor
  · decide
  · intro k hk
    simp only [tupleA, List.map_cons, List.map_nil, List.mem_singleton] at hk
    subst hk
    decide

/-- C13, the amended claim at a concrete tuple: on `{_id: 1, a: 1}`, after `prev_init(t, 5)`,
`set(t, 'a', 2)` and `set(t, 'a', 3)`, `prev(t, 5)` returns a record with id 1, stamp 5 and the
value 1 for `a`. -/
theorem snapshot_spec_witness :
    (tupleA.Rep ∧ "_stamp" ∉ tupleA.fields.map Prod.fst
      ∧ tupleA._prev.truthy = false
      ∧ ∀ kv ∈ [("a", Value.num 2), ("a", Value.num 3)], kv.1 ≠ "_prev")
    ∧ ∃ t1 p, prev_init tupleA 5 7 = some t1
      ∧ prev (runSets [("a", Value.num 2), ("a", Value.num 3)] t1) 5 = some p
      ∧ p._id = some 1 ∧ p.get "_stamp" = Value.num 5 ∧ p.get "a" = Value.num 1 := by
  have hs : ∀ kv ∈ [("a", Value.num 2), ("a", Value.num 3)], kv.1 ≠ "_prev" := by
    intro kv hkv
    simp only [List.mem_cons, List.mem_singleton, List.not_mem_nil, or_false] at hkv
    rcases hkv with rfl | rfl <;> decide
  have hst : "_stamp" ∉ tupleA.fields.map Prod.fst := by decide
  refine ⟨⟨tupleA_Rep, hst, rfl, hs⟩, ?_⟩
  obtain ⟨t1, p, h1, h2, h3, h4, h5, -⟩ :=
    snapshot_spec tupleA 5 7 _ tupleA_Rep hst (Or.inl rfl) hs
  exact ⟨t1, p, h1, h2, h3, h4, h5 ("a", Value.num 1) (by simp [tupleA]) (by decide)⟩

/-! ## prev -/

/-- C14: for every tuple `t` and stamp `s`, `prev(t, s)` returns the snapshot of `t` when `t` has
one and the stamp of the snapshot is a number greater than or equal to `s`; it returns `t`
itself when the stamp of the snapshot is a number below `s`, when the snapshot has no stamp,
and when `t` has no snapshot. So it never returns a snapshot whose stamp is below `s`. -/
theorem prev_spec (t : Tuple) (s : Int) :
    (∀ r p n, t._prev = Value.object r p → p.get "_stamp" = Value.num n →
      prev t s = some (if s ≤ n then p else t))
    ∧ (∀ r p n, t._prev = Value.object r p → p.get "_stamp" = Value.num n → n < s →
      prev t s = some t)
    ∧ (∀ r p, t._prev = Value.object r p →
      (p.get "_stamp" = Value.undefined ∨ p.get "_stamp" = Value.nan) → prev t s = some t)
    ∧ ((∀ r p, t._prev ≠ Value.object r p) → prev t s = some t) := by
  have first : ∀ r p n, t._prev = Value.object r p → p.get "_stamp" = Value.num n →
      prev t s = some (if s ≤ n then p else t) := by
    intro r p n hobj hst
    unfold prev
    rw [hobj]
    simp only [hst, geNumber]
    by_cases h : s ≤ n
    · simp [h]
    · simp [h]
  refine ⟨first, ?_, ?_, ?_⟩
  · intro r p n hobj hst hlt
    rw [first r p n hobj hst, if_neg (by omega)]
  · intro r p hobj hst
    unfold prev
    rw [hobj]
    rcases hst with h | h <;> simp only [h, geNumber]
  · intro hno
    unfold prev
    cases hp : t._prev with
    | object r p => exact absurd hp (hno r p)
    | _ => rfl

/-- C14 at a concrete tuple: the snapshot of `tupleSnap` has stamp 5, so `prev(t, 5)` returns
the snapshot, in which `a` is 0, and `prev(t, 6)` returns the tuple itself, in which `a` is 1. -/
theorem prev_spec_witness :
    (tupleSnap._prev
        = Value.object 7 ⟨some 1, Value.undefined, [("_stamp", Value.num 5), ("a", Value.num 0)]⟩)
    ∧ (prev tupleSnap 5).map (fun p => p.get "a") = some (Value.num 0)
    ∧ (prev tupleSnap 6).map (fun p => p.get "a") = some (Value.num 1) := by
  have h := (prev_spec tupleSnap 5).1 7 _ 5 rfl rfl
  have h6 := (prev_spec tupleSnap 6).2.1 7 _ 5 rfl rfl (by decide)
  refine ⟨rfl, ?_, ?_⟩
  · rw [h]
    rfl
  · rw [h6]
    rfl

end Dataflow

namespace Dataflow

/-! ## derive and rederive -/

theorem setField_append (pre : List (String × Value)) (k : String) (v : Value)
    (h : k ∉ pre.map Prod.fst) : setField pre k v = pre ++ [(k, v)] := by
  induction pre with
  | nil => rfl
  | cons e rest ih =>
    obtain ⟨k2, v2⟩ := e
    have hne : k2 ≠ k := by
      intro e
      apply h
      simp [e]
    have hrest : k ∉ rest.map Prod.fst := by
      intro hm
      apply h
      simp only [List.map_cons, List.mem_cons]
      exact Or.inr hm
    have h2 : (k2 == k) = false := by simpa using hne
    simp only [setField, h2, Bool.false_eq_true, if_false, List.cons_append, ih hrest]

theorem loop_fields (fs : List (String × Value)) :
    ∀ c : Record Value, ((c.fields ++ fs).map Prod.fst).Nodup →
      (∀ k ∈ fs.map Prod.fst, k ≠ "_id" ∧ k ≠ "_prev") →
      (fs.foldl (fun c kv => if kv.1 != "_prev" && kv.1 != "_id" then c.put kv.1 kv.2 else c)
        c).fields = c.fields ++ fs.filter (fun kv => kv.1 != "__proto__") := by
  induction fs with
  | nil => intro c _ _; simp
  | cons e rest ih =>
    intro c hnd hres
    have he := hres e.1 (by simp)
    have hguard : (e.1 != "_prev" && e.1 != "_id") = true := by
      simp only [Bool.and_eq_true, bne_iff_ne, ne_eq]
      exact ⟨he.2, he.1⟩
    have e1 : (e.1 == "_id") = false := by simpa using he.1
    have e2 : (e.1 == "_prev") = false := by simpa using he.2
    have hres2 : ∀ k ∈ rest.map Prod.fst, k ≠ "_id" ∧ k ≠ "_prev" := by
      intro k hk
      apply hres
      simp only [List.map_cons, List.mem_cons]
      exact Or.inr hk
    have hnd2 : ((c.fields ++ rest).map Prod.fst).Nodup := by
      refine hnd.sublist ?_
      apply List.Sublist.map
      exact List.Sublist.append_left (List.sublist_cons_self e rest) c.fields
    rw [List.foldl_cons]
    simp only [hguard, if_true]
    by_cases hp : e.1 = "__proto__"
    · have hput : c.put e.1 e.2 = c := by
        unfold Record.put
        simp [e1, e2, hp]
      have hf : (e.1 != "__proto__") = false := by simp [hp]
      rw [hput, ih c hnd2 hres2, List.filter_cons, hf]
      simp
    · have e3 : (e.1 == "__proto__") = false := by simpa using hp
      have hnot : e.1 ∉ c.fields.map Prod.fst := by
        intro hm
        rw [List.map_append, List.map_cons] at hnd
        have := (List.nodup_append.mp hnd).2.2
        exact this hm (List.mem_cons_self _ _)
      have hput : (c.put e.1 e.2).fields = c.fields ++ [e] := by
        unfold Record.put
        simp only [e1, e2, e3, Bool.false_eq_true, if_false]
        exact setField_append c.fields e.1 e.2 hnot
      have hf : (e.1 != "__proto__") = true := by simpa using hp
      rw [ih (c.put e.1 e.2) (by rw [hput]; simpa using hnd) hres2, hput, List.filter_cons, hf]
      simp

theorem derive_fields (d : Tuple) (n : Nat) :
    (derive d n).1.fields = (copy d none).fields
    ∧ (derive d n).1._prev = .undefined := by
  have h := loop_id_prev (fun v => v) d.fields ⟨none, .undefined, []⟩
  have hp : (copy d none)._prev = .undefined := h.2
  unfold derive ingest
  simp only [hp, Value.truthy, Bool.false_eq_true, if_false, and_self]

/-- C15, the claim as stated fails in two ways. After `reset()` the counter restarts: a tuple
ingested first has id 1, and `derive` of it after a `reset()` returns a record with id 1 again,
the id of the tuple itself. And for a tuple with an own property `__proto__` holding a number,
the write `c['__proto__'] = 5` of `copy` runs the inherited setter, so the derived record has no
field at all. -/
theorem derive_counterexample :
    ((ingest (Value.object 0 ⟨none, Value.undefined, [("a", Value.num 1)]⟩) 0).1._id = some 1
      ∧ (derive (ingest (Value.object 0 ⟨none, Value.undefined, [("a", Value.num 1)]⟩) 0).1
          (reset (ingest (Value.object 0 ⟨none, Value.undefined, [("a", Value.num 1)]⟩) 0).2)).1._id
        = some 1)
    ∧ ((derive tupleProto 2).1.fields.length = 0
      ∧ strictEq ((derive tupleProto 2).1.get "__proto__") (tupleProto.get "__proto__")
        = false) := by
  refine ⟨⟨?_, ?_⟩, ⟨?_, ?_⟩⟩ <;> decide

/-- C15, amended: for every tuple `d`, `derive(d)` called at counter value `n` returns a record
whose fields are those of `d` other than id, snapshot and an own property named `__proto__`,
with the same values and in the same order, that has no snapshot and has the id `n + 1`, and the
counter becomes `n + 1`. When `n` is the counter reached by a sequence of `ingest` and `derive`
calls with no `reset` in between, the new id is greater than every id assigned by that sequence,
and it differs from the id of `d` whenever that id is at most `n`. The tuple `d` is only read. -/
theorem derive_spec (d : Tuple) (calls : List Call) (c0 n : Nat) (hwf : d.Rep)
    (hn : (runCalls calls c0).2 = n) :
    (derive d n).1.fields = d.fields.filter (fun kv => kv.1 != "__proto__")
    ∧ (derive d n).1._prev = Value.undefined
    ∧ (derive d n).1._id = some (n + 1)
    ∧ (derive d n).2 = n + 1
    ∧ (∀ t ∈ (runCalls calls c0).1, ∃ i, t._id = some i ∧ i < n + 1)
    ∧ (∀ i, d._id = some i → i ≤ n → (derive d n).1._id ≠ d._id) := by
  have hid := ingest_id (Value.object 0 (copy d none)) n
  have hf := derive_fields d n
  refine ⟨?_, hf.2, hid.1, hid.2, ?_, ?_⟩
  · rw [hf.1]
    have := loop_fields d.fields ⟨none, .undefined, []⟩ (by simpa using hwf.1) hwf.2
    simpa [copy] using this
  · intro t ht
    have hids := runCalls_ids calls c0
    rw [hids.2] at hn
    have hmem : t._id ∈ (runCalls calls c0).1.map (fun t => t._id) :=
      List.mem_map.mpr ⟨t, ht, rfl⟩
    rw [hids.1] at hmem
    obtain ⟨i, hi, hti⟩ := List.mem_map.mp hmem
    have hi2 := List.mem_range'_1.mp hi
    exact ⟨i, hti.symm, by omega⟩
  · intro i hi hle h
    have h2 : (derive d n).1._id = some (n + 1) := hid.1
    rw [h2, hi] at h
    have := Option.some.inj h
    omega

/-- C15, the amended claim at a concrete tuple: after two `ingest` calls from counter 0,
`derive` of `{_id: 1, a: 1}` returns `{_id: 3, a: 1}` without a snapshot. -/
theorem derive_spec_witness :
    (tupleA.Rep
      ∧ (runCalls [Call.ingest (Value.num 7), Call.ingest (Value.num 8)] 0).2 = 2)
    ∧ (derive tupleA 2).1.fields = tupleA.fields
    ∧ (derive tupleA 2).1._id = some 3
    ∧ (derive tupleA 2).1._id ≠ tupleA._id := by
  have h := derive_spec tupleA [Call.ingest (Value.num 7), Call.ingest (Value.num 8)] 0 2
    tupleA_Rep rfl
  exact ⟨⟨tupleA_Rep, rfl⟩, h.1.trans rfl, h.2.2.1, h.2.2.2.2.2 1 rfl (by decide)⟩

/-- C16, the claim as stated fails for a tuple with an own property `__proto__` holding a
number: the write `into['__proto__'] = 5` of `copy` runs the inherited setter, so afterwards
`into['__proto__']` is still the inherited object and not 5. -/
theorem rederive_counterexample :
    strictEq (tupleProto.get "__proto__") (Value.num 5) = true
    ∧ strictEq ((rederive tupleProto tupleA).get "__proto__") (Value.num 5) = false := by
  constructor <;> decide

/-- C16, amended: for every tuple `d` that has no own property `__proto__` holding an object or
`null` (a value that would replace the prototype of `into`) and every record `into`,
`rederive(d, into)` returns `into` with every field of `d` other than id, snapshot and
`__proto__` set to the value it has in `d`, with the id and the snapshot of `into` as they
were, and with every property that `d` lacks as it was. The function does not touch the id
counter, and `d` is only read. -/
theorem rederive_spec (d into : Tuple) (hd : d.Copyable) :
    (rederive d into)._id = into._id
    ∧ (rederive d into)._prev = into._prev
    ∧ (∀ kv ∈ d.fields, kv.1 ≠ "__proto__" → (rederive d into).get kv.1 = kv.2)
    ∧ (∀ k, k ∉ d.fields.map Prod.fst → (rederive d into).get k = into.get k) := by
  have h := copy_id_prev d into
  refine ⟨h.1, h.2, ?_, ?_⟩
  · intro kv hkv hne
    exact loop_get_of_mem (fun v => v) d.fields hd.1.1 hd.1.2 into kv hkv hne
  · intro k hk
    exact loop_get_of_not_mem (fun v => v) d.fields k hk into

theorem tupleProtoA_Rep : tupleProtoA.Rep := by
  constructor
  · decide
  · intro k hk
    simp only [tupleProtoA, List.map_cons, List.map_nil, List.mem_cons, List.mem_singleton,
      List.not_mem_nil, or_false] at hk
    rcases hk with rfl | rfl <;> decide

/-- C16, the amended claim at concrete tuples: `rederive` of `{_id: 2, __proto__: 5, a: 1}` into
`{_id: 1, _prev: {...}, a: 1}` after its `a` was set to 9 gives back `a = 1`; the id and the
snapshot of the target stay, and so does its property `b`, which the source tuple lacks. -/
theorem rederive_spec_witness :
    tupleProtoA.Copyable
    ∧ (rederive tupleProtoA (Dataflow.set tupleSnap "a" (Value.num 9)).2)._id = some 1
    ∧ (rederive tupleProtoA (Dataflow.set tupleSnap "a" (Value.num 9)).2).get "a" = Value.num 1
    ∧ (rederive tupleProtoA (Dataflow.set tupleSnap "a" (Value.num 9)).2)._prev
        = tupleSnap._prev
    ∧ (rederive tupleProtoA (Dataflow.set tupleSnap "a" (Value.num 9)).2).get "b"
        = Value.undefined := by
  have hproto : ∀ kv ∈ tupleProtoA.fields, kv.1 = "__proto__" → kv.2.setsPrototype = false := by
    intro kv hkv _
    simp only [tupleProtoA, List.mem_cons, List.mem_singleton, List.not_mem_nil, or_false] at hkv
    rcases hkv with rfl | rfl <;> rfl
  have h := rederive_spec tupleProtoA (Dataflow.set tupleSnap "a" (Value.num 9)).2
    ⟨tupleProtoA_Rep, hproto⟩
  exact ⟨⟨tupleProtoA_Rep, hproto⟩, h.1.trans rfl,
    h.2.2.1 ("a", Value.num 1) (by simp [tupleProtoA]) (by decide), h.2.1.trans rfl,
    (h.2.2.2 "b" (by decide)).trans rfl⟩

/-! ## idFilter -/

theorem idMap_mem (a : List Tuple) (x : Option Nat) :
    ∀ ids : IdSet, x ∈ idMap a (some ids) ↔ x ∈ ids ∨ ∃ t ∈ a, t._id = x := by
  induction a with
  | nil => intro ids; simp [idMap]
  | cons t rest ih =>
    intro ids
    have step : idMap (t :: rest) (some ids)
        = idMap rest (some (if ids.contains t._id then ids else ids ++ [t._id])) := rfl
    have hite : x ∈ (if ids.contains t._id then ids else ids ++ [t._id])
        ↔ x ∈ ids ∨ t._id = x := by
      by_cases hc : t._id ∈ ids
      · have hc2 : ids.contains t._id = true := by simpa using hc
        rw [hc2, if_pos rfl]
        constructor
        · exact Or.inl
        · rintro (h | h)
          · exact h
          · exact h ▸ hc
      · have hc2 : ids.contains t._id = false := by simpa using hc
        rw [hc2, if_neg (by simp), List.mem_append, List.mem_singleton]
        constructor
        · rintro (h | h)
          · exact Or.inl h
          · exact Or.inr h.symm
        · rintro (h | h)
          · exact Or.inl h
          · exact Or.inr h.symm
    rw [step, ih, hite]
    simp only [List.mem_cons, exists_eq_or_imp, or_assoc]

theorem idMap_foldl_mem (l : List (List Tuple)) (x : Option Nat) :
    ∀ ids : IdSet, x ∈ l.foldl (fun ids a => idMap a (some ids)) ids
      ↔ x ∈ ids ∨ ∃ a ∈ l, ∃ t ∈ a, t._id = x := by
  induction l with
  | nil => intro ids; simp
  | cons a rest ih =>
    intro ids
    rw [List.foldl_cons, ih, idMap_mem]
    simp only [List.mem_cons, exists_eq_or_imp, or_assoc]

/-- C20: for every tuple sequence `data` and every list `rest` of further tuple sequences (of
any length, zero included), `idFilter(data, ...rest)` returns, in their original order, exactly
the elements of `data` whose id is not the id of any element of any sequence of `rest`; with no
further sequence it returns all of `data`. The result is a new array: `data` is only read. -/
theorem idFilter_spec (data : List Tuple) (rest : List (List Tuple)) :
    idFilter data rest
      = data.filter (fun x => decide (∀ a ∈ rest, ∀ t ∈ a, t._id ≠ x._id))
    ∧ idFilter data [] = data := by
  constructor
  · unfold idFilter
    apply List.filter_congr
    intro x _
    rw [not_contains_eq_decide]
    apply decide_eq_decide.mpr
    rw [idMap_foldl_mem]
    simp only [List.not_mem_nil, false_or, List.mem_reverse, not_exists, not_and]
  · simp [idFilter]

end Dataflow

namespace Dataflow

/-! ## Unique lists -/

/-- C19, the code at three calls on an empty unique list with the default id function
(`_.id`) and two distinct objects `a` and `b` that have the same id: after `add(a)`, `rem(b)`
and `add(b)` the list is `[a, b]`, two elements with the same id; with `add(a)` as the last
call it is `[a, a]`. The call `rem(b)` clears `ids[id]` though `b` is not in the list, and
`a` stays. -/
theorem uniqueList_duplicate_id :
    ((runListCalls [ListCall.add (1, "a"), ListCall.rem (2, "a"), ListCall.add (2, "a")]
        (UniqueList.new Prod.snd)).list = [(1, "a"), (2, "a")]
      ∧ ¬ ((runListCalls [ListCall.add (1, "a"), ListCall.rem (2, "a"), ListCall.add (2, "a")]
        (UniqueList.new Prod.snd)).list.map Prod.snd).Nodup)
    ∧ (runListCalls [ListCall.add (1, "a"), ListCall.rem (2, "a"), ListCall.add (1, "a")]
        (UniqueList.new Prod.snd)).list = [(1, "a"), (1, "a")] := by
  refine ⟨⟨?_, ?_⟩, ?_⟩ <;> decide

/-! ## Lookup -/

theorem fieldAt_of_getElem? (fields : List String) (i : Nat) (f : String)
    (h : fields[i]? = some f) : fieldAt fields i = f := by
  simp [fieldAt, h]

theorem fieldAt_mem (fields : List String) (i : Nat) (h : i < fields.length) :
    fieldAt fields i ∈ fields := by
  unfold fieldAt
  rw [List.getD_eq_getElem fields "undefined" h]
  exact List.getElem_mem h

theorem fieldAt_ne (fields : List String) (hnd : fields.Nodup) (i j : Nat) (hij : i < j)
    (hj : j < fields.length) : fieldAt fields i ≠ fieldAt fields j := by
  have hi : i < fields.length := by omega
  unfold fieldAt
  rw [List.getD_eq_getElem fields "undefined" hi, List.getD_eq_getElem fields "undefined" hj]
  intro h
  have := (hnd.getElem_inj_iff).mp h
  omega

theorem fieldAt_beyond (fields : List String) (i : Nat) (h : fields.length ≤ i) :
    fieldAt fields i = "undefined" := by
  simp [fieldAt, List.getElem?_eq_none h]

/-- The loop of `set` leaves every property it does not name as it was. -/
theorem Lookup.setFrom_get_of_ne (fields : List String) (index : Value → Value) (dv : Value)
    (f : String) :
    ∀ (keys : List Key) (i : Nat) (t : Tuple),
      (∀ j, j < keys.length → fieldAt fields (i + j) ≠ f) →
      (Lookup.setFrom fields index dv i keys t).get f = t.get f := by
  intro keys
  induction keys with
  | nil => intro i t _; rfl
  | cons key rest ih =>
    intro i t h
    have h0 : fieldAt fields i ≠ f := h 0 (by simp)
    have hrest : ∀ j, j < rest.length → fieldAt fields (i + 1 + j) ≠ f := by
      intro j hj
      have := h (j + 1) (by simp; omega)
      rwa [show i + (j + 1) = i + 1 + j by omega] at this
    show (Lookup.setFrom fields index dv (i + 1) rest _).get f = t.get f
    rw [ih (i + 1) _ hrest]
    exact Record.get_put_ne t _ f _ (fun e => h0 e.symm)

/-- The loop of `set` does not change what a function of the tuple returns when no write to a
property the loop names changes it. -/
theorem Lookup.setFrom_fn (fields : List String) (index : Value → Value) (dv : Value)
    (g : Tuple → Value) :
    ∀ (keys : List Key) (i : Nat) (t : Tuple),
      (∀ j, j < keys.length → ∀ (u : Tuple) (v : Value),
        g (u.put (fieldAt fields (i + j)) v) = g u) →
      g (Lookup.setFrom fields index dv i keys t) = g t := by
  intro keys
  induction keys with
  | nil => intro i t _; rfl
  | cons key rest ih =>
    intro i t h
    have hrest : ∀ j, j < rest.length → ∀ (u : Tuple) (v : Value),
        g (u.put (fieldAt fields (i + 1 + j)) v) = g u := by
      intro j hj u v
      have := h (j + 1) (by simp; omega) u v
      rwa [show i + (j + 1) = i + 1 + j by omega] at this
    show g (Lookup.setFrom fields index dv (i + 1) rest _) = g t
    rw [ih (i + 1) _ hrest]
    exact h 0 (by simp) t _

/-- What the loop of `set` leaves in the property it names at position `i + j`. -/
theorem Lookup.setFrom_get (fields : List String) (index : Value → Value) (dv : Value) :
    ∀ (keys : List Key) (i : Nat) (t : Tuple),
      (∀ j j2, j < j2 → j2 < keys.length →
        fieldAt fields (i + j) ≠ fieldAt fields (i + j2)) →
      (∀ j, j < keys.length →
        fieldAt fields (i + j) ≠ "_id" ∧ fieldAt fields (i + j) ≠ "__proto__") →
      (∀ k ∈ keys, ∀ j, j < keys.length → ∀ (u : Tuple) (v : Value),
        k.fn (u.put (fieldAt fields (i + j)) v) = k.fn u) →
      ∀ j k, keys[j]? = some k →
        (Lookup.setFrom fields index dv i keys t).get (fieldAt fields (i + j))
          = Lookup.value index dv (k.fn t) := by
  intro keys
  induction keys with
  | nil => intro i t _ _ _ j k h; simp at h
  | cons key rest ih =>
    intro i t h1 h2 h3 j k hk
    show (Lookup.setFrom fields index dv (i + 1) rest _).get (fieldAt fields (i + j)) = _
    cases j with
    | zero =>
      have hkey : key = k := by simpa using hk
      subst hkey
      have hfr : ∀ j, j < rest.length → fieldAt fields (i + 1 + j) ≠ fieldAt fields (i + 0) := by
        intro j hj
        have := h1 0 (j + 1) (by omega) (by simp; omega)
        rw [show i + (j + 1) = i + 1 + j by omega] at this
        exact fun e => this e.symm
      rw [Lookup.setFrom_get_of_ne fields index dv _ rest (i + 1) _ hfr]
      have h20 := h2 0 (by simp)
      exact Record.get_put_self t _ _ h20.1 h20.2
    | succ j =>
      have hk2 : rest[j]? = some k := by simpa using hk
      have hmem : k ∈ rest := List.getElem?_mem hk2
      have h1r : ∀ a b, a < b → b < rest.length →
          fieldAt fields (i + 1 + a) ≠ fieldAt fields (i + 1 + b) := by
        intro a b hab hb
        have := h1 (a + 1) (b + 1) (by omega) (by simp; omega)
        rwa [show i + (a + 1) = i + 1 + a by omega, show i + (b + 1) = i + 1 + b by omega] at this
      have h2r : ∀ a, a < rest.length →
          fieldAt fields (i + 1 + a) ≠ "_id" ∧ fieldAt fields (i + 1 + a) ≠ "__proto__" := by
        intro a ha
        have := h2 (a + 1) (by simp; omega)
        rwa [show i + (a + 1) = i + 1 + a by omega] at this
      have h3r : ∀ k ∈ rest, ∀ a, a < rest.length → ∀ (u : Tuple) (v : Value),
          k.fn (u.put (fieldAt fields (i + 1 + a)) v) = k.fn u := by
        intro k2 hk2m a ha u v
        have := h3 k2 (List.mem_cons_of_mem _ hk2m) (a + 1) (by simp; omega) u v
        rwa [show i + (a + 1) = i + 1 + a by omega] at this
      rw [show i + (j + 1) = i + 1 + j by omega, ih (i + 1) _ h1r h2r h3r j k hk2]
      have := h3 k (List.mem_cons_of_mem _ hmem) 0 (by simp) t
        (Lookup.value index dv (key.fn t))
      rw [Nat.add_zero] at this
      rw [this]

/-- The closure `set` is the loop over all keys, in the single key branch too. -/
theorem Lookup.set_eq_setFrom (p : LookupParams) (t : Tuple) :
    Lookup.set p t = Lookup.setFrom p.fields p.index (Lookup.defaultValue p) 0 p.keys t := by
  unfold Lookup.set
  rcases hk : p.keys with _ | ⟨key, _ | ⟨k2, rest⟩⟩ <;> rfl

/-- The method `transform` calls `set` on the tuples that `pulse.visit(flag, ...)` delivers and
returns `pulse.modifies(fields)`. -/
theorem Lookup.transform_eq (p : LookupParams) (pulse : Pulse) :
    Lookup.transform p pulse = (pulse.visit (Lookup.flag p pulse)).map
      (fun r => (r.1.map (Lookup.set p), r.2.modifies (.names p.fields))) := by
  unfold Lookup.transform
  cases pulse.visit (Lookup.flag p pulse) with
  | none => rfl
  | some r => rfl

/-- With no recorded modification and an unchanged index, `transform` visits the `add` tuples. -/
theorem Lookup.transform_add (p : LookupParams) (pulse : Pulse) (hi : p.indexModified = false)
    (hm : pulse.mod = []) (hf : pulse.addF = none) :
    Lookup.transform p pulse
      = some (pulse.add.map (Lookup.set p), pulse.modifies (.names p.fields)) := by
  have hflag : Lookup.flag p pulse = ADD := by
    unfold Lookup.flag
    simp [hi, Pulse.modified, hm, Value.truthy, ADD]
  rw [Lookup.transform_eq, hflag, visit_changes pulse ADD rfl rfl]
  simp [show has ADD ADD = true from rfl, show has ADD REM = false from rfl,
    show has ADD MOD = false from rfl, hf, Arrays.visit]

/-- The last step of the loop of `set`: the write for the last key. -/
theorem Lookup.setFrom_append (fields : List String) (index : Value → Value) (dv : Value)
    (k : Key) :
    ∀ (init : List Key) (i : Nat) (t : Tuple),
      Lookup.setFrom fields index dv i (init ++ [k]) t
        = (Lookup.setFrom fields index dv i init t).put (fieldAt fields (i + init.length))
            (Lookup.value index dv (k.fn (Lookup.setFrom fields index dv i init t))) := by
  intro init
  induction init with
  | nil => intro i t; rfl
  | cons key rest ih =>
    intro i t
    show Lookup.setFrom fields index dv (i + 1) (rest ++ [k]) _ = _
    rw [ih (i + 1)]
    rw [show i + 1 + rest.length = i + (key :: rest).length by simp; omega]
    rfl

/-- C17, the claim as stated fails in four ways, each shown on the tuple that `transform`
visits. (1) With the output field `a` named at both positions, `a` ends as the entry for the
second key, 20, and not the entry for the first, 10. (2) With a second key that reads the first
output field, `b` ends as the entry for the new value of `a`, 100, not the entry 20 for the key
value of the tuple as it was visited. (3) With a key that reads its own output field, `a` ends
as 10, and the entry for the key value of the tuple afterwards is 100. (4) With the output field
`__proto__` the write runs the inherited setter, and the property does not hold the entry. -/
theorem lookup_counterexample :
    (lookupDup.keys.length = lookupDup.fields.length
      ∧ strictEq (indexTens (keyX.fn tupleXY)) (Value.num 10) = true
      ∧ (Lookup.transform lookupDup pulseXY).map
          (fun r => r.1.map (fun t => strictEq (t.get "a") (Value.num 10))) = some [false])
    ∧ (lookupChain.keys.length = lookupChain.fields.length
      ∧ (Lookup.transform lookupChain pulseXA).map
          (fun r => r.1.map (fun t => strictEq (t.get "b") (indexTens (keyA.fn tupleXA))))
        = some [false])
    ∧ (lookupSelf.keys.length = lookupSelf.fields.length
      ∧ (Lookup.transform lookupSelf pulseA).map
          (fun r => r.1.map (fun t => strictEq (t.get "a") (indexTens (keyA.fn t))))
        = some [false])
    ∧ (lookupProto.keys.length = lookupProto.fields.length
      ∧ (Lookup.transform lookupProto pulseXY).map
          (fun r => r.1.map (fun t => strictEq (t.get "__proto__") (indexTens (keyX.fn tupleXY))))
        = some [false]) := by
  rw [Lookup.transform_add lookupDup pulseXY rfl rfl rfl,
    Lookup.transform_add lookupChain pulseXA rfl rfl rfl,
    Lookup.transform_add lookupSelf pulseA rfl rfl rfl,
    Lookup.transform_add lookupProto pulseXY rfl rfl rfl]
  refine ⟨⟨?_, ?_, ?_⟩, ⟨?_, ?_⟩, ⟨?_, ?_⟩, ⟨?_, ?_⟩⟩ <;> decide

/-- C17, amended: for every lookup table `index`, key accessors `keys` and output fields
`fields` of equal length, where the output fields are pairwise distinct, none of them is `_id`
or `__proto__`, and no write to an output field changes what a key accessor returns:
`transform` calls `set` on every tuple that `pulse.visit` delivers for its flag and on no
other; after `set(t)`, for each position `i`, `t[fields[i]]` equals `index[keys[i](t)]` when that
entry is neither `null` nor `undefined` and otherwise the default parameter (`null` when the
default is `null` or `undefined`), and `keys[i](t)` is what it was before; and for a single key
the specialised branch gives the same tuple as the general loop. -/
theorem lookup_spec (p : LookupParams) (pulse : Pulse)
    (hlen : p.keys.length = p.fields.length) (hnd : p.fields.Nodup)
    (hres : ∀ f ∈ p.fields, f ≠ "_id" ∧ f ≠ "__proto__")
    (hkeys : ∀ k ∈ p.keys, ∀ f ∈ p.fields, ∀ (u : Tuple) (v : Value),
      k.fn (u.put f v) = k.fn u) :
    Lookup.transform p pulse = (pulse.visit (Lookup.flag p pulse)).map
      (fun r => (r.1.map (Lookup.set p), r.2.modifies (FieldArg.names p.fields)))
    ∧ (∀ (t : Tuple) (i : Nat) (k : Key) (f : String),
        p.keys[i]? = some k → p.fields[i]? = some f →
        (Lookup.set p t).get f
          = (if looseEqNull (p.index (k.fn t))
              then (if looseEqNull p.default then Value.null else p.default)
              else p.index (k.fn t))
        ∧ k.fn (Lookup.set p t) = k.fn t)
    ∧ (∀ (t : Tuple) (key : Key), p.keys = [key] →
        Lookup.setSingle p.index key (fieldAt p.fields 0) (Lookup.defaultValue p) t
          = Lookup.setFrom p.fields p.index (Lookup.defaultValue p) 0 p.keys t) := by
  refine ⟨Lookup.transform_eq p pulse, ?_, ?_⟩
  · intro t i k f hk hf
    have h3 : ∀ k ∈ p.keys, ∀ j, j < p.keys.length → ∀ (u : Tuple) (v : Value),
        k.fn (u.put (fieldAt p.fields (0 + j)) v) = k.fn u := by
      intro k2 hk2 j hj u v
      rw [Nat.zero_add]
      exact hkeys k2 hk2 _ (fieldAt_mem p.fields j (by omega)) u v
    constructor
    · have h1 : ∀ j j2, j < j2 → j2 < p.keys.length →
          fieldAt p.fields (0 + j) ≠ fieldAt p.fields (0 + j2) := by
        intro j j2 hj hj2
        rw [Nat.zero_add, Nat.zero_add]
        exact fieldAt_ne p.fields hnd j j2 hj (by omega)
      have h2 : ∀ j, j < p.keys.length →
          fieldAt p.fields (0 + j) ≠ "_id" ∧ fieldAt p.fields (0 + j) ≠ "__proto__" := by
        intro j hj
        rw [Nat.zero_add]
        exact hres _ (fieldAt_mem p.fields j (by omega))
      have := Lookup.setFrom_get p.fields p.index (Lookup.defaultValue p) p.keys 0 t h1 h2 h3 i k hk
      rw [Nat.zero_add, fieldAt_of_getElem? p.fields i f hf] at this
      rw [Lookup.set_eq_setFrom, this]
      rfl
    · rw [Lookup.set_eq_setFrom]
      exact Lookup.setFrom_fn p.fields p.index (Lookup.defaultValue p) k.fn p.keys 0 t
        (h3 k (List.getElem?_mem hk))
  · intro t key h
    rw [h]
    rfl

/-- C17, the amended claim at concrete parameters: with the keys `x` and `y`, the output fields
`a` and `b` and the table `{1: 10, 2: 20, 10: 100}`, the tuple `{x: 1, y: 2}` gets `a = 10`
and `b = 20`. -/
theorem lookup_spec_witness :
    (lookupTwo.keys.length = lookupTwo.fields.length ∧ lookupTwo.fields.Nodup
      ∧ (∀ f ∈ lookupTwo.fields, f ≠ "_id" ∧ f ≠ "__proto__")
      ∧ (∀ k ∈ lookupTwo.keys, ∀ f ∈ lookupTwo.fields, ∀ (u : Tuple) (v : Value),
          k.fn (u.put f v) = k.fn u))
    ∧ (Lookup.set lookupTwo tupleXY).get "a" = Value.num 10
    ∧ (Lookup.set lookupTwo tupleXY).get "b" = Value.num 20 := by
  have hres : ∀ f ∈ lookupTwo.fields, f ≠ "_id" ∧ f ≠ "__proto__" := by
    intro f hf
    simp only [lookupTwo, List.mem_cons, List.mem_singleton, List.not_mem_nil, or_false] at hf
    rcases hf with rfl | rfl <;> decide
  have hkeys : ∀ k ∈ lookupTwo.keys, ∀ f ∈ lookupTwo.fields, ∀ (u : Tuple) (v : Value),
      k.fn (u.put f v) = k.fn u := by
    intro k hk f hf u v
    simp only [lookupTwo, List.mem_cons, List.mem_singleton, List.not_mem_nil, or_false]
      at hk hf
    rcases hk with rfl | rfl <;> rcases hf with rfl | rfl
    · exact Record.get_put_ne u "a" "x" v (by decide)
    · exact Record.get_put_ne u "b" "x" v (by decide)
    · exact Record.get_put_ne u "a" "y" v (by decide)
    · exact Record.get_put_ne u "b" "y" v (by decide)
  have h := (lookup_spec lookupTwo pulseXY rfl (by decide) hres hkeys).2.1
  exact ⟨⟨rfl, by decide, hres, hkeys⟩,
    ((h tupleXY 0 keyX "a" rfl rfl).1).trans rfl, ((h tupleXY 1 keyY "b" rfl rfl).1).trans rfl⟩

/-- C18, the claim as stated fails: with two keys and one output field `transform` raises no
error; it visits the tuple `{x: 1, y: 2}` and writes `a = 10` for the first key and, for the
second key, the property named `undefined`, with the value 20. -/
theorem lookup_mismatch_counterexample :
    lookupShort.keys.length ≠ lookupShort.fields.length
    ∧ (Lookup.transform lookupShort pulseXY).map (fun r => r.1.map (fun t =>
        (strictEq (t.get "a") (Value.num 10), strictEq (t.get "undefined") (Value.num 20))))
      = some [(true, true)]
    ∧ strictEq (tupleXY.get "a") (Value.num 10) = false := by
  rw [Lookup.transform_add lookupShort pulseXY rfl rfl rfl]
  refine ⟨?_, ?_, ?_⟩ <;> decide

/-- C18, amended: a Lookup operator given `keys` and `fields` arrays of different lengths is
not rejected. Its `transform` raises no error for the mismatch: whenever `pulse.visit` delivers
tuples, `transform` calls `set` on each of them and returns `pulse.modifies(fields)`. The call
`set(t)` writes only the properties named `fields[i]` for the key positions `i`, where the name
is `undefined` beyond the end of `fields`. With more keys than fields the last write goes to the
property named `undefined`; with fewer keys than pairwise distinct fields the surplus fields are
left as they were. -/
theorem lookup_mismatch_spec (p : LookupParams) (pulse : Pulse)
    (hlen : p.keys.length ≠ p.fields.length) :
    (∀ visited q, pulse.visit (Lookup.flag p pulse) = some (visited, q) →
      Lookup.transform p pulse
        = some (visited.map (Lookup.set p), q.modifies (FieldArg.names p.fields)))
    ∧ (∀ (t : Tuple) (f : String), (∀ i, i < p.keys.length → fieldAt p.fields i ≠ f) →
        (Lookup.set p t).get f = t.get f)
    ∧ ((p.fields.length < p.keys.length
        ∧ ∃ (init : List Key) (k : Key), p.keys = init ++ [k] ∧ ∀ t : Tuple, Lookup.set p t
          = (Lookup.setFrom p.fields p.index (Lookup.defaultValue p) 0 init t).put "undefined"
              (Lookup.value p.index (Lookup.defaultValue p)
                (k.fn (Lookup.setFrom p.fields p.index (Lookup.defaultValue p) 0 init t))))
      ∨ (p.keys.length < p.fields.length
        ∧ (p.fields.Nodup → ∀ (t : Tuple) (i : Nat) (f : String),
            p.keys.length ≤ i → p.fields[i]? = some f →
            (Lookup.set p t).get f = t.get f))) := by
  have frame : ∀ (t : Tuple) (f : String), (∀ i, i < p.keys.length → fieldAt p.fields i ≠ f) →
      (Lookup.set p t).get f = t.get f := by
    intro t f h
    rw [Lookup.set_eq_setFrom]
    apply Lookup.setFrom_get_of_ne
    intro j hj
    rw [Nat.zero_add]
    exact h j hj
  refine ⟨?_, frame, ?_⟩
  · intro visited q hv
    rw [Lookup.transform_eq, hv]
    rfl
  · rcases Nat.lt_or_gt_of_ne hlen with h | h
    · right
      refine ⟨h, ?_⟩
      intro hnd t i f hi hf
      apply frame
      intro j hj
      have hi2 : i < p.fields.length := by
        rcases List.getElem?_eq_some.mp hf with ⟨hh, _⟩
        exact hh
      rw [← fieldAt_of_getElem? p.fields i f hf]
      exact fieldAt_ne p.fields hnd j i (by omega) hi2
    · left
      refine ⟨h, ?_⟩
      have hne : p.keys ≠ [] := by
        intro e
        rw [e] at h
        simp at h
      refine ⟨p.keys.dropLast, p.keys.getLast hne, (List.dropLast_append_getLast hne).symm, ?_⟩
      intro t
      have hk := (List.dropLast_append_getLast hne).symm
      have hlen2 : p.fields.length ≤ p.keys.dropLast.length := by
        rw [List.length_dropLast]
        omega
      rw [Lookup.set_eq_setFrom]
      conv_lhs => rw [hk]
      rw [Lookup.setFrom_append, Nat.zero_add, fieldAt_beyond p.fields _ hlen2]

/-- C18, the amended claim at concrete parameters: with two keys and one output field,
`transform` on a pulse with one added tuple returns that tuple after `set` and the pulse after
`modifies(['a'])`. -/
theorem lookup_mismatch_spec_witness :
    lookupShort.keys.length ≠ lookupShort.fields.length
    ∧ pulseXY.visit (Lookup.flag lookupShort pulseXY) = some ([tupleXY], pulseXY)
    ∧ Lookup.transform lookupShort pulseXY
      = some ([tupleXY].map (Lookup.set lookupShort), pulseXY.modifies (FieldArg.names ["a"])) := by
  have hv : pulseXY.visit (Lookup.flag lookupShort pulseXY) = some ([tupleXY], pulseXY) := by
    rw [show Lookup.flag lookupShort pulseXY = ADD from rfl, visit_changes pulseXY ADD rfl rfl]
    rfl
  exact ⟨by decide, hv, (lookup_mismatch_spec lookupShort pulseXY (by decide)).1 _ _ hv⟩

end Dataflow
